import Mathlib

/-!
Verification of the URL state codec of the baby-tracker application
(`src/utils/urlState.js`, `src/utils/schemaMapping.js`,
`src/utils/timestampCompression.js`, `src/utils/dataCompression.js`,
`src/utils/encryption.js`).

The JavaScript is shallowly embedded:

* JS values are the inductive `JVal`.  Numbers are modelled as `Option Int`
  (`none` is `NaN`; the model restricts JS doubles to integers, which covers
  every value the codec itself produces).  `Date` objects are `jdate
  (Option Int)` holding milliseconds since epoch (`none` is an Invalid Date);
  the ±8.64e15 ms range clip of real `Date` is not modelled.
* The platform primitives `JSON.stringify` / `JSON.parse` are modelled by the
  concrete writer `writeJ` and reader `readTop` below (integer numerals only,
  no insignificant whitespace accepted, no `\uXXXX` surrogate escapes); the
  writer returns `none` exactly where the real pipeline would need
  `Date.prototype.toJSON`, which the codec never relies on because timestamps
  are converted to numbers before serialisation.
* `btoa` / `atob` are the concrete byte-level base64 codec `btoaL` / `atobL`;
  `unescape(encodeURIComponent s)` and `decodeURIComponent (escape s)` are the
  UTF-8 codec `utf8EncodeL` / `utf8DecodeL`.
* Local-calendar arithmetic (`new Date(y, m, d)` on the current locale) is
  modelled with a constant UTC-offset parameter `tz` (milliseconds to add to
  UTC to obtain local time; real zones have no DST in this model):
  `new Date(d.getFullYear(), d.getMonth(), d.getDate())` is exactly the local
  midnight of the day containing `d`, i.e. `localDayStart`.
* `getDateKey` produces the ISO `YYYY-MM-DD` string of the UTC day of a
  timestamp, used only as a grouping key and reparsed by
  `new Date(key + 'T12:00:00Z')` to the UTC noon of that day.  The model
  replaces the string by the injectively corresponding UTC day number.
* Date-string parsing (`new Date(someString)`) is not modelled (it yields an
  Invalid Date in the model); the claims below only concern events whose
  timestamps are `Date` objects or numbers.
-/

namespace BabyCodec

/-- A JavaScript value as the codec manipulates them.  `jnum none` is `NaN`,
`jdate none` is an Invalid Date, `undef` is `undefined`. -/
inductive JVal : Type where
  | undef : JVal
  | jnull : JVal
  | jbool : Bool → JVal
  | jnum : Option Int → JVal
  | jstr : String → JVal
  | jdate : Option Int → JVal
  | jarr : List JVal → JVal
  | jobj : List (String × JVal) → JVal

/-- The fields of a JS object: keys with values, in insertion order. -/
abbrev Fields := List (String × JVal)

/-- JS truthiness: `undefined`, `null`, `false`, `0`, `NaN` and the empty
string are falsy; every object (so every `Date`, array and plain object,
valid or not) is truthy. -/
def truthy : JVal → Bool
  | .undef => false
  | .jnull => false
  | .jbool b => b
  | .jnum (some n) => n ≠ 0
  | .jnum none => false
  | .jstr s => s ≠ ""
  | .jdate _ => true
  | .jarr _ => true
  | .jobj _ => true

/-- Keys written by JS assignment: replace in place if present, else append
(JS objects keep the original position of an updated key). -/
def setField : Fields → String → JVal → Fields
  | [], k, v => [(k, v)]
  | (k', v') :: fs, k, v =>
      if k' = k then (k, v) :: fs else (k', v') :: setField fs k v

/-- Decimal index encoded by a property key, if any (for string/array
indexing). -/
def keyIndex (k : String) : Option Nat :=
  if k ≠ "" && k.data.all (fun c => '0' ≤ c && c ≤ '9') then
    some (k.data.foldl (fun a c => a * 10 + (c.toNat - 48)) 0)
  else none

/-- Property read `v[k]`: objects by key (first, and in this model only,
binding), arrays and strings by decimal index; anything else is
`undefined`. -/
def getField (v : JVal) (k : String) : JVal :=
  match v with
  | .jobj fs =>
      match fs.find? (fun kv => kv.1 = k) with
      | some kv => kv.2
      | none => .undef
  | .jarr xs =>
      match keyIndex k with
      | some i => (xs.getD i .undef)
      | none => .undef
  | .jstr s =>
      match keyIndex k with
      | some i =>
          match s.data.get? i with
          | some c => .jstr (String.mk [c])
          | none => .undef
      | none => .undef
  | _ => (.undef)

/-- The own enumerable keys seen by `{...v}` and `for (key in v)`: an
object's keys, a string's or array's index keys, nothing otherwise. -/
def ownKeys : JVal → List String
  | .jobj fs => fs.map (·.1)
  | .jarr xs => (List.range xs.length).map (fun i => toString i)
  | .jstr s => (List.range s.length).map (fun i => toString i)
  | _ => []

/-- The field list produced by spreading `v` into an object literal. -/
def spreadFields (v : JVal) : Fields :=
  match v with
  | .jobj fs => fs
  | .jarr xs => (ownKeys (.jarr xs)).map (fun k => (k, getField (.jarr xs) k))
  | .jstr s => (ownKeys (.jstr s)).map (fun k => (k, getField (.jstr s) k))
  | _ => []

/-- JS `ToNumber` restricted to the model: numbers and dates give their
numeric value, `null`/booleans their usual coercions, strings their decimal
integer reading if they have one (fractional, exponent and non-decimal forms
are outside the model and give `NaN`, as do objects and arrays). -/
def toNumber : JVal → Option Int
  | .jnum n => n
  | .jnull => some 0
  | .jbool b => some (if b then 1 else 0)
  | .jdate t => t
  | .jstr s =>
      if s = "" then some 0
      else if s.data.all (fun c => '0' ≤ c && c ≤ '9') then
        some ((s.data.foldl (fun a c => a * 10 + (c.toNat - 48)) 0 : Nat) : Int)
      else none
  | _ => none

/-- The `Date` constructor on one argument.  Strings go through date-string
parsing, which the model does not cover: they give an Invalid Date here. -/
def newDate : JVal → JVal
  | .jnum n => .jdate n
  | .jdate t => .jdate t
  | .jnull => .jdate (some 0)
  | .jbool b => .jdate (some (if b then 1 else 0))
  | _ => .jdate none

/-- Milliseconds of `v instanceof Date ? v : new Date(v)`, `none` when that
date is invalid. -/
def dateMsOf (v : JVal) : Option Int :=
  match v with
  | .jdate t => t
  | w => match newDate w with
         | .jdate t => t
         | _ => none

/-- Is this exactly `undefined`? -/
def isUndef : JVal → Bool
  | .undef => true
  | _ => false

/-- String equality test against a literal (JS `===` with a string). -/
def isStrEq (v : JVal) (s : String) : Bool :=
  match v with
  | .jstr s' => s' = s
  | _ => false

end BabyCodec

namespace BabyCodec

/-! ## The JSON text layer (model of the platform `JSON` object) -/

/-- Decimal digit character. -/
def digCh (d : Nat) : Char := Char.ofNat (48 + d)

/-- Lower-case hexadecimal digit character. -/
def hexCh (d : Nat) : Char := if d < 10 then Char.ofNat (48 + d) else Char.ofNat (87 + d)

/-- Worker for `natChars`: structural on a fuel that bounds the recursion
depth, so that the kernel can evaluate numerals in concrete tokens. -/
def natCharsGo : Nat → Nat → List Char → List Char
  | 0, n, acc => digCh n :: acc
  | fuel + 1, n, acc =>
      if n < 10 then digCh n :: acc
      else natCharsGo fuel (n / 10) (digCh (n % 10) :: acc)

/-- Decimal digits of `n`, most significant first (the fuel `n` always
suffices; `natChars_eq` below is the defining recurrence). -/
def natChars (n : Nat) : List Char := natCharsGo n n []

/-- The characters `JSON.stringify` would print for the integer `i`. -/
def intChars (i : Int) : List Char :=
  if i < 0 then '-' :: natChars i.natAbs else natChars i.natAbs

/-- One string character as escaped by `JSON.stringify`: the five short
escapes, `\u00XX` for the remaining control characters, everything else
literal. -/
def escCh (c : Char) : List Char :=
  if c = '"' then ['\\', '"']
  else if c = '\\' then ['\\', '\\']
  else if c = Char.ofNat 8 then ['\\', 'b']
  else if c = Char.ofNat 9 then ['\\', 't']
  else if c = Char.ofNat 10 then ['\\', 'n']
  else if c = Char.ofNat 12 then ['\\', 'f']
  else if c = Char.ofNat 13 then ['\\', 'r']
  else if c.toNat < 32 then ['\\', 'u', '0', '0', hexCh (c.toNat / 16), hexCh (c.toNat % 16)]
  else [c]

/-- A JSON string literal for `s`, quotes included. -/
def strChars (s : String) : List Char :=
  '"' :: (s.data.flatMap escCh ++ ['"'])

/-- Comma-join rendered members. -/
def joinComma : List (List Char) → List Char
  | [] => []
  | [m] => m
  | m :: ms => m ++ ',' :: joinComma ms

mutual
/-- `JSON.stringify` (without replacer or spacing).  `none` marks the one
spot outside the model: serialising a `Date` or a top-level `undefined`,
which the codec never does (timestamps are numbers by then).  `NaN` prints
as `null`, exactly as in JS. -/
def writeJ : JVal → Option (List Char)
  | .undef => none
  | .jdate _ => none
  | .jnull => some ['n', 'u', 'l', 'l']
  | .jbool true => some ['t', 'r', 'u', 'e']
  | .jbool false => some ['f', 'a', 'l', 's', 'e']
  | .jnum (some n) => some (intChars n)
  | .jnum none => some ['n', 'u', 'l', 'l']
  | .jstr s => some (strChars s)
  | .jarr xs => do
      let body ← writeItems xs
      some ('[' :: (joinComma body ++ [']']))
  | .jobj fs => do
      let body ← writePairs fs
      some ('{' :: (joinComma body ++ ['}']))

/-- One rendered array element; an `undefined` element prints as `null`
(as in JS). -/
def writeItemOf : JVal → Option (List Char)
  | .undef => some ['n', 'u', 'l', 'l']
  | v => writeJ v

/-- Rendered array elements, in order. -/
def writeItems : List JVal → Option (List (List Char))
  | [] => some []
  | x :: xs => do
      let cx ← writeItemOf x
      let rest ← writeItems xs
      some (cx :: rest)

/-- Rendered object members, in order; members whose value is `undefined`
are dropped (as in JS). -/
def writePairs : List (String × JVal) → Option (List (List Char))
  | [] => some []
  | (k, v) :: fs =>
      if isUndef v then writePairs fs
      else do
        let cv ← writeJ v
        let rest ← writePairs fs
        some ((strChars k ++ ':' :: cv) :: rest)
end

mutual
/-- Fuel-structural clone of `writeJ`, so that the kernel can evaluate the
writer on concrete states (`writeJ` itself is compiled by well-founded
recursion); `none` also on fuel exhaustion.  `writeJF_sound` transfers its
results to `writeJ`. -/
def writeJF : Nat → JVal → Option (List Char)
  | 0, _ => none
  | _ + 1, .undef => none
  | _ + 1, .jdate _ => none
  | _ + 1, .jnull => some ['n', 'u', 'l', 'l']
  | _ + 1, .jbool true => some ['t', 'r', 'u', 'e']
  | _ + 1, .jbool false => some ['f', 'a', 'l', 's', 'e']
  | _ + 1, .jnum (some n) => some (intChars n)
  | _ + 1, .jnum none => some ['n', 'u', 'l', 'l']
  | _ + 1, .jstr s => some (strChars s)
  | fuel + 1, .jarr xs => do
      let body ← writeItemsF fuel xs
      some ('[' :: (joinComma body ++ [']']))
  | fuel + 1, .jobj fs => do
      let body ← writePairsF fuel fs
      some ('{' :: (joinComma body ++ ['}']))

/-- Fuel-structural clone of `writeItems` (with `writeItemOf` inlined). -/
def writeItemsF : Nat → List JVal → Option (List (List Char))
  | 0, _ => none
  | _ + 1, [] => some []
  | fuel + 1, x :: xs => do
      let cx ← (if isUndef x then some ['n', 'u', 'l', 'l'] else writeJF fuel x)
      let rest ← writeItemsF fuel xs
      some (cx :: rest)

/-- Fuel-structural clone of `writePairs`. -/
def writePairsF : Nat → List (String × JVal) → Option (List (List Char))
  | 0, _ => none
  | _ + 1, [] => some []
  | fuel + 1, (k, v) :: fs =>
      if isUndef v then writePairsF fuel fs
      else do
        let cv ← writeJF fuel v
        let rest ← writePairsF fuel fs
        some ((strChars k ++ ':' :: cv) :: rest)
end

/-- Is `c` a decimal digit? -/
def isDig (c : Char) : Bool := '0' ≤ c && c ≤ '9'

/-- Longest digit run at the head, as digit values, with the rest. -/
def takeDigs : List Char → List Nat × List Char
  | c :: cs =>
      if isDig c then
        let (ds, r) := takeDigs cs
        ((c.toNat - 48) :: ds, r)
      else ([], c :: cs)
  | [] => ([], [])

/-- The number a big-endian digit-value run denotes. -/
def digsVal (ds : List Nat) : Nat := ds.foldl (fun a d => a * 10 + d) 0

/-- Value of a hexadecimal digit character, if it is one. -/
def hexDigVal (c : Char) : Option Nat :=
  if '0' ≤ c && c ≤ '9' then some (c.toNat - 48)
  else if 'a' ≤ c && c ≤ 'f' then some (c.toNat - 87)
  else if 'A' ≤ c && c ≤ 'F' then some (c.toNat - 55)
  else none

/-- The contents of a string literal after the opening quote, with the rest
of the input.  Accepts the JSON escapes; a `\uXXXX` escape naming a
surrogate is outside the model (it is rejected rather than forming a lone
UTF-16 unit). -/
def readStr (acc : List Char) : List Char → Option (String × List Char)
  | '"' :: r => some (String.mk acc.reverse, r)
  | '\\' :: 'u' :: a :: b :: c :: d :: r => do
      let va ← hexDigVal a
      let vb ← hexDigVal b
      let vc ← hexDigVal c
      let vd ← hexDigVal d
      let n := ((va * 16 + vb) * 16 + vc) * 16 + vd
      if n < 0xd800 then readStr (Char.ofNat n :: acc) r else none
  | '\\' :: e :: r =>
      if e = '"' then readStr ('"' :: acc) r
      else if e = '\\' then readStr ('\\' :: acc) r
      else if e = '/' then readStr ('/' :: acc) r
      else if e = 'b' then readStr (Char.ofNat 8 :: acc) r
      else if e = 'f' then readStr (Char.ofNat 12 :: acc) r
      else if e = 'n' then readStr (Char.ofNat 10 :: acc) r
      else if e = 't' then readStr (Char.ofNat 9 :: acc) r
      else if e = 'r' then readStr (Char.ofNat 13 :: acc) r
      else none
  | c :: r => if c.toNat < 32 then none else readStr (c :: acc) r
  | [] => none

mutual
/-- `JSON.parse`, restricted as documented at the top of the file: integer
numerals only, no insignificant whitespace.  Inputs outside the restriction
fail to parse, which the caller treats like any other malformed token.
Duplicate object keys follow JS semantics (last wins, first position),
because members are accumulated with `setField`. -/
def readVal : Nat → List Char → Option (JVal × List Char)
  | 0, _ => none
  | _ + 1, 'n' :: 'u' :: 'l' :: 'l' :: r => some (.jnull, r)
  | _ + 1, 't' :: 'r' :: 'u' :: 'e' :: r => some (.jbool true, r)
  | _ + 1, 'f' :: 'a' :: 'l' :: 's' :: 'e' :: r => some (.jbool false, r)
  | _ + 1, '"' :: r => do
      let (s, r') ← readStr [] r
      some (.jstr s, r')
  | fuel + 1, '[' :: r =>
      match r with
      | ']' :: r' => some (.jarr [], r')
      | _ => do
          let (xs, r') ← readItems fuel r
          some (.jarr xs, r')
  | fuel + 1, '{' :: r =>
      match r with
      | '}' :: r' => some (.jobj [], r')
      | _ => do
          let (fs, r') ← readPairs fuel [] r
          some (.jobj fs, r')
  | _ + 1, '-' :: r =>
      match takeDigs r with
      | ([], _) => none
      | (ds, r') => some (.jnum (some (-(digsVal ds : Int))), r')
  | _ + 1, c :: r =>
      if isDig c then
        match takeDigs (c :: r) with
        | (ds, r') => some (.jnum (some (digsVal ds : Int)), r')
      else none
  | _ + 1, [] => none

/-- One-or-more comma-separated array elements, then `]`. -/
def readItems (fuel : Nat) (cs : List Char) : Option (List JVal × List Char) :=
  match fuel with
  | 0 => none
  | fuel + 1 => do
      let (v, r) ← readVal fuel cs
      match r with
      | ',' :: r' => do
          let (vs, r'') ← readItems fuel r'
          some (v :: vs, r'')
      | ']' :: r' => some ([v], r')
      | _ => none

/-- One-or-more comma-separated members, then `}`, accumulated into `acc`
with JS duplicate-key semantics. -/
def readPairs (fuel : Nat) (acc : Fields) (cs : List Char) :
    Option (Fields × List Char) :=
  match fuel with
  | 0 => none
  | fuel + 1 =>
      match cs with
      | '"' :: r => do
          let (k, r1) ← readStr [] r
          match r1 with
          | ':' :: r2 => do
              let (v, r3) ← readVal fuel r2
              match r3 with
              | ',' :: r4 => readPairs fuel (setField acc k v) r4
              | '}' :: r4 => some (setField acc k v, r4)
              | _ => none
          | _ => none
      | _ => none
end

/-- Parse a complete document: one value consuming the whole input. -/
def readTop (cs : List Char) : Option JVal :=
  match readVal (cs.length + 1) cs with
  | some (v, []) => some v
  | _ => none

/-! ## UTF-8 (model of `unescape(encodeURIComponent ·)` and its inverse) -/

/-- UTF-8 bytes of one scalar value. -/
def utf8Ch (c : Char) : List Nat :=
  let n := c.toNat
  if n < 0x80 then [n]
  else if n < 0x800 then [0xc0 + n / 64, 0x80 + n % 64]
  else if n < 0x10000 then [0xe0 + n / 4096, 0x80 + n / 64 % 64, 0x80 + n % 64]
  else [0xf0 + n / 262144, 0x80 + n / 4096 % 64, 0x80 + n / 64 % 64, 0x80 + n % 64]

/-- UTF-8 bytes of a character list. -/
def utf8EncodeL (cs : List Char) : List Nat := cs.flatMap utf8Ch

/-- One byte of UTF-8 decoding: `need` outstanding continuation bytes and
the partial scalar `acc`.  A finished scalar must be a valid (non-surrogate,
in-range) code point, matching `decodeURIComponent` raising a `URIError` on
malformed input; overlong forms are not rejected, a harmless enlargement of
the accepted set since every failure path of the caller is the same. -/
def utf8DecAux : List Nat → Nat → Nat → Option (List Char)
  | [], need, _ => if need = 0 then some [] else none
  | b :: r, 0, _ =>
      if b < 0x80 then (utf8DecAux r 0 0).map (Char.ofNat b :: ·)
      else if b < 0xc0 then none
      else if b < 0xe0 then utf8DecAux r 1 (b - 0xc0)
      else if b < 0xf0 then utf8DecAux r 2 (b - 0xe0)
      else if b < 0xf8 then utf8DecAux r 3 (b - 0xf0)
      else none
  | b :: r, need + 1, acc =>
      if 0x80 ≤ b ∧ b < 0xc0 then
        if need = 0 then
          if acc * 64 + (b - 0x80) < 0xd800 ∨
             (0xdfff < acc * 64 + (b - 0x80) ∧ acc * 64 + (b - 0x80) < 0x110000) then
            (utf8DecAux r 0 0).map (Char.ofNat (acc * 64 + (b - 0x80)) :: ·)
          else none
        else utf8DecAux r need (acc * 64 + (b - 0x80))
      else none

/-- Decode UTF-8 bytes back to characters; `none` on malformed input. -/
def utf8DecodeL (bs : List Nat) : Option (List Char) := utf8DecAux bs 0 0

/-! ## Base64 and the URL-safe alphabet (model of `btoa` / `atob` and the
regex substitutions in `urlState.js` / `encryption.js`) -/

/-- The base64 alphabet. -/
def b64Ch (d : Nat) : Char :=
  if d < 26 then Char.ofNat (65 + d)
  else if d < 52 then Char.ofNat (97 + (d - 26))
  else if d < 62 then Char.ofNat (48 + (d - 52))
  else if d = 62 then '+'
  else '/'

/-- Value of a base64 character. -/
def b64Val (c : Char) : Option Nat :=
  if 'A' ≤ c && c ≤ 'Z' then some (c.toNat - 65)
  else if 'a' ≤ c && c ≤ 'z' then some (c.toNat - 97 + 26)
  else if '0' ≤ c && c ≤ '9' then some (c.toNat - 48 + 52)
  else if c = '+' then some 62
  else if c = '/' then some 63
  else none

/-- `btoa`: 3 bytes to 4 characters, with `=` padding on a short tail. -/
def btoaL : List Nat → List Char
  | [] => []
  | [b0] =>
      [b64Ch (b0 / 4), b64Ch (b0 % 4 * 16), '=', '=']
  | [b0, b1] =>
      [b64Ch (b0 / 4), b64Ch (b0 % 4 * 16 + b1 / 16), b64Ch (b1 % 16 * 4), '=']
  | b0 :: b1 :: b2 :: bs =>
      b64Ch (b0 / 4) :: b64Ch (b0 % 4 * 16 + b1 / 16) ::
      b64Ch (b1 % 16 * 4 + b2 / 64) :: b64Ch (b2 % 64) :: btoaL bs

/-- `atob`: groups of 4 characters back to bytes; `=` padding only in the
last group; `none` on a character outside the alphabet or a malformed
group. -/
def atobL : List Char → Option (List Nat)
  | [] => some []
  | c0 :: c1 :: c2 :: c3 :: cs =>
      if cs = [] then
        if c3 = '=' then
          if c2 = '=' then do
            let v0 ← b64Val c0
            let v1 ← b64Val c1
            some [v0 * 4 + v1 / 16]
          else do
            let v0 ← b64Val c0
            let v1 ← b64Val c1
            let v2 ← b64Val c2
            some [v0 * 4 + v1 / 16, v1 % 16 * 16 + v2 / 4]
        else do
          let v0 ← b64Val c0
          let v1 ← b64Val c1
          let v2 ← b64Val c2
          let v3 ← b64Val c3
          some [v0 * 4 + v1 / 16, v1 % 16 * 16 + v2 / 4, v2 % 4 * 64 + v3]
      else do
        let v0 ← b64Val c0
        let v1 ← b64Val c1
        let v2 ← b64Val c2
        let v3 ← b64Val c3
        let rest ← atobL cs
        some ((v0 * 4 + v1 / 16) :: (v1 % 16 * 16 + v2 / 4) :: (v2 % 4 * 64 + v3) :: rest)
  | _ => none

/-- The URL-safe substitution on one character, encode side. -/
def toUrlSafeCh (c : Char) : Char :=
  if c = '+' then '-' else if c = '/' then '_' else c

/-- The URL-safe substitution on one character, decode side. -/
def fromUrlSafeCh (c : Char) : Char :=
  if c = '-' then '+' else if c = '_' then '/' else c

/-- The encoder's global substitutions: plus to dash, slash to underscore,
equals removed. -/
def toUrlSafe (cs : List Char) : List Char :=
  (cs.map toUrlSafeCh).filter (fun c => c ≠ '=')

/-- The decoder's global substitutions, dash to plus and underscore to
slash, plus the `while (length % 4)` padding loop. -/
def fromUrlSafe (cs : List Char) : List Char :=
  let std := cs.map fromUrlSafeCh
  std ++ List.replicate ((4 - std.length % 4) % 4) '='

/-! ## `schemaMapping.js` -/

/-- `FIELD_MAPPING`, display name to URL name, in source order. -/
def FIELD_MAPPING : List (String × String) :=
  [("eventType", "t"), ("type", "ty"), ("amount", "a"),
   ("timestamp", "ts"), ("id", "i"), ("consistency", "c")]

/-- `REVERSE_MAPPING`, URL name to display name. -/
def REVERSE_MAPPING : List (String × String) :=
  FIELD_MAPPING.map (fun kv => (kv.2, kv.1))

/-- Does `REVERSE_MAPPING` bind this URL name?  (`!REVERSE_MAPPING[key]` in
the source: all six display names are nonempty strings, hence truthy.) -/
def isShortName (k : String) : Bool :=
  (REVERSE_MAPPING.find? (fun kv => kv.1 = k)).isSome

/-- `minifyEvent`: copy each mapped field that is not `undefined` to its
short name, in mapping order.  Nothing else is copied. -/
def minifyEvent (event : JVal) : JVal :=
  .jobj (FIELD_MAPPING.foldl
    (fun acc kv =>
      match getField event kv.1 with
      | .undef => acc
      | v => setField acc kv.2 v)
    [])

/-- `expandEvent`: the mapped fields back to display names in reverse-map
order, then every unmapped own key copied through unchanged. -/
def expandEvent (event : JVal) : JVal :=
  let mapped := REVERSE_MAPPING.foldl
    (fun acc kv =>
      match getField event kv.1 with
      | .undef => acc
      | v => setField acc kv.2 v)
    []
  .jobj ((ownKeys event).foldl
    (fun acc k =>
      if isShortName k then acc else setField acc k (getField event k))
    mapped)

/-- `minifyEvents`. -/
def minifyEvents (events : List JVal) : List JVal := events.map minifyEvent

/-- `expandEvents`. -/
def expandEvents (events : List JVal) : List JVal := events.map expandEvent

/-! ## `timestampCompression.js` -/

/-- 15 minutes in milliseconds (`FIFTEEN_MINUTES_MS`). -/
def FIFTEEN_MINUTES_MS : Int := 15 * 60 * 1000

/-- `roundTo15Minutes`: floor the milliseconds to a 15-minute boundary
(`Math.floor` is floor toward minus infinity, `Int.fdiv` here); an invalid
input date stays invalid (`NaN` propagates). -/
def roundTo15Minutes (v : JVal) : JVal :=
  .jdate ((dateMsOf v).map (fun ms => ms.fdiv FIFTEEN_MINUTES_MS * FIFTEEN_MINUTES_MS))

/-- `dateToUnix`: `Math.floor(getTime() / 1000)`. -/
def dateToUnix (v : JVal) : JVal :=
  .jnum ((dateMsOf v).map (fun ms => ms.fdiv 1000))

/-- `unixToDate`: `new Date(u * 1000)`, the multiplication coercing `u` to
a number. -/
def unixToDate (v : JVal) : JVal :=
  .jdate ((toNumber v).map (· * 1000))

/-- `compressTimestamp`. -/
def compressTimestamp (v : JVal) : JVal := dateToUnix (roundTo15Minutes v)

/-- `decompressTimestamp`. -/
def decompressTimestamp (v : JVal) : JVal := unixToDate v

/-! ## `dataCompression.js` -/

/-- One day in milliseconds. -/
def DAY_MS : Int := 86400000

/-- The local midnight of the day containing instant `t`, under the
constant UTC offset `tz` (milliseconds of local time ahead of UTC): what
`new Date(d.getFullYear(), d.getMonth(), d.getDate())` denotes for a `d`
with `getTime() = t`. -/
def localDayStart (tz t : Int) : Int := (t + tz).fdiv DAY_MS * DAY_MS - tz

/-- `isRecentDate`: the local day of the checked date is on or after the
local day before today.  `yesterday` is one day before today's local
midnight (`setDate` arithmetic, constant-offset model), and the `Date`
comparison `checkDate >= yesterday` is numeric on milliseconds; an invalid
date compares `NaN`, hence `false`. -/
def isRecentDate (now tz : Int) : Option Int → Bool
  | some t => localDayStart tz now - DAY_MS ≤ localDayStart tz t
  | none => false

/-- The timestamp normalisation at the top of `compressEvents`' loop:
`Date`s as they are, numbers below `10000000000` read as Unix seconds,
larger numbers as milliseconds, anything else through `new Date(value)`. -/
def eventTsMs (e : JVal) : Option Int :=
  match getField e "timestamp" with
  | .jdate t => t
  | .jnum (some n) => if n < 10000000000 then some (n * 1000) else some n
  | .jnum none => none
  | v => dateMsOf v

/-- `getDateKey`: the UTC calendar day of a timestamp.  The source produces
the `YYYY-MM-DD` slice of `toISOString()`, an injective encoding of the UTC
day number modelled here by the day number itself; `toISOString` on an
invalid date throws, modelled by `none`. -/
def getDateKey : Option Int → Option Int
  | some t => some (t.fdiv DAY_MS)
  | none => none

/-- A per-day summary (`{date, feeds, pees, poops}` with the date key in
day-number form). -/
structure DaySummary : Type where
  date : Int
  feeds : Nat
  pees : Nat
  poops : Nat
deriving DecidableEq

/-- Increment the counter matching the event type; unrecognised types
count toward no bucket. -/
def bumpSummary (s : DaySummary) (ty : JVal) : DaySummary :=
  if isStrEq ty "feeding" then { s with feeds := s.feeds + 1 }
  else if isStrEq ty "peeing" then { s with pees := s.pees + 1 }
  else if isStrEq ty "pooping" then { s with poops := s.poops + 1 }
  else s

/-- `summariesByDate[dateKey]` upsert: first occurrence fixes the position,
as for a JS object keyed by strings. -/
def addToSummaries : List DaySummary → Int → JVal → List DaySummary
  | [], d, ty => [bumpSummary ⟨d, 0, 0, 0⟩ ty]
  | s :: ss, d, ty =>
      if s.date = d then bumpSummary s ty :: ss
      else s :: addToSummaries ss d ty

/-- The loop body of `compressEvents` over one event. -/
def compressStep (now tz : Int) (acc : List JVal × List DaySummary) (e : JVal) :
    Option (List JVal × List DaySummary) :=
  let ts := eventTsMs e
  if isRecentDate now tz ts then some (acc.1 ++ [e], acc.2)
  else
    match getDateKey ts with
    | some d => some (acc.1, addToSummaries acc.2 d (getField e "eventType"))
    | none => none

/-- `compressEvents`: recent events kept in full (in order), older ones
folded into per-day summaries; `none` models the `toISOString` throw on an
invalid old timestamp. -/
def compressEvents (now tz : Int) (events : List JVal) :
    Option (List JVal × List DaySummary) :=
  events.foldlM (compressStep now tz) ([], [])

/-- A summary as it is serialised into the `s` array. -/
def summaryJ (s : DaySummary) : JVal :=
  .jobj [("date", .jnum (some s.date)), ("feeds", .jnum (some (s.feeds : Int))),
         ("pees", .jnum (some (s.pees : Int))), ("poops", .jnum (some (s.poops : Int)))]

/-- `new Date(summary.date + 'T12:00:00Z')` in day-number form: UTC noon of
that day for a day-number `date` field, an Invalid Date otherwise. -/
def summaryNoonMs (s : JVal) : Option Int :=
  match getField s "date" with
  | .jnum (some d) => some (d * DAY_MS + 43200000)
  | _ => none

/-- `for (let i = 0; i < bound; i++)` iteration count for a field value. -/
def loopCount (v : JVal) : Nat :=
  match toNumber v with
  | some n => n.toNat
  | none => 0

/-- One synthetic event reconstructed from a summary. -/
def synthEvent (ty : String) (ms : Option Int) : JVal :=
  .jobj [("eventType", .jstr ty), ("timestamp", .jdate ms), ("_fromSummary", .jbool true)]

/-- The synthetic events of one summary: `feeds` feedings an hour apart,
`pees` peeings two hours apart, `poops` poopings three hours apart, all
from the day's noon. -/
def synthFromSummary (s : JVal) : List JVal :=
  let base := summaryNoonMs s
  ((List.range (loopCount (getField s "feeds"))).map
      (fun (i : Nat) => synthEvent "feeding" (base.map (· + (i : Int) * 3600000))))
  ++ ((List.range (loopCount (getField s "pees"))).map
      (fun (i : Nat) => synthEvent "peeing" (base.map (· + (i : Int) * 7200000))))
  ++ ((List.range (loopCount (getField s "poops"))).map
      (fun (i : Nat) => synthEvent "pooping" (base.map (· + (i : Int) * 10800000))))

/-- The sort key of the final `events.sort`: the timestamp's milliseconds
(a non-`Date` coerced through the `Date` constructor). -/
def tsSortMs (e : JVal) : Option Int := dateMsOf (getField e "timestamp")

/-- The comparator `tsA - tsB` as a weak order: an invalid timestamp makes
the subtraction `NaN`, which the engine treats as equality. -/
def tsLe (a b : JVal) : Bool :=
  match tsSortMs a, tsSortMs b with
  | some x, some y => x ≤ y
  | _, _ => true

/-- Stable insert for `jsSortByTs`: `a` goes before the first element not
below it, so later elements never overtake equal earlier ones. -/
def sortInsert (a : JVal) : List JVal → List JVal
  | [] => [a]
  | b :: bs => if tsLe a b then a :: b :: bs else b :: sortInsert a bs

/-- `events.sort((a, b) => tsA - tsB)`: modelled as the stable sort by the
timestamp key (JS `Array.prototype.sort` is stable). -/
def jsSortByTs : List JVal → List JVal
  | [] => []
  | a :: xs => sortInsert a (jsSortByTs xs)

/-- `decompressEvents` on raw decoded values: recent events as given, each
summary expanded to synthetic events, merged and sorted by timestamp.
`none` models the `TypeError` of iterating a non-iterable summaries value
(strings iterate per character). -/
def decompressEvents (recent : List JVal) (summaries : JVal) : Option (List JVal) :=
  match (if truthy summaries then summaries else .jarr []) with
  | .jarr ss => some (jsSortByTs (recent ++ ss.flatMap synthFromSummary))
  | .jstr s => some (jsSortByTs
      (recent ++ (s.data.map (fun c => JVal.jstr (String.mk [c]))).flatMap synthFromSummary))
  | _ => none

/-! ## `urlState.js` -/

/-- JS `a || b`. -/
def orJ (v fallback : JVal) : JVal := if truthy v then v else fallback

/-- The elements of an array value; `none` models the `TypeError` of
calling `.map` on anything else. -/
def asArr : JVal → Option (List JVal)
  | .jarr xs => some xs
  | _ => none

/-- What `decodeState` returns: `data` (always an array of events here)
and `config`. -/
structure DecodedState : Type where
  data : List JVal
  config : JVal

/-- The per-event map at the top of `encodeState`: spread the event and
compress a truthy timestamp in place. -/
def processEvent (event : JVal) : JVal :=
  let p := spreadFields event
  let ts := getField (.jobj p) "timestamp"
  if truthy ts then .jobj (setField p "timestamp" (compressTimestamp ts))
  else JVal.jobj p

/-- `encodeState`: spread each event, compress a truthy timestamp in
place, partition into recent and summarised, minify the recent ones,
serialise `(r, s)` and make the base64 URL-safe.  `none` marks the two
situations where the original throws (an old event with an invalid
timestamp reaching `toISOString`, or a `Date` surviving into
serialisation, which cannot happen after compression). -/
def encodeState (now tz : Int) (events : List JVal) : Option String := do
  let processedEvents := events.map processEvent
  let compressed ← compressEvents now tz processedEvents
  let minifiedRecent := minifyEvents compressed.1
  let state := JVal.jobj
    [("r", .jarr minifiedRecent), ("s", .jarr (compressed.2.map summaryJ))]
  let jsonString ← writeJ state
  some (String.mk (toUrlSafe (btoaL (utf8EncodeL jsonString))))

/-- `encodeState` with the writer replaced by its fuel-structural clone,
for kernel evaluation of concrete tokens (`encodeState_evalF` transfers
results). -/
def encodeStateF (fuel : Nat) (now tz : Int) (events : List JVal) : Option String := do
  let processedEvents := events.map processEvent
  let compressed ← compressEvents now tz processedEvents
  let minifiedRecent := minifyEvents compressed.1
  let state := JVal.jobj
    [("r", .jarr minifiedRecent), ("s", .jarr (compressed.2.map summaryJ))]
  let jsonString ← writeJF fuel state
  some (String.mk (toUrlSafe (btoaL (utf8EncodeL jsonString))))

/-- The per-event map on the compact path: expanded events get their
timestamp decompressed (or `new Date()` when falsy), unconditionally
assigned. -/
def setDecTs (now : Int) (e : JVal) : JVal :=
  let ts := getField e "timestamp"
  .jobj (setField (spreadFields e) "timestamp"
    (if truthy ts then decompressTimestamp ts else .jdate (some now)))

/-- The final normalisation map of `decodeState`: every event's timestamp
becomes a `Date` (kept if it already is one, numbers through
`decompressTimestamp`, everything else through the constructor). -/
def normalizeTs (e : JVal) : JVal :=
  let ts := getField e "timestamp"
  .jobj (setField (spreadFields e) "timestamp"
    (match ts with
     | .jdate t => .jdate t
     | .jnum n => decompressTimestamp (.jnum n)
     | v => newDate v))

/-- The `try` block of `decodeState`: URL-safe substitution reversed,
base64 and UTF-8 decoded, JSON parsed, format dispatched (`data` key,
then `r`/`s` keys, then bare array), timestamps normalised.  `none` is any
thrown error, which the wrapper catches. -/
def decodeTry (now : Int) (s : List Char) : Option DecodedState := do
  let bytes ← atobL (fromUrlSafe s)
  let jsonString ← utf8DecodeL bytes
  let state ← readTop jsonString
  let events ←
    if truthy (getField state "data") then
      asArr (getField state "data")
    else if truthy (getField state "r") || truthy (getField state "s") then do
      let recentRaw ← asArr (orJ (getField state "r") (.jarr []))
      let expandedRecent := (expandEvents recentRaw).map (setDecTs now)
      decompressEvents expandedRecent (orJ (getField state "s") (.jarr []))
    else
      some (match state with
            | .jarr xs => xs
            | _ => [])
  some ⟨events.map normalizeTs, orJ (getField state "config") .jnull⟩

/-- `decodeState`: empty or missing input, and any error anywhere in the
`try` block, give the empty state. -/
def decodeState (now : Int) (input : Option String) : DecodedState :=
  match input with
  | none => ⟨[], .jnull⟩
  | some s =>
      if s = "" then ⟨[], .jnull⟩
      else
        match decodeTry now s.data with
        | some st => st
        | none => ⟨[], .jnull⟩

/-! ## `encryption.js` and the encrypted entry points

The WebCrypto primitives are platform code, not in the repository.
Modelled from the spec: PBKDF2 key derivation feeds an authenticated
cipher (AES-GCM) whose decryption fails on any key or nonce mismatch.
The model is an ideal injective AEAD: the derived key is an injective
encoding of (password bytes, salt); the ciphertext is an injective framing
of (key, nonce, plaintext); opening checks the key and nonce and returns
the plaintext, failing otherwise (an `OperationError` in the real API).
Randomness is explicit: the fresh salt and IV drawn by
`crypto.getRandomValues` are parameters of `encrypt`. -/

/-- A length-delimited frame: unary length, a zero, then the payload.
Injective, and every emitted byte of the framing is below 256. -/
def frameSeg (l : List Nat) : List Nat := List.replicate l.length 1 ++ 0 :: l

/-- Read one frame back: count the leading ones, skip the zero, take that
many payload bytes. -/
def readFrame (bs : List Nat) : Option (List Nat × List Nat) :=
  let n := (bs.takeWhile (· = 1)).length
  match bs.drop n with
  | 0 :: rest => if n ≤ rest.length then some (rest.take n, rest.drop n) else none
  | _ => none

/-- Modelled from the spec: `deriveKey` (PBKDF2, 100000 iterations of
SHA-256, 256-bit AES-GCM key) as an injective function of the password
bytes and the salt. -/
def deriveKeyBytes (password : String) (salt : List Nat) : List Nat :=
  frameSeg (utf8EncodeL password.data) ++ salt

/-- Modelled from the spec: `crypto.subtle.encrypt` with AES-GCM as an
ideal AEAD (ciphertext determines key, IV and plaintext). -/
def aesGcmSeal (key iv data : List Nat) : List Nat :=
  frameSeg key ++ frameSeg iv ++ data

/-- Modelled from the spec: `crypto.subtle.decrypt` with AES-GCM; fails
(an authentication error) unless key and IV match the sealing ones. -/
def aesGcmOpen (key iv ct : List Nat) : Option (List Nat) := do
  let (k, r) ← readFrame ct
  let (i, d) ← readFrame r
  if k = key ∧ i = iv then some d else none

/-- `encrypt`: derive a key from the password and the fresh salt, seal
with the fresh IV, join the three URL-safe base64 segments with dots. -/
def encrypt (plaintext : List Char) (password : String) (salt iv : List Nat) :
    List Char :=
  let key := deriveKeyBytes password salt
  let ciphertext := aesGcmSeal key iv (utf8EncodeL plaintext)
  toUrlSafe (btoaL salt) ++ '.' :: (toUrlSafe (btoaL iv) ++ '.' :: toUrlSafe (btoaL ciphertext))

/-- The decode-side failures of the encrypted path, distinguishable to the
caller: a malformed token (`Invalid encrypted data format`), a bad base64
segment, an authentication failure, undecodable plaintext bytes, and a
JSON parse failure in `decodeStateEncrypted`. -/
inductive DecErr : Type where
  | badFormat : DecErr
  | badChar : DecErr
  | authFail : DecErr
  | badUtf8 : DecErr
  | badParse : DecErr
deriving DecidableEq

/-- `String.prototype.split('.')`. -/
def splitDots : List Char → List (List Char)
  | [] => [[]]
  | '.' :: r => [] :: splitDots r
  | c :: r =>
      match splitDots r with
      | g :: gs => (c :: g) :: gs
      | [] => [[c]]

/-- `decrypt`: exactly three dot-separated segments or a hard format
error; base64-decode them, re-derive the key, open the AEAD, decode the
plaintext bytes. -/
def decrypt (encryptedData : List Char) (password : String) :
    Except DecErr (List Char) := do
  match splitDots encryptedData with
  | [saltB64, ivB64, ctB64] =>
      match atobL (fromUrlSafe saltB64), atobL (fromUrlSafe ivB64),
            atobL (fromUrlSafe ctB64) with
      | some salt, some iv, some ct =>
          match aesGcmOpen (deriveKeyBytes password salt) iv ct with
          | some ptBytes =>
              match utf8DecodeL ptBytes with
              | some pt => .ok pt
              | none => .error .badUtf8
          | none => .error .authFail
      | _, _, _ => .error .badChar
  | _ => .error .badFormat

/-- `ENCRYPTED_PREFIX`, the marker in front of encrypted tokens. -/
def encMarker : List Char := ['e', 'n', 'c', ':']

/-- Does `pat` begin `cs`? -/
def beginsWith : List Char → List Char → Bool
  | [], _ => true
  | _ :: _, [] => false
  | p :: ps, c :: cs => p = c && beginsWith ps cs

/-- `String.prototype.replace` with a plain-string pattern and empty
replacement: remove the first occurrence, if any. -/
def removeOnce (pat : List Char) : List Char → List Char
  | [] => []
  | c :: cs =>
      if beginsWith pat (c :: cs) then (c :: cs).drop pat.length
      else c :: removeOnce pat cs

/-- What `decodeStateEncrypted` returns (`state.data` is passed through
untouched, whatever it parsed to). -/
structure EncDecoded : Type where
  data : JVal
  config : JVal

/-- `encodeStateEncrypted`: serialise the original, uncompressed state and
encrypt it behind the marker.  The fresh salt and IV are explicit. -/
def encodeStateEncrypted (data : List JVal) (config : JVal) (password : String)
    (salt iv : List Nat) : Option String := do
  let state := JVal.jobj [("data", .jarr data), ("config", orJ config .jnull)]
  let jsonString ← writeJ state
  some (String.mk (encMarker ++ encrypt jsonString password salt iv))

/-- `decodeStateEncrypted`: strict path; empty input is the empty state,
everything else must decrypt and parse, errors surfacing to the caller. -/
def decodeStateEncrypted (input : Option String) (password : String) :
    Except DecErr EncDecoded := do
  match input with
  | none => .ok ⟨.jarr [], .jnull⟩
  | some s =>
      if s = "" then .ok ⟨.jarr [], .jnull⟩
      else do
        let encrypted := removeOnce encMarker s.data
        let jsonString ← decrypt encrypted password
        match readTop jsonString with
        | some state =>
            .ok ⟨orJ (getField state "data") (.jarr []),
                 orJ (getField state "config") .jnull⟩
        | none => .error .badParse

/-! ## Vocabulary for the claims -/

/-- No key occurs twice. -/
def nodupKeysB : List (String × JVal) → Bool
  | [] => true
  | kv :: fs => !(fs.any (fun kv' => kv'.1 = kv.1)) && nodupKeysB fs

mutual
/-- Values `JSON.parse ∘ JSON.stringify` maps to themselves: no
`undefined`, no `Date`s, no duplicate object keys.  Every value the encoder
serialises, and every parsed value, is of this shape. -/
def serOk : JVal → Bool
  | .undef => false
  | .jdate _ => false
  | .jnum none => false
  | .jarr xs => serOkList xs
  | .jobj fs => nodupKeysB fs && serOkFields fs
  | _ => true

/-- `serOk` on every element. -/
def serOkList : List JVal → Bool
  | [] => true
  | x :: xs => serOk x && serOkList xs

/-- `serOk` on every member value. -/
def serOkFields : List (String × JVal) → Bool
  | [] => true
  | kv :: fs => serOk kv.2 && serOkFields fs
end

/-- What the writer printed (used only where `serOk` guarantees it printed
something). -/
def wr (v : JVal) : List Char := (writeJ v).getD []

/-- Quantisation to the 15-minute boundary at or before `t`. -/
def q15 (t : Int) : Int := t.fdiv FIFTEEN_MINUTES_MS * FIFTEEN_MINUTES_MS

/-- A well-formed in-memory event for the unencrypted round-trip claims:
a plain object without duplicate keys whose `timestamp` is a valid `Date`
between 15 minutes after the epoch and the year-2286 seconds ceiling (the
codec's own `10000000000`-second heuristic), and whose other fields hold
serialisable values. -/
def eventWF (e : JVal) : Prop :=
  (∃ fs, e = .jobj fs ∧ nodupKeysB fs = true) ∧
  (∃ t, getField e "timestamp" = .jdate (some t) ∧
        FIFTEEN_MINUTES_MS ≤ t ∧ t < 10000000000000) ∧
  (∀ k, k ≠ "timestamp" →
        getField e k = .undef ∨ serOk (getField e k) = true)

/-- The timestamp milliseconds of a well-formed event. -/
def wfTs (e : JVal) : Int :=
  match getField e "timestamp" with
  | .jdate (some t) => t
  | _ => 0

/-- Is `e` classified recent by the encoder (the check `compressEvents`
performs, on the already-quantised timestamp)? -/
def recentAtEncode (now tz : Int) (e : JVal) : Bool :=
  isRecentDate now tz (eventTsMs (processEvent e))

/-- Does `e` carry the summary-derived marker? -/
def hasMarker (e : JVal) : Bool :=
  match getField e "_fromSummary" with
  | .jbool true => true
  | _ => false

/-- Is `e` an event of type `ty`, classified old by `isRecentDate`, on UTC
day `d`?  (The per-day counting vocabulary of the lossy round trip.) -/
def isOldOn (now tz : Int) (ty : String) (d : Int) (e : JVal) : Bool :=
  !(isRecentDate now tz (eventTsMs e)) &&
  (match getDateKey (eventTsMs e) with
   | some d' => d' = d
   | none => false) &&
  isStrEq (getField e "eventType") ty

/-- Day-level counts of the old events of a list: how many feedings,
peeings, poopings on UTC day `d`. -/
def oldCounts (now tz : Int) (events : List JVal) (d : Int) : Nat × Nat × Nat :=
  ((events.filter (isOldOn now tz "feeding" d)).length,
   (events.filter (isOldOn now tz "peeing" d)).length,
   (events.filter (isOldOn now tz "pooping" d)).length)

/-- The timestamp value an event carries. -/
def tsOf (e : JVal) : JVal := getField e "timestamp"

/-! ### Concrete instances used by counterexamples and witnesses.

`nowX` is 2023-11-14T22:13:20Z; with `tz = 0` the recent window starts at
1699833600000 (2023-11-13T00:00:00Z). -/

/-- A fixed "current time" for concrete evaluations. -/
def nowX : Int := 1700000000000

/-- A recent feeding event carrying an unmapped field `note`. -/
def evNote : JVal :=
  .jobj [("eventType", .jstr "feeding"), ("timestamp", .jdate (some 1699999999999)),
         ("note", .jstr "x")]

/-- Its token. -/
def tokNote : String := (encodeState nowX 0 [evNote]).getD ""

/-- Two recent events out of timestamp order (ids 1 then 2). -/
def evLate : JVal :=
  .jobj [("id", .jnum (some 1)), ("eventType", .jstr "feeding"),
         ("timestamp", .jdate (some 1699999200000))]

/-- The earlier second event. -/
def evEarly : JVal :=
  .jobj [("id", .jnum (some 2)), ("eventType", .jstr "peeing"),
         ("timestamp", .jdate (some 1699920000000))]

/-- Token of the out-of-order pair. -/
def tokPair : String := (encodeState nowX 0 [evLate, evEarly]).getD ""

/-- An old day: `dayW = 19600` (2023-08-31, UTC), far before the recent
window of `nowX`. -/
def dayW : Int := 19600

/-- Thirteen old feedings on day `dayW`, one hour apart from 01:00 UTC. -/
def evThirteen : List JVal :=
  (List.range 13).map (fun (i : Nat) =>
    .jobj [("eventType", .jstr "feeding"),
           ("timestamp", .jdate (some (dayW * DAY_MS + 3600000 + (i : Int) * 3600000)))])

/-- Token of the thirteen-feeding day. -/
def tokThirteen : String := (encodeState nowX 0 evThirteen).getD ""

/-- Decode of that token re-encoded (the second round trip). -/
def tokThirteen2 : String :=
  (encodeState nowX 0 (decodeState nowX (some tokThirteen)).data).getD ""

/-- A compact-format token whose recent event carries the out-of-range
stored timestamp `99999999999` seconds (beyond the 32-bit ceiling). -/
def tokBigTs : String :=
  String.mk (toUrlSafe (btoaL (utf8EncodeL (wr
    (.jobj [("r", .jarr [.jobj [("t", .jstr "feeding"),
                                ("ts", .jnum (some 99999999999))]]),
            ("s", .jarr [])])))))

/-- A legacy-format token whose event stores a milliseconds timestamp as a
number. -/
def tokLegacyMs : String :=
  String.mk (toUrlSafe (btoaL (utf8EncodeL (wr
    (.jobj [("data", .jarr [.jobj [("eventType", .jstr "feeding"),
                                   ("timestamp", .jnum (some 1700000000000))]]),
            ("config", .jnull)])))))

/-- An old feeding, peeing and pooping for the summary claims (UTC days
19600, 19601, 19601). -/
def evOldTrio : List JVal :=
  [.jobj [("eventType", .jstr "feeding"), ("timestamp", .jdate (some (19600 * DAY_MS + 3600000)))],
   .jobj [("eventType", .jstr "peeing"), ("timestamp", .jdate (some (19601 * DAY_MS + 7200000)))],
   .jobj [("eventType", .jstr "pooping"), ("timestamp", .jdate (some (19601 * DAY_MS + 10800000)))]]

/-- A minimal well-formed event: a type tag and a `Date` timestamp. -/
def mkEv (ty : String) (t : Int) : JVal :=
  .jobj [("eventType", .jstr ty), ("timestamp", .jdate (some t))]

/-- A UTC-minus-5-hours zone for the local-noon counterexample. -/
def tzW : Int := -18000000

/-- An old feeding at 13:53 UTC (08:53 local under `tzW`) on UTC day 19600. -/
def evC6 : JVal := mkEv "feeding" (19600 * DAY_MS + 50000000)

/-- Its token under `tzW`. -/
def tokC6 : String := (encodeState nowX tzW [evC6]).getD ""

/-- Five poopings on day `dayW` plus four on the next day: poop spacing is
three hours, so the fifth synthetic pooping of a day sits at the next
midnight, and decoding then re-encoding shifts day-level counts (the
lossy-round-trip counterexample). -/
def evSpill : List JVal :=
  ((List.range 5).map (fun (i : Nat) =>
      mkEv "pooping" (dayW * DAY_MS + 3600000 + (i : Int) * 3600000)))
  ++ ((List.range 4).map (fun (i : Nat) =>
      mkEv "pooping" ((dayW + 1) * DAY_MS + 3600000 + (i : Int) * 3600000)))

/-- Token of the spill example. -/
def tokSpill : String := (encodeState nowX 0 evSpill).getD ""

/-- Token of the re-encoded decode of the spill example. -/
def tokSpill2 : String :=
  (encodeState nowX 0 (decodeState nowX (some tokSpill)).data).getD ""

/-- Base64 of a valid UTF-8/JSON payload that is not the JSON the decoder
wants (for the malformed-input claims): the literal `"not json"`. -/
def tokBadJson : String := "bm90IGpzb24"

/-- A concrete encrypted token: empty data, null config, password `"a"`,
salt `[0]`, IV `[1]`. -/
def tokEnc : String := (encodeStateEncrypted [] .jnull "a" [0] [1]).getD ""

/-- First token of the fresh-salt pair (salt `[0]`, IV `[2]`). -/
def tokEnc1 : String := (encodeStateEncrypted [] .jnull "a" [0] [2]).getD ""

/-- Second token of the pair: same state, password and IV, fresh salt `[1]`. -/
def tokEnc2 : String := (encodeStateEncrypted [] .jnull "a" [1] [2]).getD ""

/-! ### Support definitions for the proofs -/

/-- A remainder that cannot extend a numeral: empty or not digit-headed
(every delimiter the writer emits after a value qualifies). -/
def delimOk : List Char → Bool
  | [] => true
  | c :: _ => !isDig c

/-- Accumulating members into an object, as `readPairs` does. -/
def foldSetFields (acc : Fields) (fs : Fields) : Fields :=
  fs.foldl (fun a kv => setField a kv.1 kv.2) acc

/-- The closed form of the mapping folds of `minifyEvent` / `expandEvent`:
the present fields of `ev` under a name-translation table. -/
def pickFields (m : List (String × String)) (ev : JVal) : Fields :=
  m.filterMap (fun kv =>
    match getField ev kv.1 with
    | .undef => none
    | v => some (kv.2, v))

/-- One event of `compressEvents`' summary accumulation. -/
def sumsStep (now tz : Int) (ss : List DaySummary) (e : JVal) : List DaySummary :=
  if isRecentDate now tz (eventTsMs e) then ss
  else
    match getDateKey (eventTsMs e) with
    | some d => addToSummaries ss d (getField e "eventType")
    | none => ss

/-- The summaries `compressEvents` accumulates over a list. -/
def sumsOf (now tz : Int) (evs : List JVal) : List DaySummary :=
  evs.foldl (sumsStep now tz) []

/-- The summary recorded for day `d` (all-zero when absent). -/
def sumFind (ss : List DaySummary) (d : Int) : DaySummary :=
  (ss.find? (fun s => s.date = d)).getD ⟨d, 0, 0, 0⟩

/-- The state object the encoder serialises. -/
def stateJ (rec : List JVal) (sums : List DaySummary) : JVal :=
  .jobj [("r", .jarr (minifyEvents rec)), ("s", .jarr (sums.map summaryJ))]

/-- The token text of a serialisable value. -/
def tokOf (v : JVal) : List Char := toUrlSafe (btoaL (utf8EncodeL (wr v)))

/-- The round-tripped image of one recent event: what the decoder yields
for it after minification, expansion and timestamp reconstruction. -/
def rtEvent (now : Int) (e : JVal) : JVal :=
  normalizeTs (setDecTs now (expandEvent (minifyEvent (processEvent e))))

/-- The recent partition the encoder keeps in full. -/
def encRec (now tz : Int) (E : List JVal) : List JVal :=
  (E.map processEvent).filter (fun pe => isRecentDate now tz (eventTsMs pe))

/-- The per-day summaries the encoder accumulates. -/
def encSums (now tz : Int) (E : List JVal) : List DaySummary :=
  sumsOf now tz (E.map processEvent)

/-- The token `encodeState` produces on well-formed input. -/
def encTok (now tz : Int) (E : List JVal) : String :=
  String.mk (tokOf (stateJ (encRec now tz E) (encSums now tz E)))

/-- The merged event list the decoder sorts: round-tripped recents then
summary expansions. -/
def decMerged (now : Int) (rec : List JVal) (sums : List DaySummary) : List JVal :=
  (expandEvents (minifyEvents rec)).map (setDecTs now)
    ++ (sums.map summaryJ).flatMap synthFromSummary

/-- The format dispatch of `decodeState` after JSON parsing. -/
def decodePost (now : Int) (state : JVal) : Option DecodedState := do
  let events ←
    if truthy (getField state "data") then
      asArr (getField state "data")
    else if truthy (getField state "r") || truthy (getField state "s") then do
      let recentRaw ← asArr (orJ (getField state "r") (.jarr []))
      let expandedRecent := (expandEvents recentRaw).map (setDecTs now)
      decompressEvents expandedRecent (orJ (getField state "s") (.jarr []))
    else
      some (match state with
            | .jarr xs => xs
            | _ => [])
  some ⟨events.map normalizeTs, orJ (getField state "config") .jnull⟩

end BabyCodec

namespace BabyCodec

/-! # Theorems

## The JSON codec round trip -/

theorem natCharsGo_acc : ∀ fuel n acc, natCharsGo fuel n acc = natCharsGo fuel n [] ++ acc := by
  intro fuel
  induction fuel with
  | zero => intro n acc; rfl
  | succ f ih =>
      intro n acc
      rw [natCharsGo, natCharsGo]
      by_cases h : n < 10
      · rw [if_pos h, if_pos h]
        rfl
      · rw [if_neg h, if_neg h, ih (n / 10) ((digCh (n % 10)) :: acc),
            ih (n / 10) [digCh (n % 10)]]
        simp

theorem natCharsGo_small (fuel n : Nat) (h : n < 10) : natCharsGo fuel n [] = [digCh n] := by
  cases fuel with
  | zero => rfl
  | succ f => rw [natCharsGo, if_pos h]

theorem natCharsGo_fuel : ∀ n f g, n ≤ f → n ≤ g → natCharsGo f n [] = natCharsGo g n [] := by
  intro n
  induction n using Nat.strongRecOn with
  | _ n ih =>
      intro f g hf hg
      by_cases h : n < 10
      · rw [natCharsGo_small f n h, natCharsGo_small g n h]
      · have h10 : 10 ≤ n := by omega
        obtain ⟨f0, rfl⟩ : ∃ f0, f = f0 + 1 := ⟨f - 1, by omega⟩
        obtain ⟨g0, rfl⟩ : ∃ g0, g = g0 + 1 := ⟨g - 1, by omega⟩
        have hd : n / 10 < n := Nat.div_lt_self (by omega) (by omega)
        rw [natCharsGo, natCharsGo, if_neg h, if_neg h,
            natCharsGo_acc f0 (n / 10) [digCh (n % 10)],
            natCharsGo_acc g0 (n / 10) [digCh (n % 10)],
            ih (n / 10) hd f0 g0 (by omega) (by omega)]

/-- The defining recurrence of `natChars`, as the source computes it. -/
theorem natChars_eq (n : Nat) :
    natChars n = if n < 10 then [digCh n] else natChars (n / 10) ++ [digCh (n % 10)] := by
  by_cases h : n < 10
  · rw [if_pos h, natChars, natCharsGo_small n n h]
  · rw [if_neg h]
    obtain ⟨m, rfl⟩ : ∃ m, n = m + 1 := ⟨n - 1, by omega⟩
    have hd : (m + 1) / 10 < m + 1 := Nat.div_lt_self (by omega) (by omega)
    rw [natChars, natChars, natCharsGo, if_neg h,
        natCharsGo_acc m ((m + 1) / 10) [digCh ((m + 1) % 10)],
        natCharsGo_fuel ((m + 1) / 10) m ((m + 1) / 10) (by omega) (le_refl _)]

theorem digCh_spec : ∀ k : Nat, k < 10 →
    isDig (digCh k) = true ∧ (digCh k).toNat - 48 = k := by decide

theorem natChars_ne_nil (n : Nat) : natChars n ≠ [] := by
  rw [natChars_eq]
  split <;> simp

theorem natChars_digits (n : Nat) : ∀ c ∈ natChars n, isDig c = true := by
  induction n using Nat.strongRecOn with
  | _ n ih =>
    rw [natChars_eq]
    split
    · intro c hc
      rw [List.mem_singleton] at hc
      subst hc
      exact (digCh_spec n (by omega)).1
    · intro c hc
      rw [List.mem_append] at hc
      rcases hc with h | h
      · exact ih (n / 10) (Nat.div_lt_self (by omega) (by omega)) c h
      · rw [List.mem_singleton] at h
        subst h
        exact (digCh_spec (n % 10) (Nat.mod_lt _ (by omega))).1

theorem digsVal_append_one (ds : List Nat) (d : Nat) :
    digsVal (ds ++ [d]) = digsVal ds * 10 + d := by
  simp [digsVal]

theorem digsVal_natChars (n : Nat) :
    digsVal ((natChars n).map (fun c => c.toNat - 48)) = n := by
  induction n using Nat.strongRecOn with
  | _ n ih =>
    rw [natChars_eq]
    split
    · rename_i h
      simp [digsVal, (digCh_spec n h).2]
    · rename_i h
      rw [List.map_append, List.map_singleton, digsVal_append_one,
          ih (n / 10) (Nat.div_lt_self (by omega) (by omega)),
          (digCh_spec (n % 10) (Nat.mod_lt _ (by omega))).2]
      omega

theorem takeDigs_stop {rest : List Char} (h : delimOk rest = true) :
    takeDigs rest = ([], rest) := by
  match rest with
  | [] => rfl
  | c :: t =>
      simp only [delimOk, Bool.not_eq_eq_eq_not, Bool.not_true] at h
      simp [takeDigs, h]

theorem takeDigs_run (ds : List Char) (hds : ∀ c ∈ ds, isDig c = true)
    {rest : List Char} (hrest : delimOk rest = true) :
    takeDigs (ds ++ rest) = (ds.map (fun c => c.toNat - 48), rest) := by
  induction ds with
  | nil => simpa using takeDigs_stop hrest
  | cons c t ih =>
      have hc : isDig c = true := hds c (by simp)
      have ht := ih (fun x hx => hds x (by simp [hx]))
      simp [takeDigs, hc, ht]

theorem natChars_head (n : Nat) :
    ∃ c t, natChars n = c :: t ∧ isDig c = true := by
  match h : natChars n with
  | [] => exact absurd h (natChars_ne_nil n)
  | c :: t =>
      refine ⟨c, t, rfl, natChars_digits n c ?_⟩
      rw [h]
      exact List.mem_cons_self ..

theorem isDig_char_facts {c : Char} (h : isDig c = true) :
    c ≠ 'n' ∧ c ≠ 't' ∧ c ≠ 'f' ∧ c ≠ '"' ∧ c ≠ '[' ∧ c ≠ '{' ∧ c ≠ '-' := by
  simp only [isDig, Bool.and_eq_true, decide_eq_true_eq] at h
  refine ⟨?_, ?_, ?_, ?_, ?_, ?_, ?_⟩ <;>
    (intro hc; subst hc; revert h; decide)

set_option maxHeartbeats 1000000 in
theorem readVal_digit_head (fuel : Nat) {c : Char} (t : List Char)
    (hc : isDig c = true) :
    readVal (fuel + 1) (c :: t)
      = (match takeDigs (c :: t) with
         | (ds, r') => some (.jnum (some (digsVal ds : Int)), r')) := by
  obtain ⟨hn, ht, hf, hq, hbk, hbc, hm⟩ := isDig_char_facts hc
  rw [readVal.eq_def]
  split
  all_goals first
    | omega
    | (rename_i heq; exact absurd heq (List.cons_ne_nil _ _))
    | (rename_i heq
       injection heq with h1 h2
       subst h1
       first
         | exact absurd rfl hn
         | exact absurd rfl ht
         | exact absurd rfl hf
         | exact absurd rfl hq
         | exact absurd rfl hbk
         | exact absurd rfl hbc
         | exact absurd rfl hm)
    | (rename_i heq
       injection heq with h1 h2
       subst h1
       subst h2
       simp [hc])

theorem readVal_minus_head (fuel : Nat) (r : List Char) :
    readVal (fuel + 1) ('-' :: r)
      = (match takeDigs r with
         | ([], _) => none
         | (ds, r') => some (.jnum (some (-(digsVal ds : Int))), r')) := rfl

/-- The numeral round trip: a printed integer reads back exactly when the
remainder cannot extend it. -/
theorem readNum_rt (i : Int) (fuel : Nat) {rest : List Char}
    (hr : delimOk rest = true) :
    readVal (fuel + 1) (intChars i ++ rest) = some (.jnum (some i), rest) := by
  obtain ⟨c0, t0, hnc, hc0⟩ := natChars_head i.natAbs
  have hrun := takeDigs_run (natChars i.natAbs) (natChars_digits _) hr
  by_cases hi : i < 0
  · have harg : intChars i ++ rest = '-' :: (natChars i.natAbs ++ rest) := by
      simp [intChars, hi]
    rw [harg, readVal_minus_head, hrun, hnc]
    simp only [List.map_cons]
    have hv := digsVal_natChars i.natAbs
    rw [hnc] at hv
    simp only [List.map_cons] at hv
    rw [hv]
    have : -((i.natAbs : Int)) = i := by omega
    rw [this]
  · have harg : intChars i ++ rest = c0 :: (t0 ++ rest) := by
      simp [intChars, hi, hnc]
    rw [harg, readVal_digit_head fuel (t0 ++ rest) hc0]
    have hrun' : takeDigs (c0 :: (t0 ++ rest))
        = ((c0 :: t0).map (fun c => c.toNat - 48), rest) := by
      rw [← List.cons_append, ← hnc]
      exact hrun
    rw [hrun']
    have hv := digsVal_natChars i.natAbs
    rw [hnc] at hv
    simp only
    rw [hv]
    have : ((i.natAbs : Int)) = i := by omega
    rw [this]

theorem hexDigVal_hexCh : ∀ d : Nat, d < 16 → hexDigVal (hexCh d) = some d := by
  decide

theorem readStr_lit (acc r : List Char) {c : Char} (h1 : c ≠ '"') (h2 : c ≠ '\\') :
    readStr acc (c :: r) = if c.toNat < 32 then none else readStr (c :: acc) r := by
  rw [readStr.eq_def]
  split
  all_goals first
    | (rename_i heq; exact absurd heq (List.cons_ne_nil _ _))
    | (rename_i heq
       injection heq with ha hb
       subst ha
       first
         | exact absurd rfl h1
         | exact absurd rfl h2)
    | (rename_i heq
       injection heq with ha hb
       subst ha
       subst hb
       rfl)

/-- Reading one escaped character undoes `escCh`. -/
theorem readStr_esc (c : Char) (acc r : List Char) :
    readStr acc (escCh c ++ r) = readStr (c :: acc) r := by
  by_cases e1 : c = '"'
  · subst e1; rfl
  · by_cases e2 : c = '\\'
    · subst e2; rfl
    · by_cases e3 : c = Char.ofNat 8
      · subst e3; simp only [escCh]; rfl
      · by_cases e4 : c = Char.ofNat 9
        · subst e4; simp only [escCh]; rfl
        · by_cases e5 : c = Char.ofNat 10
          · subst e5; simp only [escCh]; rfl
          · by_cases e6 : c = Char.ofNat 12
            · subst e6; simp only [escCh]; rfl
            · by_cases e7 : c = Char.ofNat 13
              · subst e7; simp only [escCh]; rfl
              · by_cases e8 : c.toNat < 32
                · have harg : escCh c ++ r
                      = '\\' :: 'u' :: '0' :: '0' :: hexCh (c.toNat / 16) ::
                        hexCh (c.toNat % 16) :: r := by
                    simp [escCh, e1, e2, e3, e4, e5, e6, e7, e8]
                  rw [harg, readStr]
                  rw [show hexDigVal '0' = some 0 from rfl,
                      hexDigVal_hexCh (c.toNat / 16) (by omega),
                      hexDigVal_hexCh (c.toNat % 16) (by omega)]
                  have hn : ((0 * 16 + 0) * 16 + c.toNat / 16) * 16 + c.toNat % 16
                      = c.toNat := by omega
                  simp only [Option.bind_eq_bind, Option.some_bind, hn]
                  rw [if_pos (by omega), Char.ofNat_toNat]
                · have harg : escCh c ++ r = c :: r := by
                    simp [escCh, e1, e2, e3, e4, e5, e6, e7, e8]
                  rw [harg, readStr_lit _ _ e1 e2, if_neg e8]

/-- Reading an escaped run stops exactly at the closing quote. -/
theorem readStr_flat (cs : List Char) : ∀ (acc rest : List Char),
    readStr acc (cs.flatMap escCh ++ '"' :: rest)
      = some (String.mk (acc.reverse ++ cs), rest) := by
  induction cs with
  | nil => intro acc rest; simp [readStr]
  | cons c t ih =>
      intro acc rest
      rw [List.flatMap_cons, List.append_assoc, readStr_esc, ih]
      simp

/-- The string round trip at the value level. -/
theorem readVal_str (s : String) (fuel : Nat) (rest : List Char) :
    readVal (fuel + 1) (strChars s ++ rest) = some (.jstr s, rest) := by
  have harg : strChars s ++ rest = '"' :: (s.data.flatMap escCh ++ '"' :: rest) := by
    simp [strChars]
  rw [harg, readVal, readStr_flat]
  simp

theorem isDig_not_brackets {c : Char} (h : isDig c = true) :
    c ≠ ']' ∧ c ≠ '}' := by
  constructor <;> (intro hc; subst hc; revert h; decide)

/-- Everything the writer prints starts with a character that closes
neither an array nor an object. -/
theorem writeJ_head {v : JVal} {cs : List Char} (h : writeJ v = some cs) :
    ∃ c t, cs = c :: t ∧ c ≠ ']' ∧ c ≠ '}' := by
  match v with
  | .undef => simp [writeJ] at h
  | .jdate t => simp [writeJ] at h
  | .jnull =>
      rw [writeJ] at h
      exact ⟨'n', _, by simpa using h.symm, by decide, by decide⟩
  | .jbool true =>
      rw [writeJ] at h
      exact ⟨'t', _, by simpa using h.symm, by decide, by decide⟩
  | .jbool false =>
      rw [writeJ] at h
      exact ⟨'f', _, by simpa using h.symm, by decide, by decide⟩
  | .jnum none =>
      rw [writeJ] at h
      exact ⟨'n', _, by simpa using h.symm, by decide, by decide⟩
  | .jnum (some n) =>
      rw [writeJ] at h
      obtain ⟨c0, t0, hnc, hc0⟩ := natChars_head n.natAbs
      obtain ⟨hr, hc⟩ := isDig_not_brackets hc0
      by_cases hn : n < 0
      · refine ⟨'-', natChars n.natAbs, ?_, by decide, by decide⟩
        have : cs = intChars n := by simpa using h.symm
        rw [this]
        simp [intChars, hn]
      · refine ⟨c0, t0, ?_, hr, hc⟩
        have : cs = intChars n := by simpa using h.symm
        rw [this]
        simp [intChars, hn, hnc]
  | .jstr s =>
      rw [writeJ] at h
      exact ⟨'"', _, by simpa [strChars] using h.symm, by decide, by decide⟩
  | .jarr xs =>
      rw [writeJ] at h
      match hw : writeItems xs with
      | none => rw [hw] at h; simp at h
      | some rs =>
          rw [hw] at h
          refine ⟨'[', joinComma rs ++ [']'], ?_, by decide, by decide⟩
          simpa using h.symm
  | .jobj fs =>
      rw [writeJ] at h
      match hw : writePairs fs with
      | none => rw [hw] at h; simp at h
      | some rs =>
          rw [hw] at h
          refine ⟨'{', joinComma rs ++ ['}'], ?_, by decide, by decide⟩
          simpa using h.symm

theorem readVal_arr_go (f : Nat) {c : Char} (t : List Char) (hc : c ≠ ']') :
    readVal (f + 1) ('[' :: c :: t)
      = (match readItems f (c :: t) with
         | some (xs, r') => some (.jarr xs, r')
         | none => none) := by
  rw [readVal.eq_def]
  simp only
  split
  · rename_i heq
    injection heq with ha hb
    exact absurd ha hc
  · rcases readItems f (c :: t) with _ | ⟨xs, r'⟩ <;> rfl

theorem readVal_obj_go (f : Nat) {c : Char} (t : List Char) (hc : c ≠ '}') :
    readVal (f + 1) ('{' :: c :: t)
      = (match readPairs f [] (c :: t) with
         | some (fs, r') => some (.jobj fs, r')
         | none => none) := by
  rw [readVal.eq_def]
  simp only
  split
  · rename_i heq
    injection heq with ha hb
    exact absurd ha hc
  · rcases readPairs f [] (c :: t) with _ | ⟨fs, r'⟩ <;> rfl

theorem writeItemOf_eq {x : JVal} (hx : serOk x = true) :
    writeItemOf x = writeJ x := by
  match x, hx with
  | .jnull, _ | .jbool true, _ | .jbool false, _ | .jnum (some n), _
  | .jstr s, _ | .jarr l, _ | .jobj fs, _ => rw [writeItemOf.eq_def]

theorem writeItems_cons {x : JVal} {xs : List JVal} {rs : List (List Char)}
    (hx : serOk x = true) (h : writeItems (x :: xs) = some rs) :
    ∃ cx rs', writeJ x = some cx ∧ writeItems xs = some rs' ∧ rs = cx :: rs' := by
  rw [writeItems, writeItemOf_eq hx] at h
  match hw : writeJ x with
  | none => rw [hw] at h; simp at h
  | some cx =>
      rw [hw] at h
      match hw2 : writeItems xs with
      | none => rw [hw2] at h; simp at h
      | some rs' =>
          rw [hw2] at h
          simp only [Option.bind_eq_bind, Option.some_bind, Option.some.injEq] at h
          exact ⟨cx, rs', rfl, rfl, h.symm⟩

theorem serOk_not_undef {v : JVal} (hv : serOk v = true) : isUndef v = false := by
  match v, hv with
  | .jnull, _ | .jbool true, _ | .jbool false, _ | .jnum (some n), _
  | .jstr s, _ | .jarr l, _ | .jobj fs', _ => rfl

theorem writePairs_cons {k : String} {v : JVal} {fs : Fields}
    {rs : List (List Char)} (hv : serOk v = true)
    (h : writePairs ((k, v) :: fs) = some rs) :
    ∃ cv rs', writeJ v = some cv ∧ writePairs fs = some rs' ∧
      rs = (strChars k ++ ':' :: cv) :: rs' := by
  rw [writePairs] at h
  rw [if_neg (by simp [serOk_not_undef hv])] at h
  match hw : writeJ v with
  | none => rw [hw] at h; simp at h
  | some cv =>
      rw [hw] at h
      match hw2 : writePairs fs with
      | none => rw [hw2] at h; simp at h
      | some rs' =>
          rw [hw2] at h
          simp only [Option.bind_eq_bind, Option.some_bind, Option.some.injEq] at h
          exact ⟨cv, rs', rfl, rfl, h.symm⟩

theorem setField_append {fs : Fields} {k : String}
    (h : ∀ kv ∈ fs, kv.1 ≠ k) (v : JVal) : setField fs k v = fs ++ [(k, v)] := by
  induction fs with
  | nil => rfl
  | cons kv t ih =>
      have hk : kv.1 ≠ k := h kv (by simp)
      rw [setField]
      simp only [if_neg hk, List.cons_append, List.cons.injEq, true_and]
      exact ih (fun kv' h' => h kv' (by simp [h']))

theorem foldSetFields_of_fresh : ∀ (fs acc : Fields),
    nodupKeysB fs = true → (∀ kv ∈ acc, ∀ kv' ∈ fs, kv.1 ≠ kv'.1) →
    foldSetFields acc fs = acc ++ fs := by
  intro fs
  induction fs with
  | nil => intro acc _ _; simp [foldSetFields]
  | cons kv t ih =>
      intro acc hnd hdisj
      simp only [nodupKeysB, Bool.and_eq_true, Bool.not_eq_eq_eq_not, Bool.not_true,
        List.any_eq_false, decide_eq_false_iff_not] at hnd
      rw [foldSetFields, List.foldl_cons]
      rw [show (setField acc kv.1 kv.2) = acc ++ [kv] from ?hfresh]
      case hfresh =>
        have : setField acc kv.1 kv.2 = acc ++ [(kv.1, kv.2)] :=
          setField_append (fun kv' h' => hdisj kv' h' kv (by simp)) kv.2
        simpa using this
      rw [show List.foldl (fun a kv => setField a kv.1 kv.2) (acc ++ [kv]) t
            = foldSetFields (acc ++ [kv]) t from rfl]
      rw [ih (acc ++ [kv]) hnd.2 ?_]
      · simp
      · intro kv' h' kv'' h''
        rcases List.mem_append.mp h' with h3 | h3
        · exact hdisj kv' h3 kv'' (by simp [h''])
        · rw [List.mem_singleton] at h3
          subst h3
          exact fun he => hnd.1 kv'' h'' (decide_eq_true he.symm)

theorem foldSetFields_nil {fs : Fields} (h : nodupKeysB fs = true) :
    foldSetFields [] fs = fs := by
  simpa using foldSetFields_of_fresh fs [] h (by simp)

theorem writePairs_pos {kv : String × JVal} {fs : Fields} {rs : List (List Char)}
    (hv : serOk kv.2 = true) (h : writePairs (kv :: fs) = some rs) : rs ≠ [] := by
  obtain ⟨k, v⟩ := kv
  obtain ⟨cv, rs', _, _, hrs⟩ := writePairs_cons hv h
  simp [hrs]

theorem joinComma_ne (m : List Char) {ms : List (List Char)} (h : ms ≠ []) :
    joinComma (m :: ms) = m ++ ',' :: joinComma ms := by
  cases ms with
  | nil => exact absurd rfl h
  | cons a as => rfl

mutual
theorem rtV : ∀ (v : JVal) (fuel : Nat) (rest cs : List Char),
    serOk v = true → writeJ v = some cs → cs.length < fuel → delimOk rest = true →
    readVal fuel (cs ++ rest) = some (v, rest)
  | .undef, _, _, _, hs, _, _, _ => by simp [serOk] at hs
  | .jdate t, _, _, _, hs, _, _, _ => by simp [serOk] at hs
  | .jnum none, _, _, _, hs, _, _, _ => by simp [serOk] at hs
  | .jnull, fuel, rest, cs, _, hw, hf, _ => by
      rw [writeJ] at hw
      have hcs : cs = ['n', 'u', 'l', 'l'] := by simpa using hw.symm
      subst hcs
      cases fuel with
      | zero => omega
      | succ f => rfl
  | .jbool true, fuel, rest, cs, _, hw, hf, _ => by
      rw [writeJ] at hw
      have hcs : cs = ['t', 'r', 'u', 'e'] := by simpa using hw.symm
      subst hcs
      cases fuel with
      | zero => omega
      | succ f => rfl
  | .jbool false, fuel, rest, cs, _, hw, hf, _ => by
      rw [writeJ] at hw
      have hcs : cs = ['f', 'a', 'l', 's', 'e'] := by simpa using hw.symm
      subst hcs
      cases fuel with
      | zero => omega
      | succ f => rfl
  | .jnum (some n), fuel, rest, cs, _, hw, hf, hr => by
      rw [writeJ] at hw
      have hcs : cs = intChars n := by simpa using hw.symm
      subst hcs
      cases fuel with
      | zero => omega
      | succ f => exact readNum_rt n f hr
  | .jstr s, fuel, rest, cs, _, hw, hf, _ => by
      rw [writeJ] at hw
      have hcs : cs = strChars s := by simpa using hw.symm
      subst hcs
      cases fuel with
      | zero => omega
      | succ f => exact readVal_str s f rest
  | .jarr [], fuel, rest, cs, _, hw, hf, _ => by
      rw [writeJ, writeItems] at hw
      have hcs : cs = ['[', ']'] := by simpa using hw.symm
      subst hcs
      cases fuel with
      | zero => omega
      | succ f => rfl
  | .jarr (x :: xs), fuel, rest, cs, hs, hw, hf, _ => by
      rw [writeJ] at hw
      have hs' : serOk x = true ∧ serOkList xs = true := by
        rw [serOk, serOkList] at hs
        simpa using hs
      match hwi : writeItems (x :: xs) with
      | none => rw [hwi] at hw; simp at hw
      | some rs =>
          rw [hwi] at hw
          have hcs : cs = '[' :: (joinComma rs ++ [']']) := by simpa using hw.symm
          subst hcs
          obtain ⟨cx, rs', hwx, hwxs, hrs⟩ := writeItems_cons hs'.1 hwi
          obtain ⟨c0, t0, hcx, hc0r, _⟩ := writeJ_head hwx
          have hjhead : ∃ T, joinComma rs = c0 :: T := by
            subst hrs
            match rs' with
            | [] => exact ⟨t0, by simp [joinComma, hcx]⟩
            | m :: ms => exact ⟨t0 ++ ',' :: joinComma (m :: ms), by simp [joinComma, hcx]⟩
          obtain ⟨T, hT⟩ := hjhead
          cases fuel with
          | zero => omega
          | succ f =>
              have harg : ('[' :: (joinComma rs ++ [']'])) ++ rest
                  = '[' :: c0 :: (T ++ ']' :: rest) := by
                simp [hT]
              rw [harg, readVal_arr_go f _ hc0r]
              rw [show (c0 :: (T ++ ']' :: rest)) = joinComma rs ++ ']' :: rest from by simp [hT]]
              rw [rtI x xs f rest rs hs hwi ?hfu]
              case hfu =>
                simp only [List.length_cons, List.length_append] at hf ⊢
                simp at hf
                omega
  | .jobj [], fuel, rest, cs, _, hw, hf, _ => by
      rw [writeJ, writePairs] at hw
      have hcs : cs = ['{', '}'] := by simpa using hw.symm
      subst hcs
      cases fuel with
      | zero => omega
      | succ f => rfl
  | .jobj ((k, v) :: fs), fuel, rest, cs, hs, hw, hf, _ => by
      rw [writeJ] at hw
      have hs' : nodupKeysB ((k, v) :: fs) = true ∧ serOk v = true ∧
          serOkFields fs = true := by
        rw [serOk, serOkFields] at hs
        simp only [Bool.and_eq_true] at hs
        exact ⟨hs.1, hs.2.1, hs.2.2⟩
      match hwp : writePairs ((k, v) :: fs) with
      | none => rw [hwp] at hw; simp at hw
      | some rs =>
          rw [hwp] at hw
          have hcs : cs = '{' :: (joinComma rs ++ ['}']) := by simpa using hw.symm
          subst hcs
          obtain ⟨cv, rs', hwv, hwfs, hrs⟩ := writePairs_cons hs'.2.1 hwp
          have hjhead : ∃ T, joinComma rs = '"' :: T := by
            subst hrs
            match rs' with
            | [] => exact ⟨(k.data.flatMap escCh ++ ['"']) ++ ':' :: cv, by
                simp [joinComma, strChars]⟩
            | m :: ms => exact ⟨(k.data.flatMap escCh ++ ['"']) ++ ':' :: cv
                ++ ',' :: joinComma (m :: ms), by simp [joinComma, strChars]⟩
          obtain ⟨T, hT⟩ := hjhead
          cases fuel with
          | zero => omega
          | succ f =>
              have harg : ('{' :: (joinComma rs ++ ['}'])) ++ rest
                  = '{' :: '"' :: (T ++ '}' :: rest) := by
                simp [hT]
              rw [harg, readVal_obj_go f _ (by decide)]
              rw [show ('"' :: (T ++ '}' :: rest)) = joinComma rs ++ '}' :: rest from by simp [hT]]
              rw [rtP (k, v) fs f [] rest rs (by rw [serOkFields]; simp [hs'.2.1, hs'.2.2]) hwp ?hfu]
              · rw [foldSetFields_nil hs'.1]
              case hfu =>
                simp only [List.length_cons, List.length_append] at hf ⊢
                simp at hf
                omega
termination_by v _ _ _ _ _ _ _ => 2 * sizeOf v
decreasing_by
  all_goals simp_wf
  all_goals subst_vars
  all_goals (try simp)
  all_goals omega

theorem rtI : ∀ (x : JVal) (xs : List JVal) (fuel : Nat) (rest : List Char)
    (rs : List (List Char)),
    serOkList (x :: xs) = true → writeItems (x :: xs) = some rs →
    (joinComma rs).length + 1 < fuel →
    readItems fuel (joinComma rs ++ ']' :: rest) = some (x :: xs, rest)
  | x, xs, fuel, rest, rs, hs, hw, hf => by
      have hs' : serOk x = true ∧ serOkList xs = true := by
        rw [serOkList] at hs
        simpa using hs
      obtain ⟨cx, rs', hwx, hwxs, hrs⟩ := writeItems_cons hs'.1 hw
      subst hrs
      cases fuel with
      | zero => omega
      | succ f =>
          cases xs with
          | nil =>
              rw [writeItems] at hwxs
              have : rs' = [] := by simpa using hwxs.symm
              subst this
              have hjc : joinComma [cx] = cx := rfl
              rw [hjc] at hf ⊢
              have hv := rtV x f (']' :: rest) cx hs'.1 hwx (by omega) rfl
              rw [readItems]
              simp [hv]
          | cons y ys =>
              have hsy : serOk y = true ∧ serOkList ys = true := by
                have h2 := hs'.2
                rw [serOkList] at h2
                simpa using h2
              obtain ⟨cy, rs'', hwy, _, hrs'⟩ := writeItems_cons hsy.1 hwxs
              have hjc : joinComma (cx :: rs') = cx ++ ',' :: joinComma rs' := by
                subst hrs'
                rfl
              rw [hjc] at hf ⊢
              have harg : (cx ++ ',' :: joinComma rs') ++ ']' :: rest
                  = cx ++ ',' :: (joinComma rs' ++ ']' :: rest) := by
                simp
              rw [harg]
              have hlen : cx.length < f ∧ (joinComma rs').length + 1 < f := by
                simp only [List.length_append, List.length_cons] at hf
                omega
              have hv := rtV x f (',' :: (joinComma rs' ++ ']' :: rest)) cx hs'.1 hwx
                hlen.1 rfl
              have hrest := rtI y ys f rest rs' hs'.2 hwxs hlen.2
              rw [readItems]
              simp [hv, hrest]
termination_by x xs _ _ _ _ _ _ => 2 * (sizeOf x + sizeOf xs) + 1
decreasing_by
  all_goals simp_wf
  all_goals subst_vars
  all_goals (try simp)
  all_goals omega

theorem rtP : ∀ (kv : String × JVal) (fs : Fields) (fuel : Nat) (acc : Fields)
    (rest : List Char) (rs : List (List Char)),
    serOkFields (kv :: fs) = true → writePairs (kv :: fs) = some rs →
    (joinComma rs).length + 1 < fuel →
    readPairs fuel acc (joinComma rs ++ '}' :: rest)
      = some (foldSetFields acc (kv :: fs), rest)
  | (k, v), fs, fuel, acc, rest, rs, hs, hw, hf => by
      have hs' : serOk v = true ∧ serOkFields fs = true := by
        rw [serOkFields] at hs
        simpa using hs
      obtain ⟨cv, rs', hwv, hwfs, hrs⟩ := writePairs_cons hs'.1 hw
      subst hrs
      cases fuel with
      | zero => omega
      | succ f =>
          cases fs with
          | nil =>
              rw [writePairs] at hwfs
              have : rs' = [] := by simpa using hwfs.symm
              subst this
              have hjc : joinComma [strChars k ++ ':' :: cv] = strChars k ++ ':' :: cv := rfl
              rw [hjc] at hf ⊢
              have harg : (strChars k ++ ':' :: cv) ++ '}' :: rest
                  = '"' :: (k.data.flatMap escCh ++ '"' :: (':' :: (cv ++ '}' :: rest))) := by
                simp [strChars]
              have hflen : cv.length < f := by
                simp only [strChars, List.length_append, List.length_cons] at hf
                omega
              have hv := rtV v f ('}' :: rest) cv hs'.1 hwv hflen rfl
              rw [harg, readPairs, readStr_flat]
              simp [hv, foldSetFields]
          | cons kv2 fs2 =>
              have hsv2 : serOk kv2.2 = true := by
                have h2 := hs'.2
                rw [serOkFields] at h2
                simpa using (Bool.and_elim_left h2)
              have hpos : rs' ≠ [] := writePairs_pos hsv2 hwfs
              have hjc := joinComma_ne (strChars k ++ ':' :: cv) hpos
              rw [hjc] at hf ⊢
              have harg : ((strChars k ++ ':' :: cv) ++ ',' :: joinComma rs') ++ '}' :: rest
                  = '"' :: (k.data.flatMap escCh ++ '"' ::
                      (':' :: (cv ++ ',' :: (joinComma rs' ++ '}' :: rest)))) := by
                simp [strChars]
              have hlen : cv.length < f ∧ (joinComma rs').length + 1 < f := by
                simp only [strChars, List.length_append, List.length_cons] at hf
                omega
              have hv := rtV v f (',' :: (joinComma rs' ++ '}' :: rest)) cv hs'.1 hwv
                hlen.1 rfl
              have hrest := rtP kv2 fs2 f (setField acc k v) rest rs' hs'.2 hwfs hlen.2
              rw [harg, readPairs, readStr_flat]
              have hfold : foldSetFields acc ((k, v) :: kv2 :: fs2)
                  = foldSetFields (setField acc k v) (kv2 :: fs2) := rfl
              rw [hfold]
              simp [hv, hrest]
termination_by kv fs _ _ _ _ _ _ _ => 2 * (sizeOf kv + sizeOf fs) + 1
decreasing_by
  all_goals simp_wf
  all_goals subst_vars
  all_goals (try simp)
  all_goals omega
end

mutual
theorem wrTot : ∀ v : JVal, serOk v = true → (writeJ v).isSome = true
  | .undef, hs => by simp [serOk] at hs
  | .jdate t, hs => by simp [serOk] at hs
  | .jnum none, hs => by simp [serOk] at hs
  | .jnull, _ => by rw [writeJ]; rfl
  | .jbool true, _ => by rw [writeJ]; rfl
  | .jbool false, _ => by rw [writeJ]; rfl
  | .jnum (some n), _ => by rw [writeJ]; rfl
  | .jstr s, _ => by rw [writeJ]; rfl
  | .jarr xs, hs => by
      rw [writeJ]
      have := wrTotI xs (by rw [serOk] at hs; exact hs)
      match hw : writeItems xs with
      | some rs => rfl
      | none => rw [hw] at this; simp at this
  | .jobj fs, hs => by
      rw [writeJ]
      have hsf : serOkFields fs = true := by
        rw [serOk] at hs
        exact (Bool.and_elim_right hs)
      have := wrTotP fs hsf
      match hw : writePairs fs with
      | some rs => rfl
      | none => rw [hw] at this; simp at this
termination_by v _ => 2 * sizeOf v
decreasing_by
  all_goals simp_wf
  all_goals subst_vars
  all_goals (try simp)
  all_goals omega

theorem wrTotI : ∀ xs : List JVal, serOkList xs = true → (writeItems xs).isSome = true
  | [], _ => by rw [writeItems]; rfl
  | x :: xs, hs => by
      have hs' : serOk x = true ∧ serOkList xs = true := by
        rw [serOkList] at hs
        simpa using hs
      rw [writeItems, writeItemOf_eq hs'.1]
      have h1 := wrTot x hs'.1
      have h2 := wrTotI xs hs'.2
      match hw1 : writeJ x, hw2 : writeItems xs with
      | some cx, some rs => rfl
      | none, _ => rw [hw1] at h1; simp at h1
      | some cx, none => rw [hw2] at h2; simp at h2
termination_by xs _ => 2 * sizeOf xs + 1
decreasing_by
  all_goals simp_wf
  all_goals subst_vars
  all_goals (try simp)
  all_goals omega

theorem wrTotP : ∀ fs : Fields, serOkFields fs = true → (writePairs fs).isSome = true
  | [], _ => by rw [writePairs]; rfl
  | (k, v) :: fs, hs => by
      have hs' : serOk v = true ∧ serOkFields fs = true := by
        rw [serOkFields] at hs
        simpa using hs
      rw [writePairs, if_neg (by simp [serOk_not_undef hs'.1])]
      have h1 := wrTot v hs'.1
      have h2 := wrTotP fs hs'.2
      match hw1 : writeJ v, hw2 : writePairs fs with
      | some cv, some rs => rfl
      | none, _ => rw [hw1] at h1; simp at h1
      | some cv, none => rw [hw2] at h2; simp at h2
termination_by fs _ => 2 * sizeOf fs + 1
decreasing_by
  all_goals simp_wf
  all_goals subst_vars
  all_goals (try simp)
  all_goals omega
end

/-- The writer prints every serialisable value. -/
theorem wr_eq {v : JVal} (hs : serOk v = true) : writeJ v = some (wr v) := by
  have := wrTot v hs
  match hw : writeJ v with
  | some cs => rw [wr, hw]; rfl
  | none => rw [hw] at this; simp at this

/-- The whole JSON codec round trip: parsing what the writer printed gives
the value back. -/
theorem readTop_wr {v : JVal} (hs : serOk v = true) :
    readTop (wr v) = some v := by
  have hw := wr_eq hs
  have h := rtV v ((wr v).length + 1) [] (wr v) hs hw (by omega) rfl
  rw [List.append_nil] at h
  rw [readTop, h]

/-! ## The UTF-8 round trip -/

theorem utf8Ch_lt (c : Char) : ∀ b ∈ utf8Ch c, b < 256 := by
  intro b hb
  have hv : c.toNat < 0xd800 ∨ (0xdfff < c.toNat ∧ c.toNat < 0x110000) := c.valid
  rw [utf8Ch] at hb
  by_cases h1 : c.toNat < 0x80
  · simp only [if_pos h1, List.mem_singleton] at hb
    omega
  · rw [if_neg h1] at hb
    by_cases h2 : c.toNat < 0x800
    · simp only [if_pos h2, List.mem_cons, List.not_mem_nil, or_false] at hb
      rcases hb with h | h
      all_goals omega
    · rw [if_neg h2] at hb
      by_cases h3 : c.toNat < 0x10000
      · simp only [if_pos h3, List.mem_cons, List.not_mem_nil, or_false] at hb
        rcases hb with h | h | h
        all_goals omega
      · simp only [if_neg h3, List.mem_cons, List.not_mem_nil, or_false] at hb
        rcases hb with h | h | h | h
        all_goals omega

theorem utf8_dec_ch (c : Char) (bs : List Nat) :
    utf8DecAux (utf8Ch c ++ bs) 0 0
      = (utf8DecAux bs 0 0).map (c :: ·) := by
  have hv : c.toNat < 0xd800 ∨ (0xdfff < c.toNat ∧ c.toNat < 0x110000) := c.valid
  rw [utf8Ch]
  by_cases h1 : c.toNat < 0x80
  · rw [if_pos h1]
    simp only [List.cons_append, List.nil_append]
    rw [utf8DecAux, if_pos h1, Char.ofNat_toNat]
  · rw [if_neg h1]
    by_cases h2 : c.toNat < 0x800
    · rw [if_pos h2]
      simp only [List.cons_append, List.nil_append]
      rw [utf8DecAux, if_neg (by omega), if_neg (by omega), if_pos (by omega)]
      rw [utf8DecAux, if_pos (by omega), if_pos rfl]
      rw [show 0xc0 + c.toNat / 64 - 0xc0 = c.toNat / 64 from by omega]
      rw [show c.toNat / 64 * 64 + (0x80 + c.toNat % 64 - 0x80) = c.toNat from by omega]
      rw [if_pos hv, Char.ofNat_toNat]
    · rw [if_neg h2]
      by_cases h3 : c.toNat < 0x10000
      · rw [if_pos h3]
        simp only [List.cons_append, List.nil_append]
        rw [utf8DecAux, if_neg (by omega), if_neg (by omega), if_neg (by omega),
            if_pos (by omega)]
        rw [utf8DecAux, if_pos (by omega), if_neg (by omega)]
        rw [show 0xe0 + c.toNat / 4096 - 0xe0 = c.toNat / 4096 from by omega]
        rw [show c.toNat / 4096 * 64 + (0x80 + c.toNat / 64 % 64 - 0x80)
              = c.toNat / 64 from by omega]
        rw [utf8DecAux, if_pos (by omega), if_pos rfl]
        rw [show c.toNat / 64 * 64 + (0x80 + c.toNat % 64 - 0x80) = c.toNat from by omega]
        rw [if_pos hv, Char.ofNat_toNat]
      · rw [if_neg h3]
        simp only [List.cons_append, List.nil_append]
        rw [utf8DecAux, if_neg (by omega), if_neg (by omega), if_neg (by omega),
            if_neg (by omega), if_pos (by omega)]
        rw [utf8DecAux, if_pos (by omega), if_neg (by omega)]
        rw [show 0xf0 + c.toNat / 262144 - 0xf0 = c.toNat / 262144 from by omega]
        rw [show c.toNat / 262144 * 64 + (0x80 + c.toNat / 4096 % 64 - 0x80)
              = c.toNat / 4096 from by omega]
        rw [utf8DecAux, if_pos (by omega), if_neg (by omega)]
        rw [show c.toNat / 4096 * 64 + (0x80 + c.toNat / 64 % 64 - 0x80)
              = c.toNat / 64 from by omega]
        rw [utf8DecAux, if_pos (by omega), if_pos rfl]
        rw [show c.toNat / 64 * 64 + (0x80 + c.toNat % 64 - 0x80) = c.toNat from by omega]
        rw [if_pos hv, Char.ofNat_toNat]

/-- The UTF-8 round trip. -/
theorem utf8_rt (cs : List Char) : utf8DecodeL (utf8EncodeL cs) = some cs := by
  rw [utf8DecodeL]
  induction cs with
  | nil => rfl
  | cons c t ih =>
      rw [utf8EncodeL, List.flatMap_cons]
      rw [show t.flatMap utf8Ch = utf8EncodeL t from rfl]
      rw [utf8_dec_ch, ih]
      rfl

theorem utf8EncodeL_lt (cs : List Char) : ∀ b ∈ utf8EncodeL cs, b < 256 := by
  intro b hb
  rw [utf8EncodeL, List.mem_flatMap] at hb
  obtain ⟨c, _, hbc⟩ := hb
  exact utf8Ch_lt c b hbc

/-! ## The base64 and URL-safe round trips -/

theorem b64Val_b64Ch : ∀ d : Nat, d < 64 → b64Val (b64Ch d) = some d := by
  decide

theorem b64Ch_notMeta : ∀ d : Nat, d < 64 →
    b64Ch d ≠ '=' ∧ b64Ch d ≠ '-' ∧ b64Ch d ≠ '_' := by
  decide

theorem btoaL_ne_nil {bs : List Nat} (h : bs ≠ []) : btoaL bs ≠ [] := by
  match bs, h with
  | [b0], _ => simp [btoaL]
  | [b0, b1], _ => simp [btoaL]
  | b0 :: b1 :: b2 :: t, _ => simp [btoaL]

/-- `atob` undoes `btoa` on byte input. -/
theorem atob_btoa : ∀ bs : List Nat, (∀ b ∈ bs, b < 256) →
    atobL (btoaL bs) = some bs
  | [], _ => rfl
  | [b0], h => by
      have h0 : b0 < 256 := h b0 (by simp)
      rw [btoaL, atobL]
      rw [if_pos rfl, if_pos rfl, if_pos rfl]
      rw [b64Val_b64Ch (b0 / 4) (by omega), b64Val_b64Ch (b0 % 4 * 16) (by omega)]
      simp only [Option.bind_eq_bind, Option.some_bind, Option.some.injEq, List.cons.injEq,
        and_true]
      omega
  | [b0, b1], h => by
      have h0 : b0 < 256 := h b0 (by simp)
      have h1 : b1 < 256 := h b1 (by simp)
      rw [btoaL, atobL]
      rw [if_pos rfl, if_pos rfl,
          if_neg (b64Ch_notMeta (b1 % 16 * 4) (by omega)).1]
      rw [b64Val_b64Ch (b0 / 4) (by omega), b64Val_b64Ch (b0 % 4 * 16 + b1 / 16) (by omega),
          b64Val_b64Ch (b1 % 16 * 4) (by omega)]
      simp only [Option.bind_eq_bind, Option.some_bind, Option.some.injEq, List.cons.injEq,
        and_true]
      omega
  | b0 :: b1 :: b2 :: t, h => by
      have h0 : b0 < 256 := h b0 (by simp)
      have h1 : b1 < 256 := h b1 (by simp)
      have h2 : b2 < 256 := h b2 (by simp)
      rw [btoaL, atobL]
      match t, h with
      | [], h => 
          rw [show btoaL [] = [] from rfl]
          rw [if_pos rfl, if_neg (b64Ch_notMeta (b2 % 64) (by omega)).1]
          rw [b64Val_b64Ch (b0 / 4) (by omega), b64Val_b64Ch (b0 % 4 * 16 + b1 / 16) (by omega),
              b64Val_b64Ch (b1 % 16 * 4 + b2 / 64) (by omega), b64Val_b64Ch (b2 % 64) (by omega)]
          simp only [Option.bind_eq_bind, Option.some_bind, Option.some.injEq, List.cons.injEq,
            and_true]
          refine ⟨by omega, by omega, by omega⟩
      | t0 :: ts, h =>
          rw [if_neg (btoaL_ne_nil (by simp))]
          rw [b64Val_b64Ch (b0 / 4) (by omega), b64Val_b64Ch (b0 % 4 * 16 + b1 / 16) (by omega),
              b64Val_b64Ch (b1 % 16 * 4 + b2 / 64) (by omega), b64Val_b64Ch (b2 % 64) (by omega)]
          rw [atob_btoa (t0 :: ts) (fun b hb => h b (by simp [hb]))]
          simp only [Option.bind_eq_bind, Option.some_bind, Option.some.injEq, List.cons.injEq,
            and_true]
          refine ⟨by omega, by omega, by omega⟩

theorem urlCh_rt {c : Char} (h : (b64Val c).isSome = true) :
    fromUrlSafeCh (toUrlSafeCh c) = c ∧ toUrlSafeCh c ≠ '=' := by
  by_cases h1 : c = '+'
  · subst h1; exact ⟨by decide, by decide⟩
  · by_cases h2 : c = '/'
    · subst h2; exact ⟨by decide, by decide⟩
    · by_cases h3 : c = '-'
      · subst h3; revert h; decide
      · by_cases h4 : c = '_'
        · subst h4; revert h; decide
        · by_cases h5 : c = '='
          · subst h5; revert h; decide
          · rw [toUrlSafeCh, if_neg h1, if_neg h2]
            rw [fromUrlSafeCh, if_neg h3, if_neg h4]
            exact ⟨rfl, h5⟩

/-- A `btoa` output splits into alphabet characters and trailing padding,
with total length a multiple of four. -/
theorem btoa_decomp : ∀ bs : List Nat, (∀ b ∈ bs, b < 256) →
    ∃ core k, btoaL bs = core ++ List.replicate k '=' ∧ k < 3 ∧
      (core.length + k) % 4 = 0 ∧ ∀ c ∈ core, (b64Val c).isSome = true
  | [], _ => ⟨[], 0, rfl, by omega, by simp, by simp⟩
  | [b0], h => by
      have h0 : b0 < 256 := h b0 (by simp)
      refine ⟨[b64Ch (b0 / 4), b64Ch (b0 % 4 * 16)], 2, by rw [btoaL]; rfl, by omega,
        by simp, ?_⟩
      intro c hc
      simp only [List.mem_cons, List.not_mem_nil, or_false] at hc
      rcases hc with rfl | rfl
      · rw [b64Val_b64Ch (b0 / 4) (by omega)]; rfl
      · rw [b64Val_b64Ch (b0 % 4 * 16) (by omega)]; rfl
  | [b0, b1], h => by
      have h0 : b0 < 256 := h b0 (by simp)
      have h1 : b1 < 256 := h b1 (by simp)
      refine ⟨[b64Ch (b0 / 4), b64Ch (b0 % 4 * 16 + b1 / 16), b64Ch (b1 % 16 * 4)], 1,
        by rw [btoaL]; rfl, by omega, by simp, ?_⟩
      intro c hc
      simp only [List.mem_cons, List.not_mem_nil, or_false] at hc
      rcases hc with rfl | rfl | rfl
      · rw [b64Val_b64Ch (b0 / 4) (by omega)]; rfl
      · rw [b64Val_b64Ch (b0 % 4 * 16 + b1 / 16) (by omega)]; rfl
      · rw [b64Val_b64Ch (b1 % 16 * 4) (by omega)]; rfl
  | b0 :: b1 :: b2 :: t, h => by
      have h0 : b0 < 256 := h b0 (by simp)
      have h1 : b1 < 256 := h b1 (by simp)
      have h2 : b2 < 256 := h b2 (by simp)
      obtain ⟨core, k, hbt, hk, hlen, halpha⟩ := btoa_decomp t (fun b hb => h b (by simp [hb]))
      refine ⟨b64Ch (b0 / 4) :: b64Ch (b0 % 4 * 16 + b1 / 16) ::
        b64Ch (b1 % 16 * 4 + b2 / 64) :: b64Ch (b2 % 64) :: core, k, ?_, hk, ?_, ?_⟩
      · rw [btoaL, hbt]
        simp
      · simp only [List.length_cons]
        omega
      · intro c hc
        simp only [List.mem_cons] at hc
        rcases hc with rfl | rfl | rfl | rfl | hc
        · rw [b64Val_b64Ch (b0 / 4) (by omega)]; rfl
        · rw [b64Val_b64Ch (b0 % 4 * 16 + b1 / 16) (by omega)]; rfl
        · rw [b64Val_b64Ch (b1 % 16 * 4 + b2 / 64) (by omega)]; rfl
        · rw [b64Val_b64Ch (b2 % 64) (by omega)]; rfl
        · exact halpha c hc

/-- The URL-safe substitution round trip on `btoa` output. -/
theorem urlsafe_rt (bs : List Nat) (h : ∀ b ∈ bs, b < 256) :
    fromUrlSafe (toUrlSafe (btoaL bs)) = btoaL bs := by
  obtain ⟨core, k, hbt, hk, hlen, halpha⟩ := btoa_decomp bs h
  rw [hbt, toUrlSafe]
  have hmap : (core ++ List.replicate k '=').map toUrlSafeCh
      = core.map toUrlSafeCh ++ List.replicate k '=' := by
    rw [List.map_append]
    congr 1
    rw [List.map_replicate]
    rfl
  rw [hmap, List.filter_append]
  have hfcore : (core.map toUrlSafeCh).filter (fun c => c ≠ '=')
      = core.map toUrlSafeCh := by
    rw [List.filter_eq_self]
    intro c hc
    rw [List.mem_map] at hc
    obtain ⟨c0, hc0, rfl⟩ := hc
    simpa using (urlCh_rt (halpha c0 hc0)).2
  have hfpad : (List.replicate k '=').filter (fun c => (c ≠ '=' : Bool)) = [] := by
    rw [List.filter_eq_nil_iff]
    intro c hc
    rw [List.eq_of_mem_replicate hc]
    simp
  rw [hfcore, hfpad, List.append_nil, fromUrlSafe]
  simp only [List.map_map, List.length_map]
  have hback : core.map (fromUrlSafeCh ∘ toUrlSafeCh) = core := by
    have h1 : core.map (fromUrlSafeCh ∘ toUrlSafeCh) = core.map id :=
      List.map_congr_left (fun c hc => (urlCh_rt (halpha c hc)).1)
    rw [h1, List.map_id]
  rw [hback]
  congr 1
  congr 1
  omega

/-! ## Field access and the schema mapping -/

theorem getField_set_self (fs : Fields) (k : String) (v : JVal) :
    getField (.jobj (setField fs k v)) k = v := by
  induction fs with
  | nil => simp [setField, getField]
  | cons kv t ih =>
      rw [setField]
      by_cases h : kv.1 = k
      · rw [if_pos h]
        simp [getField]
      · rw [if_neg h]
        rw [getField, List.find?]
        rw [show (decide (kv.1 = k)) = false from by simp [h]]
        exact ih

theorem getField_set_ne (fs : Fields) {k k' : String} (v : JVal) (h : k' ≠ k) :
    getField (.jobj (setField fs k v)) k' = getField (.jobj fs) k' := by
  induction fs with
  | nil =>
      simp only [setField, getField, List.find?]
      rw [decide_eq_false (fun (he : k = k') => h he.symm)]
  | cons kv t ih =>
      rw [setField]
      by_cases hk : kv.1 = k
      · rw [if_pos hk]
        rw [getField, getField, List.find?, List.find?]
        rw [decide_eq_false (fun (he : k = k') => h he.symm),
            decide_eq_false (fun (he : kv.1 = k') => h (he.symm.trans hk))]
      · rw [if_neg hk]
        rw [getField, getField, List.find?, List.find?]
        by_cases hk' : kv.1 = k'
        · rw [show (decide (kv.1 = k')) = true from by simp [hk']]
        · rw [show (decide (kv.1 = k')) = false from by simp [hk']]
          exact ih

/-- The mapping fold of `minifyEvent`/`expandEvent` in closed form. -/
theorem fold_pick (ev : JVal) : ∀ (m : List (String × String)) (init : Fields),
    (∀ kv ∈ m, ∀ p ∈ init, p.1 ≠ kv.2) →
    List.Pairwise (fun a b => a.2 ≠ b.2) m →
    m.foldl (fun acc kv =>
      match getField ev kv.1 with
      | .undef => acc
      | v => setField acc kv.2 v) init = init ++ pickFields m ev := by
  intro m
  induction m with
  | nil => intro init _ _; simp [pickFields]
  | cons kv t ih =>
      intro init hfresh hpw
      rw [List.pairwise_cons] at hpw
      simp only [pickFields] at ih ⊢
      have hfr : ∀ v : JVal, ∀ kv2 ∈ t, ∀ p ∈ init ++ [(kv.2, v)], p.1 ≠ kv2.2 := by
        intro v kv2 h2 p h'
        rcases List.mem_append.mp h' with h3 | h3
        · exact hfresh kv2 (List.mem_cons_of_mem kv h2) p h3
        · rw [List.mem_singleton] at h3
          subst h3
          exact hpw.1 kv2 h2
      have hset : ∀ p ∈ init, p.1 ≠ kv.2 :=
        fun p h' => hfresh kv (List.mem_cons_self kv t) p h'
      cases hg : getField ev kv.1
      case undef =>
          simp only [List.foldl_cons, List.filterMap_cons, hg]
          exact ih init (fun kv2 h2 p h' => hfresh kv2 (List.mem_cons_of_mem kv h2) p h') hpw.2
      all_goals
        simp only [List.foldl_cons, List.filterMap_cons, hg]
      all_goals
        rw [setField_append hset _, ih _ (hfr _) hpw.2]
      all_goals simp

theorem minifyEvent_eq (ev : JVal) :
    minifyEvent ev = .jobj (pickFields FIELD_MAPPING ev) := by
  rw [minifyEvent, fold_pick ev FIELD_MAPPING [] (by simp) (by rw [FIELD_MAPPING]; decide)]
  rfl

theorem pickFields_mem {m : List (String × String)} {ev : JVal} {kv : String × JVal}
    (h : kv ∈ pickFields m ev) :
    ∃ kv0 ∈ m, kv.1 = kv0.2 ∧ kv.2 = getField ev kv0.1 ∧ kv.2 ≠ .undef := by
  rw [pickFields, List.mem_filterMap] at h
  obtain ⟨kv0, h0, hf⟩ := h
  refine ⟨kv0, h0, ?_⟩
  match hg : getField ev kv0.1 with
  | .undef => rw [hg] at hf; simp at hf
  | .jnull | .jbool b | .jnum n | .jstr s | .jdate d | .jarr xs | .jobj fs =>
      rw [hg] at hf
      simp only [Option.some.injEq] at hf
      subst hf
      simp [hg]

theorem pickFields_lookup_none {m : List (String × String)} (ev : JVal) {s : String}
    (h : ∀ kv ∈ m, kv.2 ≠ s) :
    getField (.jobj (pickFields m ev)) s = .undef := by
  induction m with
  | nil => rfl
  | cons kv t ih =>
      rw [pickFields, List.filterMap_cons]
      match hg : getField ev kv.1 with
      | .undef => exact ih (fun kv2 h2 => h kv2 (by simp [h2]))
      | .jnull | .jbool b | .jnum n | .jstr s' | .jdate d | .jarr xs | .jobj fs =>
          rw [getField, List.find?]
          rw [show (decide (kv.2 = s)) = false from by simp [h kv (by simp)]]
          exact ih (fun kv2 h2 => h kv2 (by simp [h2]))

theorem pickFields_lookup {m : List (String × String)} (ev : JVal)
    (hpw : List.Pairwise (fun a b => a.2 ≠ b.2) m)
    {full s : String} (hmem : (full, s) ∈ m) :
    getField (.jobj (pickFields m ev)) s = getField ev full := by
  induction m with
  | nil => simp at hmem
  | cons kv t ih =>
      rw [List.pairwise_cons] at hpw
      rw [List.mem_cons] at hmem
      rw [pickFields, List.filterMap_cons]
      rcases hmem with heq | hmem
      · obtain ⟨rfl, rfl⟩ : full = kv.1 ∧ s = kv.2 := by rw [← heq]; exact ⟨rfl, rfl⟩
        match hg : getField ev kv.1 with
        | .undef =>
            exact pickFields_lookup_none ev (fun kv2 h2 => (hpw.1 kv2 h2).symm)
        | .jnull | .jbool b | .jnum n | .jstr s' | .jdate d | .jarr xs | .jobj fs =>
            rw [getField, List.find?]
            rw [decide_eq_true (rfl : kv.2 = kv.2)]
      · have hns : kv.2 ≠ s := fun he => (hpw.1 (full, s) hmem) he
        match hg : getField ev kv.1 with
        | .undef => exact ih hpw.2 hmem
        | .jnull | .jbool b | .jnum n | .jstr s' | .jdate d | .jarr xs | .jobj fs =>
            rw [getField, List.find?]
            rw [show (decide (kv.2 = s)) = false from by simp [hns]]
            exact ih hpw.2 hmem

theorem foldKeys_short (x : JVal) : ∀ (ks : List String) (acc : Fields),
    (∀ k ∈ ks, isShortName k = true) →
    ks.foldl (fun acc k =>
      if isShortName k then acc else setField acc k (getField x k)) acc = acc := by
  intro ks
  induction ks with
  | nil => intro acc _; rfl
  | cons k t ih =>
      intro acc h
      rw [List.foldl_cons, if_pos (h k (by simp))]
      exact ih acc (fun k2 h2 => h k2 (by simp [h2]))

/-- Expanding an object all of whose keys are short names. -/
theorem expandEvent_short (x : JVal) (h : ∀ k ∈ ownKeys x, isShortName k = true) :
    expandEvent x = .jobj (pickFields REVERSE_MAPPING x) := by
  rw [expandEvent]
  rw [fold_pick x REVERSE_MAPPING [] (by simp)
      (by rw [REVERSE_MAPPING, FIELD_MAPPING]; decide)]
  rw [foldKeys_short x (ownKeys x) _ h]
  rfl

theorem ownKeys_pickFields (m : List (String × String)) (ev : JVal) :
    ownKeys (.jobj (pickFields m ev)) = (pickFields m ev).map (·.1) := rfl

/-- The expansion of a minified event, in closed form. -/
theorem expandMin_eq (ev : JVal) :
    expandEvent (minifyEvent ev)
      = .jobj (pickFields REVERSE_MAPPING (.jobj (pickFields FIELD_MAPPING ev))) := by
  rw [minifyEvent_eq]
  rw [expandEvent_short _ ?hks]
  case hks =>
    intro k hk
    rw [ownKeys_pickFields, List.mem_map] at hk
    obtain ⟨kv, hkv, rfl⟩ := hk
    obtain ⟨kv0, h0, hk1, _, _⟩ := pickFields_mem hkv
    rw [hk1]
    revert h0
    rw [FIELD_MAPPING]
    intro h0
    simp only [List.mem_cons, List.not_mem_nil, or_false] at h0
    rcases h0 with h | h | h | h | h | h
    all_goals (rw [h]; decide)

/-- Field values of the expanded minified event: each display name reads
back what the processed event had. -/
theorem expandMin_get (ev : JVal) {full s : String} (hmem : (full, s) ∈ FIELD_MAPPING) :
    getField (expandEvent (minifyEvent ev)) full = getField ev full := by
  rw [expandMin_eq]
  have hrm : (s, full) ∈ REVERSE_MAPPING := by
    rw [REVERSE_MAPPING, List.mem_map]
    exact ⟨(full, s), hmem, rfl⟩
  rw [pickFields_lookup _ (by rw [REVERSE_MAPPING, FIELD_MAPPING]; decide) hrm]
  rw [pickFields_lookup _ (by rw [FIELD_MAPPING]; decide) hmem]

/-- A name outside the display table reads back `undefined`. -/
theorem expandMin_get_none (ev : JVal) {s : String}
    (h : ∀ kv ∈ REVERSE_MAPPING, kv.2 ≠ s) :
    getField (expandEvent (minifyEvent ev)) s = .undef := by
  rw [expandMin_eq]
  exact pickFields_lookup_none _ h

/-! ## Transfer from the fuel-structural writer clone -/

theorem writeJF_sound : ∀ fuel,
    (∀ v out, writeJF fuel v = some out → writeJ v = some out) ∧
    (∀ xs out, writeItemsF fuel xs = some out → writeItems xs = some out) ∧
    (∀ fs out, writePairsF fuel fs = some out → writePairs fs = some out) := by
  intro fuel
  induction fuel with
  | zero =>
      refine ⟨?_, ?_, ?_⟩ <;> intro a out h <;>
        simp [writeJF, writeItemsF, writePairsF] at h
  | succ f ih =>
      obtain ⟨ihV, ihI, ihP⟩ := ih
      refine ⟨?_, ?_, ?_⟩
      · intro v out h
        match v with
        | .undef => exact absurd h (by simp [writeJF])
        | .jdate t => exact absurd h (by simp [writeJF])
        | .jnull => rw [writeJ]; exact h
        | .jbool true => rw [writeJ]; exact h
        | .jbool false => rw [writeJ]; exact h
        | .jnum (some n) => rw [writeJ]; exact h
        | .jnum none => rw [writeJ]; exact h
        | .jstr str => rw [writeJ]; exact h
        | .jarr xs =>
            rw [writeJF] at h
            rw [writeJ]
            match hb : writeItemsF f xs with
            | none => rw [hb] at h; exact absurd h (by simp)
            | some body =>
                rw [hb] at h
                rw [ihI xs body hb]
                exact h
        | .jobj fs =>
            rw [writeJF] at h
            rw [writeJ]
            match hb : writePairsF f fs with
            | none => rw [hb] at h; exact absurd h (by simp)
            | some body =>
                rw [hb] at h
                rw [ihP fs body hb]
                exact h
      · intro xs out h
        match xs with
        | [] => rw [writeItems]; exact h
        | x :: t =>
            rw [writeItemsF] at h
            rw [writeItems]
            match hx : (if isUndef x then some ['n', 'u', 'l', 'l'] else writeJF f x) with
            | none => rw [hx] at h; exact absurd h (by simp)
            | some cx =>
                rw [hx] at h
                match ht : writeItemsF f t with
                | none => rw [ht] at h; exact absurd h (by simp)
                | some rest =>
                    rw [ht] at h
                    have hxo : writeItemOf x = some cx := by
                      cases x
                      case undef => rw [writeItemOf.eq_def]; simpa [isUndef] using hx
                      all_goals (rw [writeItemOf.eq_def];
                                 exact ihV _ cx (by simpa [isUndef] using hx))
                    rw [hxo, ihI t rest ht]
                    exact h
      · intro fs out h
        match fs with
        | [] => rw [writePairs]; exact h
        | (k, v) :: t =>
            rw [writePairsF] at h
            rw [writePairs]
            by_cases hu : isUndef v = true
            · rw [if_pos hu] at h ⊢
              exact ihP t out h
            · rw [if_neg hu] at h ⊢
              match hv : writeJF f v with
              | none => rw [hv] at h; exact absurd h (by simp)
              | some cv =>
                  rw [hv] at h
                  match ht : writePairsF f t with
                  | none => rw [ht] at h; exact absurd h (by simp)
                  | some rest =>
                      rw [ht] at h
                      rw [ihV v cv hv, ihP t rest ht]
                      exact h

/-- Evaluate `writeJ` through the clone: any fuel on which the clone
succeeds gives the value of `writeJ`. -/
theorem writeJ_evalF (fuel : Nat) {v : JVal} (h : (writeJF fuel v).isSome = true) :
    writeJ v = writeJF fuel v := by
  match hf : writeJF fuel v with
  | none => rw [hf] at h; exact absurd h (by simp)
  | some out => exact (writeJF_sound fuel).1 v out hf

/-- Evaluate `encodeState` through the clone. -/
theorem encodeState_evalF (fuel : Nat) {now tz : Int} {events : List JVal}
    (h : (encodeStateF fuel now tz events).isSome = true) :
    encodeState now tz events = encodeStateF fuel now tz events := by
  match hc : compressEvents now tz (events.map processEvent) with
  | none =>
      rw [encodeStateF, hc] at h
      exact absurd h (by simp)
  | some c =>
      rw [encodeStateF, hc] at h
      simp only [Option.bind_eq_bind, Option.some_bind] at h
      rw [encodeState, encodeStateF, hc]
      simp only [Option.bind_eq_bind, Option.some_bind]
      match hw : writeJF fuel (JVal.jobj
          [("r", .jarr (minifyEvents c.1)), ("s", .jarr (c.2.map summaryJ))]) with
      | none => rw [hw] at h; exact absurd h (by simp)
      | some js => rw [writeJ_evalF fuel (by rw [hw]; rfl), hw]

/-! ## Timestamp quantisation -/

theorem fdiv_decomp (t d : Int) (hd : 0 < d) :
    d * t.fdiv d + t.fmod d = t ∧ 0 ≤ t.fmod d ∧ t.fmod d < d :=
  ⟨Int.fdiv_add_fmod t d, Int.fmod_nonneg' t (by omega), Int.fmod_lt_of_pos t hd⟩

theorem q15_le (t : Int) : q15 t ≤ t := by
  rw [q15, FIFTEEN_MINUTES_MS]
  have h := fdiv_decomp t (15 * 60 * 1000) (by norm_num)
  omega

theorem q15_gt (t : Int) : t - FIFTEEN_MINUTES_MS < q15 t := by
  rw [q15, FIFTEEN_MINUTES_MS]
  have h := fdiv_decomp t (15 * 60 * 1000) (by norm_num)
  omega

theorem q15_thousand (t : Int) : (q15 t).fdiv 1000 * 1000 = q15 t := by
  rw [q15, FIFTEEN_MINUTES_MS]
  have h : t.fdiv (15 * 60 * 1000) * (15 * 60 * 1000)
      = t.fdiv (15 * 60 * 1000) * (15 * 60) * 1000 := by ring
  rw [h, Int.mul_fdiv_cancel _ (by norm_num)]

theorem q15_ge {t : Int} (h : FIFTEEN_MINUTES_MS ≤ t) : FIFTEEN_MINUTES_MS ≤ q15 t := by
  rw [q15, FIFTEEN_MINUTES_MS] at *
  have h1 := fdiv_decomp t (15 * 60 * 1000) (by norm_num)
  omega

theorem q15_mono {a b : Int} (h : a ≤ b) : q15 a ≤ q15 b := by
  rw [q15, q15, FIFTEEN_MINUTES_MS]
  have h1 := fdiv_decomp a (15 * 60 * 1000) (by norm_num)
  have h2 := fdiv_decomp b (15 * 60 * 1000) (by norm_num)
  omega

/-! ## The processed event -/

theorem spreadFields_jobj (fs : Fields) : spreadFields (.jobj fs) = fs := rfl

theorem processEvent_eq {fs : Fields} {t : Int}
    (hts : getField (.jobj fs) "timestamp" = .jdate (some t)) :
    processEvent (.jobj fs)
      = .jobj (setField fs "timestamp" (.jnum (some ((q15 t).fdiv 1000)))) := by
  rw [processEvent]
  simp only [spreadFields_jobj, hts]
  rw [if_pos (by rw [truthy])]
  simp [compressTimestamp, roundTo15Minutes, dateToUnix, dateMsOf, q15]

theorem processEvent_ts {fs : Fields} {t : Int}
    (hts : getField (.jobj fs) "timestamp" = .jdate (some t)) :
    getField (processEvent (.jobj fs)) "timestamp" = .jnum (some ((q15 t).fdiv 1000)) := by
  rw [processEvent_eq hts, getField_set_self]

theorem processEvent_get {fs : Fields} {t : Int} {k : String}
    (hts : getField (.jobj fs) "timestamp" = .jdate (some t)) (hk : k ≠ "timestamp") :
    getField (processEvent (.jobj fs)) k = getField (.jobj fs) k := by
  rw [processEvent_eq hts, getField_set_ne fs _ hk]

theorem fdiv1000_lt {t : Int} (h2 : t < 10000000000000) :
    (q15 t).fdiv 1000 < 10000000000 := by
  have hq := q15_le t
  have hm := q15_thousand t
  omega

theorem eventTsMs_processed {fs : Fields} {t : Int}
    (hts : getField (.jobj fs) "timestamp" = .jdate (some t))
    (h2 : t < 10000000000000) :
    eventTsMs (processEvent (.jobj fs)) = some (q15 t) := by
  rw [eventTsMs, processEvent_ts hts]
  show (if (q15 t).fdiv 1000 < 10000000000 then some ((q15 t).fdiv 1000 * 1000)
        else some ((q15 t).fdiv 1000)) = some (q15 t)
  rw [if_pos (fdiv1000_lt h2), q15_thousand]

theorem wfTs_eq {e : JVal} {t : Int} (hts : getField e "timestamp" = .jdate (some t)) :
    wfTs e = t := by
  rw [wfTs, hts]

/-! ## Key and serialisability bookkeeping -/

theorem setField_mem_keys : ∀ (fs : Fields) (k : String) (v : JVal),
    ∀ p ∈ setField fs k v, p.1 = k ∨ ∃ q ∈ fs, p.1 = q.1 := by
  intro fs k v
  induction fs with
  | nil =>
      intro p hp
      rw [setField, List.mem_singleton] at hp
      subst hp
      exact Or.inl rfl
  | cons kv t ih =>
      intro p hp
      rw [setField] at hp
      by_cases hk : kv.1 = k
      · rw [if_pos hk] at hp
        rcases List.mem_cons.mp hp with h | h
        · subst h; exact Or.inl rfl
        · exact Or.inr ⟨p, List.mem_cons_of_mem kv h, rfl⟩
      · rw [if_neg hk] at hp
        rcases List.mem_cons.mp hp with h | h
        · exact Or.inr ⟨kv, List.mem_cons_self _ _, by rw [h]⟩
        · rcases ih p h with h1 | ⟨q, hq, hq1⟩
          · exact Or.inl h1
          · exact Or.inr ⟨q, List.mem_cons_of_mem kv hq, hq1⟩

theorem nodupKeysB_cons_of {p : String × JVal} {fs : Fields}
    (h1 : ∀ q ∈ fs, q.1 ≠ p.1) (h2 : nodupKeysB fs = true) : nodupKeysB (p :: fs) = true := by
  rw [nodupKeysB, Bool.and_eq_true]
  refine ⟨?_, h2⟩
  match hX : fs.any (fun q => q.1 = p.1) with
  | false => rfl
  | true =>
      rw [List.any_eq_true] at hX
      obtain ⟨q, hq, hq1⟩ := hX
      simp only [decide_eq_true_eq] at hq1
      exact absurd hq1 (h1 q hq)

theorem nodupKeysB_cons {p : String × JVal} {fs : Fields}
    (h : nodupKeysB (p :: fs) = true) :
    (∀ q ∈ fs, q.1 ≠ p.1) ∧ nodupKeysB fs = true := by
  rw [nodupKeysB, Bool.and_eq_true] at h
  obtain ⟨h1, h2⟩ := h
  refine ⟨?_, h2⟩
  intro q hq he
  have hX : fs.any (fun q => q.1 = p.1) = true :=
    List.any_eq_true.mpr ⟨q, hq, by simp [he]⟩
  rw [hX] at h1
  exact absurd h1 (by decide)

theorem nodupKeysB_setField : ∀ {fs : Fields} (k : String) (v : JVal),
    nodupKeysB fs = true → nodupKeysB (setField fs k v) = true := by
  intro fs
  induction fs with
  | nil => intro k v _; rw [setField]; rfl
  | cons kv t ih =>
      intro k v hnd
      obtain ⟨hnd1, hnd2⟩ := nodupKeysB_cons hnd
      rw [setField]
      by_cases hk : kv.1 = k
      · refine if_pos hk ▸ nodupKeysB_cons_of ?_ hnd2
        intro q hq
        rw [show ((k, v) : String × JVal).1 = kv.1 from hk.symm]
        exact hnd1 q hq
      · refine if_neg hk ▸ nodupKeysB_cons_of ?_ (ih k v hnd2)
        intro q hq
        rcases setField_mem_keys t k v q hq with h1 | ⟨r, hr, hr1⟩
        · rw [h1]; exact fun he => hk he.symm
        · rw [hr1]; exact hnd1 r hr

theorem serOkList_of_forall : ∀ {xs : List JVal},
    (∀ x ∈ xs, serOk x = true) → serOkList xs = true := by
  intro xs
  induction xs with
  | nil => intro _; rfl
  | cons x t ih =>
      intro h
      rw [serOkList, Bool.and_eq_true]
      exact ⟨h x (List.mem_cons_self _ _), ih (fun y hy => h y (List.mem_cons_of_mem x hy))⟩

theorem serOkFields_of_forall : ∀ {fs : Fields},
    (∀ kv ∈ fs, serOk kv.2 = true) → serOkFields fs = true := by
  intro fs
  induction fs with
  | nil => intro _; rfl
  | cons kv t ih =>
      intro h
      rw [serOkFields, Bool.and_eq_true]
      exact ⟨h kv (List.mem_cons_self _ _), ih (fun y hy => h y (List.mem_cons_of_mem kv hy))⟩

theorem serOk_jnum_some (n : Int) : serOk (.jnum (some n)) = true := by
  simp [serOk.eq_def]

theorem serOk_summaryJ (s : DaySummary) : serOk (summaryJ s) = true := by
  rw [summaryJ, serOk, Bool.and_eq_true]
  constructor
  · simp [nodupKeysB]
  · exact serOkFields_of_forall (by
      intro kv hkv
      simp only [List.mem_cons, List.not_mem_nil, or_false] at hkv
      rcases hkv with h | h | h | h <;> (subst h; exact serOk_jnum_some _))

theorem nodupKeys_pickFields {m : List (String × String)} (ev : JVal)
    (hpw : List.Pairwise (fun a b => a.2 ≠ b.2) m) :
    nodupKeysB (pickFields m ev) = true := by
  induction m with
  | nil => rfl
  | cons kv t ih =>
      rw [List.pairwise_cons] at hpw
      rw [pickFields, List.filterMap_cons]
      match hg : getField ev kv.1 with
      | .undef => exact ih hpw.2
      | .jnull | .jbool b | .jnum n | .jstr str | .jdate d | .jarr xs | .jobj gs =>
          refine nodupKeysB_cons_of ?_ (ih hpw.2)
          intro p hp
          obtain ⟨kv0, h0, hp1, _, _⟩ := pickFields_mem hp
          rw [hp1]
          exact fun he => (hpw.1 kv0 h0) he.symm

/-! ## The compression loop in closed form -/

theorem compress_go (now tz : Int) : ∀ (evs : List JVal) (r0 : List JVal) (s0 : List DaySummary),
    (∀ e ∈ evs, isRecentDate now tz (eventTsMs e) = false → (eventTsMs e).isSome = true) →
    List.foldlM (compressStep now tz) (r0, s0) evs =
      some (r0 ++ evs.filter (fun e => isRecentDate now tz (eventTsMs e)),
            evs.foldl (sumsStep now tz) s0) := by
  intro evs
  induction evs with
  | nil => intro r0 s0 _; simp
  | cons e t ih =>
      intro r0 s0 h
      rw [List.foldlM_cons, List.foldl_cons, List.filter_cons]
      by_cases hr : isRecentDate now tz (eventTsMs e) = true
      · have hcs : compressStep now tz (r0, s0) e = some (r0 ++ [e], s0) := by
          rw [compressStep.eq_def]
          rw [if_pos hr]
        have hss : sumsStep now tz s0 e = s0 := by
          rw [sumsStep, if_pos hr]
        rw [hcs]
        simp only [Option.bind_eq_bind, Option.some_bind]
        rw [ih (r0 ++ [e]) s0 (fun x hx => h x (List.mem_cons_of_mem e hx)), if_pos hr, hss]
        simp
      · have hs : (eventTsMs e).isSome = true := h e (List.mem_cons_self _ _) (by simpa using hr)
        have hr' : isRecentDate now tz (eventTsMs e) = false := by simpa using hr
        match hm : eventTsMs e with
        | none => rw [hm] at hs; exact absurd hs (by simp)
        | some m =>
            rw [hm] at hr'
            have hcs : compressStep now tz (r0, s0) e
                = some (r0, addToSummaries s0 (m.fdiv DAY_MS) (getField e "eventType")) := by
              rw [compressStep.eq_def]
              simp only [hm, hr']
              rw [if_neg (by simp), getDateKey]
            have hss : sumsStep now tz s0 e
                = addToSummaries s0 (m.fdiv DAY_MS) (getField e "eventType") := by
              rw [sumsStep, hm, hr']
              rw [if_neg (by simp), getDateKey]
            rw [hcs]
            simp only [Option.bind_eq_bind, Option.some_bind]
            rw [ih r0 _ (fun x hx => h x (List.mem_cons_of_mem e hx)), hr', hss]
            rw [if_neg (by simp)]

theorem compressEvents_eq (now tz : Int) (evs : List JVal)
    (h : ∀ e ∈ evs, isRecentDate now tz (eventTsMs e) = false → (eventTsMs e).isSome = true) :
    compressEvents now tz evs =
      some (evs.filter (fun e => isRecentDate now tz (eventTsMs e)), sumsOf now tz evs) := by
  rw [compressEvents, compress_go now tz evs [] [] h, sumsOf]
  simp

/-! ## Serialisability of the encoder's state -/

theorem serOk_minified {fs : Fields} {t : Int}
    (hts : getField (.jobj fs) "timestamp" = .jdate (some t))
    (hser : ∀ k, k ≠ "timestamp" →
        getField (.jobj fs) k = .undef ∨ serOk (getField (.jobj fs) k) = true) :
    serOk (minifyEvent (processEvent (.jobj fs))) = true := by
  rw [minifyEvent_eq, serOk, Bool.and_eq_true]
  constructor
  · exact nodupKeys_pickFields _ (by rw [FIELD_MAPPING]; decide)
  · apply serOkFields_of_forall
    intro kv hkv
    obtain ⟨kv0, h0, hk1, hk2, hne⟩ := pickFields_mem hkv
    by_cases hfull : kv0.1 = "timestamp"
    · rw [hk2, hfull, processEvent_ts hts]
      exact serOk_jnum_some _
    · rw [hk2, processEvent_get hts hfull]
      rcases hser kv0.1 hfull with hu | hok
      · exact absurd (hk2.trans ((processEvent_get hts hfull).trans hu)) hne
      · exact hok

theorem serOk_stateJ (rec : List JVal) (sums : List DaySummary)
    (h : ∀ pe ∈ rec, serOk (minifyEvent pe) = true) :
    serOk (stateJ rec sums) = true := by
  rw [stateJ, serOk, Bool.and_eq_true]
  constructor
  · simp [nodupKeysB]
  · apply serOkFields_of_forall
    intro kv hkv
    simp only [List.mem_cons, List.not_mem_nil, or_false] at hkv
    rcases hkv with h1 | h1 <;> subst h1
    · show serOk (.jarr (minifyEvents rec)) = true
      rw [serOk]
      apply serOkList_of_forall
      intro x hx
      rw [minifyEvents, List.mem_map] at hx
      obtain ⟨pe, hpe, rfl⟩ := hx
      exact h pe hpe
    · show serOk (.jarr (sums.map summaryJ)) = true
      rw [serOk]
      apply serOkList_of_forall
      intro x hx
      rw [List.mem_map] at hx
      obtain ⟨d, _, rfl⟩ := hx
      exact serOk_summaryJ d

/-! ## The encoder in closed form -/

theorem encodeState_eq (now tz : Int) (E : List JVal) (hwf : ∀ e ∈ E, eventWF e) :
    encodeState now tz E = some (String.mk (tokOf (stateJ
      ((E.map processEvent).filter (fun pe => isRecentDate now tz (eventTsMs pe)))
      (sumsOf now tz (E.map processEvent))))) := by
  have hts : ∀ pe ∈ E.map processEvent,
      isRecentDate now tz (eventTsMs pe) = false → (eventTsMs pe).isSome = true := by
    intro pe hpe _
    rw [List.mem_map] at hpe
    obtain ⟨e, he, rfl⟩ := hpe
    obtain ⟨⟨fs, rfl, _⟩, ⟨t, htse, _, h2⟩, _⟩ := hwf e he
    rw [eventTsMs_processed htse h2]
    rfl
  have hso : serOk (stateJ
      ((E.map processEvent).filter (fun pe => isRecentDate now tz (eventTsMs pe)))
      (sumsOf now tz (E.map processEvent))) = true := by
    apply serOk_stateJ
    intro pe hpe
    have hpe' := List.mem_map.mp (List.mem_of_mem_filter hpe)
    obtain ⟨e, he, rfl⟩ := hpe'
    obtain ⟨⟨fs, rfl, _⟩, ⟨t, htse, _, _⟩, hser⟩ := hwf e he
    exact serOk_minified htse hser
  rw [encodeState, compressEvents_eq now tz _ hts]
  simp only [Option.bind_eq_bind, Option.some_bind]
  rw [show (JVal.jobj
      [("r", .jarr (minifyEvents
          ((E.map processEvent).filter (fun pe => isRecentDate now tz (eventTsMs pe))))),
       ("s", .jarr ((sumsOf now tz (E.map processEvent)).map summaryJ))])
      = stateJ ((E.map processEvent).filter (fun pe => isRecentDate now tz (eventTsMs pe)))
          (sumsOf now tz (E.map processEvent)) from rfl]
  rw [wr_eq hso]
  simp only [Option.some_bind]
  rfl

/-! ## The decoder on an encoder token -/

theorem tok_transport (v : JVal) :
    atobL (fromUrlSafe (tokOf v)) = some (utf8EncodeL (wr v)) := by
  rw [tokOf, urlsafe_rt _ (utf8EncodeL_lt (wr v))]
  exact atob_btoa _ (utf8EncodeL_lt (wr v))

theorem utf8Ch_ne_nil (c : Char) : utf8Ch c ≠ [] := by
  rw [utf8Ch]
  split
  · simp
  · split
    · simp
    · split <;> simp

theorem wr_ne_nil {v : JVal} (hser : serOk v = true) : wr v ≠ [] := by
  have hw := wr_eq hser
  obtain ⟨c, t, hct, _, _⟩ := writeJ_head hw
  rw [hct]
  simp

theorem tokOf_ne_nil {v : JVal} (hser : serOk v = true) : tokOf v ≠ [] := by
  have hu : utf8EncodeL (wr v) ≠ [] := by
    rw [utf8EncodeL]
    match hv : wr v with
    | [] => exact absurd hv (wr_ne_nil hser)
    | c :: t =>
        rw [List.flatMap_cons]
        intro hc
        exact utf8Ch_ne_nil c (List.append_eq_nil.mp hc).1
  obtain ⟨core, k, hdec, hk, hmod, hcore⟩ :=
    btoa_decomp (utf8EncodeL (wr v)) (utf8EncodeL_lt (wr v))
  have hcne : core ≠ [] := by
    intro hce
    subst hce
    rw [List.nil_append] at hdec
    simp only [List.length_nil] at hmod
    have : k = 0 := by omega
    subst this
    exact btoaL_ne_nil hu (by simpa using hdec)
  obtain ⟨c, t, rfl⟩ : ∃ c t, core = c :: t := by
    match core, hcne with
    | [], hcne => exact absurd rfl hcne
    | c :: t, _ => exact ⟨c, t, rfl⟩
  rw [tokOf, hdec, toUrlSafe, List.cons_append, List.map_cons, List.filter_cons]
  rw [if_pos (by
    simp only [decide_eq_true_eq]
    exact (urlCh_rt (hcore c (List.mem_cons_self _ _))).2)]
  simp

theorem strMk_ne_empty {cs : List Char} (h : cs ≠ []) : String.mk cs ≠ "" := by
  intro he
  exact h (congrArg String.data he)

theorem decodeTry_state (now : Int) (rec : List JVal) (sums : List DaySummary)
    (hser : serOk (stateJ rec sums) = true) :
    decodeTry now (tokOf (stateJ rec sums)) =
      some ⟨(jsSortByTs (((expandEvents (minifyEvents rec)).map (setDecTs now))
          ++ (sums.map summaryJ).flatMap synthFromSummary)).map normalizeTs, .jnull⟩ := by
  rw [decodeTry, tok_transport _]
  simp only [Option.bind_eq_bind, Option.some_bind]
  rw [utf8_rt (wr (stateJ rec sums))]
  simp only [Option.some_bind]
  rw [readTop_wr hser]
  simp only [Option.some_bind]
  rfl

theorem decodeState_tok (now : Int) (rec : List JVal) (sums : List DaySummary)
    (hser : serOk (stateJ rec sums) = true) :
    decodeState now (some (String.mk (tokOf (stateJ rec sums)))) =
      ⟨(jsSortByTs (((expandEvents (minifyEvents rec)).map (setDecTs now))
          ++ (sums.map summaryJ).flatMap synthFromSummary)).map normalizeTs, .jnull⟩ := by
  rw [decodeState]
  rw [if_neg (strMk_ne_empty (tokOf_ne_nil hser))]
  rw [show (String.mk (tokOf (stateJ rec sums))).data = tokOf (stateJ rec sums) from rfl]
  rw [decodeTry_state now rec sums hser]

/-! ## The round-tripped recent event, field by field -/

theorem setDecTs_jobj (now : Int) (gs : Fields) :
    setDecTs now (.jobj gs) = .jobj (setField gs "timestamp"
      (if truthy (getField (.jobj gs) "timestamp")
       then decompressTimestamp (getField (.jobj gs) "timestamp")
       else .jdate (some now))) := rfl

theorem normalizeTs_jobj (gs : Fields) :
    normalizeTs (.jobj gs) = .jobj (setField gs "timestamp"
      (match getField (.jobj gs) "timestamp" with
       | .jdate t => .jdate t
       | .jnum n => decompressTimestamp (.jnum n)
       | v => newDate v)) := rfl

theorem rtEvent_get_ne (now : Int) (e : JVal) (k : String) (hk : k ≠ "timestamp") :
    getField (rtEvent now e) k
      = getField (expandEvent (minifyEvent (processEvent e))) k := by
  rw [rtEvent, expandMin_eq, setDecTs_jobj, normalizeTs_jobj,
      getField_set_ne _ _ hk, getField_set_ne _ _ hk, ← expandMin_eq]

theorem rtEvent_mapped {fs : Fields} {t : Int} (now : Int)
    (hts : getField (.jobj fs) "timestamp" = .jdate (some t))
    {full s : String} (hmem : (full, s) ∈ FIELD_MAPPING) (hk : full ≠ "timestamp") :
    getField (rtEvent now (.jobj fs)) full = getField (.jobj fs) full := by
  rw [rtEvent_get_ne now _ full hk, expandMin_get _ hmem, processEvent_get hts hk]

theorem rtEvent_unmapped (now : Int) (e : JVal) (k : String)
    (h : ∀ kv ∈ REVERSE_MAPPING, kv.2 ≠ k) (hk : k ≠ "timestamp") :
    getField (rtEvent now e) k = .undef := by
  rw [rtEvent_get_ne now e k hk, expandMin_get_none _ h]

theorem rtEvent_ts {fs : Fields} {t : Int} (now : Int)
    (hts : getField (.jobj fs) "timestamp" = .jdate (some t))
    (h1 : FIFTEEN_MINUTES_MS ≤ t) (h2 : t < 10000000000000) :
    getField (rtEvent now (.jobj fs)) "timestamp" = .jdate (some (q15 t)) := by
  have hmem : ("timestamp", "ts") ∈ FIELD_MAPPING := by rw [FIELD_MAPPING]; simp
  have hu : getField (.jobj (pickFields REVERSE_MAPPING
      (.jobj (pickFields FIELD_MAPPING (processEvent (.jobj fs)))))) "timestamp"
      = .jnum (some ((q15 t).fdiv 1000)) := by
    rw [← expandMin_eq, expandMin_get _ hmem, processEvent_ts hts]
  have hupos : (0 : Int) < (q15 t).fdiv 1000 := by
    have hg := q15_ge h1
    have hq := q15_thousand t
    rw [FIFTEEN_MINUTES_MS] at hg
    omega
  rw [rtEvent, expandMin_eq, setDecTs_jobj, hu]
  rw [if_pos (by simp only [truthy, decide_eq_true_eq]; omega)]
  rw [show decompressTimestamp (.jnum (some ((q15 t).fdiv 1000)))
      = .jdate (some ((q15 t).fdiv 1000 * 1000)) from rfl, q15_thousand]
  rw [normalizeTs_jobj, getField_set_self, getField_set_self]

/-- The timestamp of `setDecTs` is always a `Date`. -/
theorem setDecTs_ts (now : Int) (gs : Fields) :
    ∃ d, getField (setDecTs now (.jobj gs)) "timestamp" = .jdate d := by
  rw [setDecTs_jobj]
  by_cases h : truthy (getField (.jobj gs) "timestamp") = true
  · rw [if_pos h, getField_set_self]
    match getField (.jobj gs) "timestamp" with
    | .undef | .jnull | .jbool b | .jnum n | .jstr str | .jdate d | .jarr xs | .jobj hs =>
        exact ⟨_, rfl⟩
  · rw [if_neg h, getField_set_self]
    exact ⟨some now, rfl⟩

/-- The timestamp a synthetic summary event carries. -/
theorem synthEvent_ts (ty : String) (ms : Option Int) :
    getField (synthEvent ty ms) "timestamp" = .jdate ms := rfl

theorem synthEvent_type (ty : String) (ms : Option Int) :
    getField (synthEvent ty ms) "eventType" = .jstr ty := rfl

theorem synthEvent_marker (ty : String) (ms : Option Int) :
    hasMarker (synthEvent ty ms) = true := rfl

/-- Members of a summary expansion are synthetic events at or after the
day's noon, on the per-type grid. -/
theorem synthFromSummary_mem {s x : JVal} (hx : x ∈ synthFromSummary s) :
    ∃ ty i, (ty = "feeding" ∨ ty = "peeing" ∨ ty = "pooping") ∧
      x = synthEvent ty ((summaryNoonMs s).map (· + (i : Int) *
        (if ty = "feeding" then 3600000 else if ty = "peeing" then 7200000 else 10800000))) := by
  rw [synthFromSummary] at hx
  simp only [List.mem_append, List.mem_map, List.mem_range] at hx
  rcases hx with (⟨i, _, rfl⟩ | ⟨i, _, rfl⟩) | ⟨i, _, rfl⟩
  · exact ⟨"feeding", i, Or.inl rfl, by simp⟩
  · exact ⟨"peeing", i, Or.inr (Or.inl rfl), by simp⟩
  · exact ⟨"pooping", i, Or.inr (Or.inr rfl), by simp⟩

/-! ## The decoder's sort -/

theorem sortInsert_perm (a : JVal) (l : List JVal) : (sortInsert a l).Perm (a :: l) := by
  induction l with
  | nil => exact List.Perm.refl _
  | cons b bs ih =>
      rw [sortInsert]
      by_cases h : tsLe a b = true
      · rw [if_pos h]
      · rw [if_neg h]
        exact (List.Perm.cons b ih).trans (List.Perm.swap a b bs)

theorem jsSortByTs_perm (l : List JVal) : (jsSortByTs l).Perm l := by
  induction l with
  | nil => exact List.Perm.refl _
  | cons a xs ih =>
      rw [jsSortByTs]
      exact (sortInsert_perm a (jsSortByTs xs)).trans (List.Perm.cons a ih)

theorem tsLe_total {a b : JVal} (hb : (tsSortMs b).isSome = true)
    (h : ¬ tsLe a b = true) : tsLe b a = true := by
  rcases hb' : tsSortMs b with _ | y
  · rw [hb'] at hb; exact absurd hb (by simp)
  · rcases ha' : tsSortMs a with _ | x
    · rw [tsLe, hb', ha']
    · rw [tsLe, ha', hb'] at h
      rw [tsLe, hb', ha']
      have hxy : ¬ x ≤ y := by simpa using h
      show decide (y ≤ x) = true
      simp only [decide_eq_true_eq]
      omega

theorem tsLe_trans {a b c : JVal} (hb : (tsSortMs b).isSome = true)
    (h1 : tsLe a b = true) (h2 : tsLe b c = true) : tsLe a c = true := by
  rcases hb' : tsSortMs b with _ | y
  · rw [hb'] at hb; exact absurd hb (by simp)
  · rcases ha' : tsSortMs a with _ | x
    · rw [tsLe, ha']
    · rcases hc' : tsSortMs c with _ | z
      · rw [tsLe, ha', hc']
      · rw [tsLe, ha', hb'] at h1
        rw [tsLe, hb', hc'] at h2
        have h1' : x ≤ y := by simpa using h1
        have h2' : y ≤ z := by simpa using h2
        rw [tsLe, ha', hc']
        show decide (x ≤ z) = true
        simp only [decide_eq_true_eq]
        omega

theorem sortInsert_sorted {a : JVal} {l : List JVal}
    (ha : (tsSortMs a).isSome = true)
    (hval : ∀ e ∈ l, (tsSortMs e).isSome = true)
    (hs : List.Pairwise (fun x y => tsLe x y = true) l) :
    List.Pairwise (fun x y => tsLe x y = true) (sortInsert a l) := by
  induction l with
  | nil => simp [sortInsert]
  | cons b bs ih =>
      rw [List.pairwise_cons] at hs
      rw [sortInsert]
      by_cases h : tsLe a b = true
      · rw [if_pos h, List.pairwise_cons]
        refine ⟨?_, List.pairwise_cons.mpr hs⟩
        intro c hc
        rcases List.mem_cons.mp hc with rfl | hc
        · exact h
        · exact tsLe_trans (hval b (List.mem_cons_self _ _)) h (hs.1 c hc)
      · rw [if_neg h, List.pairwise_cons]
        refine ⟨?_, ih (fun e he => hval e (List.mem_cons_of_mem b he)) hs.2⟩
        intro c hc
        have hc' := (sortInsert_perm a bs).mem_iff.mp hc
        rcases List.mem_cons.mp hc' with rfl | hc'
        · exact tsLe_total (hval b (List.mem_cons_self _ _)) h
        · exact hs.1 c hc'

theorem jsSortByTs_sorted {l : List JVal}
    (hval : ∀ e ∈ l, (tsSortMs e).isSome = true) :
    List.Pairwise (fun x y => tsLe x y = true) (jsSortByTs l) := by
  induction l with
  | nil => simp [jsSortByTs]
  | cons a xs ih =>
      rw [jsSortByTs]
      exact sortInsert_sorted (hval a (List.mem_cons_self _ _))
        (fun e he => hval e (List.mem_cons_of_mem a ((jsSortByTs_perm xs).mem_iff.mp he)))
        (ih (fun e he => hval e (List.mem_cons_of_mem a he)))

/-! ## The decoder on arbitrary encoder output -/

theorem decodeTry_tokOf (now : Int) {v : JVal} (hser : serOk v = true) :
    decodeTry now (tokOf v) = decodePost now v := by
  rw [decodeTry, tok_transport v]
  simp only [Option.bind_eq_bind, Option.some_bind]
  rw [utf8_rt (wr v)]
  simp only [Option.some_bind]
  rw [readTop_wr hser]
  simp only [Option.some_bind]
  rfl

theorem decodeState_tokOf (now : Int) {v : JVal} (hser : serOk v = true)
    {st : DecodedState} (h : decodePost now v = some st) :
    decodeState now (some (String.mk (tokOf v))) = st := by
  rw [decodeState, if_neg (strMk_ne_empty (tokOf_ne_nil hser)),
      show (String.mk (tokOf v)).data = tokOf v from rfl,
      decodeTry_tokOf now hser, h]

theorem serOk_encState (now tz : Int) (E : List JVal) (hwf : ∀ e ∈ E, eventWF e) :
    serOk (stateJ (encRec now tz E) (encSums now tz E)) = true := by
  apply serOk_stateJ
  intro pe hpe
  rw [encRec] at hpe
  have hpe' := List.mem_map.mp (List.mem_of_mem_filter hpe)
  obtain ⟨e, he, rfl⟩ := hpe'
  obtain ⟨⟨fs, rfl, _⟩, ⟨t, htse, _, _⟩, hser⟩ := hwf e he
  exact serOk_minified htse hser

/-- The full unencrypted round trip: the encoder succeeds with the token
`encTok`, and the decoder returns the sorted merge of the round-tripped
recent events with the summary expansions, and a `null` config. -/
theorem decode_encode (now tz : Int) (E : List JVal) (hwf : ∀ e ∈ E, eventWF e) :
    encodeState now tz E = some (encTok now tz E) ∧
    (decodeState now (some (encTok now tz E))).data
      = (jsSortByTs (decMerged now (encRec now tz E) (encSums now tz E))).map normalizeTs ∧
    (decodeState now (some (encTok now tz E))).config = .jnull := by
  have hser := serOk_encState now tz E hwf
  have h1 : encodeState now tz E = some (encTok now tz E) := by
    rw [encodeState_eq now tz E hwf]
    rfl
  have h2 := decodeState_tok now (encRec now tz E) (encSums now tz E) hser
  refine ⟨h1, ?_, ?_⟩
  · rw [encTok, h2, decMerged]
  · rw [encTok, h2]

/-! ## Every decoded timestamp is a `Date` -/

theorem newDate_jdate (v : JVal) : ∃ d, newDate v = .jdate d := by
  cases v <;> exact ⟨_, rfl⟩

theorem normalizeTs_shape (e : JVal) :
    ∃ d, getField (normalizeTs e) "timestamp" = .jdate d := by
  rw [normalizeTs]
  match hts : getField e "timestamp" with
  | .jdate t => exact ⟨t, getField_set_self _ _ _⟩
  | .jnum n =>
      refine ⟨(toNumber (.jnum n)).map (· * 1000), ?_⟩
      rw [getField_set_self]
      rfl
  | .undef | .jnull | .jbool b | .jstr str | .jarr xs | .jobj gs =>
      exact ⟨_, getField_set_self _ _ _⟩

theorem optionBind_inv {α β : Type} {x : Option α} {f : α → Option β} {b : β}
    (h : x >>= f = some b) : ∃ a, x = some a ∧ f a = some b := by
  cases x with
  | none => simp at h
  | some a => exact ⟨a, rfl, by simpa using h⟩

theorem decodePost_shape {now : Int} {state : JVal} {st : DecodedState}
    (h : decodePost now state = some st) : ∃ evs : List JVal, st.data = evs.map normalizeTs := by
  rw [decodePost.eq_def] at h
  by_cases hd : truthy (getField state "data") = true
  · rw [if_pos hd] at h
    obtain ⟨evs, h1, h2⟩ := optionBind_inv h
    simp only [Option.some.injEq] at h2
    refine ⟨evs, ?_⟩
    rw [← h2]
  · rw [if_neg hd] at h
    by_cases hr : (truthy (getField state "r") || truthy (getField state "s")) = true
    · rw [if_pos hr] at h
      obtain ⟨recentRaw, h1, h⟩ := optionBind_inv h
      obtain ⟨evs, h2, h3⟩ := optionBind_inv h
      simp only [Option.some.injEq] at h3
      refine ⟨evs, ?_⟩
      rw [← h3]
    · rw [if_neg hr] at h
      obtain ⟨evs, h1, h2⟩ := optionBind_inv h
      simp only [Option.some.injEq] at h2
      refine ⟨evs, ?_⟩
      rw [← h2]

theorem decodeTry_shape {now : Int} {cs : List Char} {st : DecodedState}
    (h : decodeTry now cs = some st) : ∃ evs : List JVal, st.data = evs.map normalizeTs := by
  rw [decodeTry] at h
  obtain ⟨bytes, h1, h⟩ := optionBind_inv h
  obtain ⟨jsonString, h2, h⟩ := optionBind_inv h
  obtain ⟨state, h3, h⟩ := optionBind_inv h
  exact decodePost_shape (show decodePost now state = some st from h)

/-! ## Summary expansion and per-day counting -/

theorem loopCount_nat (n : Nat) : loopCount (.jnum (some (n : Int))) = n := by
  simp [loopCount, toNumber]

theorem summaryNoonMs_summaryJ (s : DaySummary) :
    summaryNoonMs (summaryJ s) = some (s.date * DAY_MS + 43200000) := rfl

theorem normalizeTs_synth (ty : String) (ms : Option Int) :
    normalizeTs (synthEvent ty ms) = synthEvent ty ms := rfl

theorem synthFromSummary_eq (s : DaySummary) :
    synthFromSummary (summaryJ s) =
      ((List.range s.feeds).map (fun (i : Nat) =>
          synthEvent "feeding" (some (s.date * DAY_MS + 43200000 + (i : Int) * 3600000))))
      ++ ((List.range s.pees).map (fun (i : Nat) =>
          synthEvent "peeing" (some (s.date * DAY_MS + 43200000 + (i : Int) * 7200000))))
      ++ ((List.range s.poops).map (fun (i : Nat) =>
          synthEvent "pooping" (some (s.date * DAY_MS + 43200000 + (i : Int) * 10800000)))) := by
  have hf : loopCount (getField (summaryJ s) "feeds") = s.feeds := by
    rw [show getField (summaryJ s) "feeds" = .jnum (some (s.feeds : Int)) from rfl]
    exact loopCount_nat _
  have hp : loopCount (getField (summaryJ s) "pees") = s.pees := by
    rw [show getField (summaryJ s) "pees" = .jnum (some (s.pees : Int)) from rfl]
    exact loopCount_nat _
  have hq : loopCount (getField (summaryJ s) "poops") = s.poops := by
    rw [show getField (summaryJ s) "poops" = .jnum (some (s.poops : Int)) from rfl]
    exact loopCount_nat _
  simp only [synthFromSummary, summaryNoonMs_summaryJ, hf, hp, hq, Option.map_some']

theorem localDayStart_mono {tz a b : Int} (h : a ≤ b) :
    localDayStart tz a ≤ localDayStart tz b := by
  rw [localDayStart, localDayStart, DAY_MS]
  have h1 := fdiv_decomp (a + tz) 86400000 (by norm_num)
  have h2 := fdiv_decomp (b + tz) 86400000 (by norm_num)
  omega

theorem isRecent_day_false {now tz d m : Int}
    (hold : localDayStart tz (d * DAY_MS + 86399999) < localDayStart tz now - DAY_MS)
    (hm1 : d * DAY_MS ≤ m) (hm2 : m ≤ d * DAY_MS + 86399999) :
    isRecentDate now tz (some m) = false := by
  rw [isRecentDate]
  apply decide_eq_false
  have hmono : localDayStart tz m ≤ localDayStart tz (d * DAY_MS + 86399999) :=
    localDayStart_mono hm2
  omega

theorem q15_fix {m : Int} (h : (900000 : Int) ∣ m) : q15 m = m := by
  obtain ⟨k, rfl⟩ := h
  rw [q15, FIFTEEN_MINUTES_MS]
  have hk : (900000 * k).fdiv (15 * 60 * 1000) = k := by
    rw [show (15 * 60 * 1000 : Int) = 900000 from by norm_num]
    exact Int.mul_fdiv_cancel_left k (by norm_num)
  rw [hk]
  ring

theorem addToSummaries_nil (d : Int) (ty : JVal) :
    addToSummaries [] d ty = [bumpSummary ⟨d, 0, 0, 0⟩ ty] := rfl

theorem addToSummaries_cons (s : DaySummary) (ss : List DaySummary) (d : Int) (ty : JVal) :
    addToSummaries (s :: ss) d ty =
      if s.date = d then bumpSummary s ty :: ss else s :: addToSummaries ss d ty := rfl

theorem bumpSummary_date (s : DaySummary) (ty : JVal) :
    (bumpSummary s ty).date = s.date := by
  rw [bumpSummary]
  split_ifs <;> rfl

theorem isStrEq_excl {v : JVal} {s1 s2 : String} (h1 : isStrEq v s1 = true)
    (hne : s1 ≠ s2) : isStrEq v s2 = false := by
  cases v <;> simp [isStrEq] at h1 ⊢
  rename_i str
  intro he
  exact hne (h1.symm.trans he)

theorem bumpSummary_counts (s : DaySummary) (ty : JVal) :
    (bumpSummary s ty).feeds = s.feeds + (if isStrEq ty "feeding" = true then 1 else 0) ∧
    (bumpSummary s ty).pees = s.pees + (if isStrEq ty "peeing" = true then 1 else 0) ∧
    (bumpSummary s ty).poops = s.poops + (if isStrEq ty "pooping" = true then 1 else 0) := by
  rw [bumpSummary]
  by_cases h1 : isStrEq ty "feeding" = true
  · have e2 : isStrEq ty "peeing" = false := isStrEq_excl h1 (by decide)
    have e3 : isStrEq ty "pooping" = false := isStrEq_excl h1 (by decide)
    rw [if_pos h1]
    simp [h1, e2, e3]
  · rw [if_neg h1]
    by_cases h2 : isStrEq ty "peeing" = true
    · have e3 : isStrEq ty "pooping" = false := isStrEq_excl h2 (by decide)
      rw [if_pos h2]
      simp [h1, h2, e3]
    · rw [if_neg h2]
      by_cases h3 : isStrEq ty "pooping" = true
      · rw [if_pos h3]
        simp [h1, h2, h3]
      · rw [if_neg h3]
        simp [h1, h2, h3]

theorem sumsFold_single (now tz d : Int) : ∀ (l : List JVal) (s0 : DaySummary),
    s0.date = d →
    (∀ e ∈ l, isRecentDate now tz (eventTsMs e) = false ∧
        getDateKey (eventTsMs e) = some d) →
    l.foldl (sumsStep now tz) [s0] =
      [⟨d, s0.feeds + l.countP (fun e => isStrEq (getField e "eventType") "feeding"),
          s0.pees + l.countP (fun e => isStrEq (getField e "eventType") "peeing"),
          s0.poops + l.countP (fun e => isStrEq (getField e "eventType") "pooping")⟩] := by
  intro l
  induction l with
  | nil =>
      intro s0 hd _
      cases s0
      simp only [List.foldl_nil, List.countP_nil, Nat.add_zero]
      simp_all
  | cons e t ih =>
      intro s0 hd h
      obtain ⟨hrec, hkey⟩ := h e (List.mem_cons_self _ _)
      rw [List.foldl_cons]
      have hstep : sumsStep now tz [s0] e
          = [bumpSummary s0 (getField e "eventType")] := by
        rw [sumsStep, hrec, if_neg (by simp), hkey]
        show addToSummaries [s0] d (getField e "eventType") = _
        rw [addToSummaries_cons, if_pos hd]
      rw [hstep,
          ih (bumpSummary s0 _) ((bumpSummary_date _ _).trans hd)
            (fun x hx => h x (List.mem_cons_of_mem e hx))]
      obtain ⟨hf, hp, hq⟩ := bumpSummary_counts s0 (getField e "eventType")
      rw [hf, hp, hq]
      have hcons : ∀ a1 a2 a3 b1 b2 b3 : Nat, a1 = b1 → a2 = b2 → a3 = b3 →
          ([⟨d, a1, a2, a3⟩] : List DaySummary) = [⟨d, b1, b2, b3⟩] := by
        intro a1 a2 a3 b1 b2 b3 g1 g2 g3
        rw [g1, g2, g3]
      apply hcons <;> (simp only [List.countP_cons]; omega)

theorem sumsOf_single (now tz d : Int) (e0 : JVal) (l : List JVal)
    (h : ∀ e ∈ e0 :: l, isRecentDate now tz (eventTsMs e) = false ∧
        getDateKey (eventTsMs e) = some d) :
    sumsOf now tz (e0 :: l) =
      [⟨d, (e0 :: l).countP (fun e => isStrEq (getField e "eventType") "feeding"),
          (e0 :: l).countP (fun e => isStrEq (getField e "eventType") "peeing"),
          (e0 :: l).countP (fun e => isStrEq (getField e "eventType") "pooping")⟩] := by
  obtain ⟨hrec, hkey⟩ := h e0 (List.mem_cons_self _ _)
  rw [sumsOf, List.foldl_cons]
  have hstep : sumsStep now tz [] e0
      = [bumpSummary ⟨d, 0, 0, 0⟩ (getField e0 "eventType")] := by
    rw [sumsStep, hrec, if_neg (by simp), hkey]
    show addToSummaries [] d (getField e0 "eventType") = _
    rw [addToSummaries_nil]
  rw [hstep,
      sumsFold_single now tz d l _ (bumpSummary_date _ _)
        (fun x hx => h x (List.mem_cons_of_mem e0 hx))]
  obtain ⟨hf, hp, hq⟩ := bumpSummary_counts ⟨d, 0, 0, 0⟩ (getField e0 "eventType")
  rw [hf, hp, hq]
  have hcons : ∀ a1 a2 a3 b1 b2 b3 : Nat, a1 = b1 → a2 = b2 → a3 = b3 →
      ([⟨d, a1, a2, a3⟩] : List DaySummary) = [⟨d, b1, b2, b3⟩] := by
    intro a1 a2 a3 b1 b2 b3 g1 g2 g3
    rw [g1, g2, g3]
  apply hcons <;> (simp only [List.countP_cons]; omega)

/-! ## Well-formedness of the concrete event shapes -/

theorem serOk_jstr (str : String) : serOk (.jstr str) = true := by
  simp [serOk.eq_def]

theorem serOk_jbool (b : Bool) : serOk (.jbool b) = true := by
  simp [serOk.eq_def]

theorem getField_two (a b : String) (va vb : JVal) (k : String) :
    getField (.jobj [(a, va), (b, vb)]) k
      = if a = k then va else if b = k then vb else .undef := by
  rw [getField]
  by_cases h1 : a = k
  · rw [List.find?_cons_of_pos _ (by simp [h1]), if_pos h1]
  · rw [List.find?_cons_of_neg _ (by simp [h1]), if_neg h1]
    by_cases h2 : b = k
    · rw [List.find?_cons_of_pos _ (by simp [h2]), if_pos h2]
    · rw [List.find?_cons_of_neg _ (by simp [h2]), if_neg h2]
      rfl

theorem getField_three (a b c : String) (va vb vc : JVal) (k : String) :
    getField (.jobj [(a, va), (b, vb), (c, vc)]) k
      = if a = k then va else if b = k then vb else if c = k then vc else .undef := by
  rw [getField]
  by_cases h1 : a = k
  · rw [List.find?_cons_of_pos _ (by simp [h1]), if_pos h1]
  · rw [List.find?_cons_of_neg _ (by simp [h1]), if_neg h1]
    by_cases h2 : b = k
    · rw [List.find?_cons_of_pos _ (by simp [h2]), if_pos h2]
    · rw [List.find?_cons_of_neg _ (by simp [h2]), if_neg h2]
      by_cases h3 : c = k
      · rw [List.find?_cons_of_pos _ (by simp [h3]), if_pos h3]
      · rw [List.find?_cons_of_neg _ (by simp [h3]), if_neg h3]
        rfl

theorem nodupKeysB_two (a b : String) (va vb : JVal) (h : b ≠ a) :
    nodupKeysB [(a, va), (b, vb)] = true := by
  rw [nodupKeysB, nodupKeysB, nodupKeysB]
  simp [h]

theorem nodupKeysB_three (a b c : String) (va vb vc : JVal)
    (h1 : b ≠ a) (h2 : c ≠ a) (h3 : c ≠ b) :
    nodupKeysB [(a, va), (b, vb), (c, vc)] = true := by
  rw [nodupKeysB, nodupKeysB, nodupKeysB, nodupKeysB]
  simp [h1, h2, h3]

theorem eventWF_mkEv (ty : String) {t : Int}
    (h1 : FIFTEEN_MINUTES_MS ≤ t) (h2 : t < 10000000000000) : eventWF (mkEv ty t) := by
  refine ⟨⟨_, rfl, nodupKeysB_two _ _ _ _ (by decide)⟩, ⟨t, rfl, h1, h2⟩, ?_⟩
  intro k hk
  rw [mkEv, getField_two]
  by_cases ha : "eventType" = k
  · rw [if_pos ha]
    exact Or.inr (serOk_jstr ty)
  · rw [if_neg ha, if_neg (fun hb => hk hb.symm)]
    exact Or.inl rfl

theorem eventWF_synth (ty : String) {m : Int}
    (h1 : FIFTEEN_MINUTES_MS ≤ m) (h2 : m < 10000000000000) :
    eventWF (synthEvent ty (some m)) := by
  refine ⟨⟨_, rfl, nodupKeysB_three _ _ _ _ _ _ (by decide) (by decide) (by decide)⟩,
    ⟨m, rfl, h1, h2⟩, ?_⟩
  intro k hk
  rw [synthEvent, getField_three]
  by_cases ha : "eventType" = k
  · rw [if_pos ha]
    exact Or.inr (serOk_jstr ty)
  · rw [if_neg ha, if_neg (fun hb => hk hb.symm)]
    by_cases hc : "_fromSummary" = k
    · rw [if_pos hc]
      exact Or.inr (serOk_jbool true)
    · rw [if_neg hc]
      exact Or.inl rfl

theorem mkEv_ts (ty : String) (t : Int) :
    getField (mkEv ty t) "timestamp" = .jdate (some t) := rfl

theorem mkEv_type (ty : String) (t : Int) :
    getField (mkEv ty t) "eventType" = .jstr ty := rfl

theorem mkEv_processed (ty : String) {t : Int} (h2 : t < 10000000000000) :
    eventTsMs (processEvent (mkEv ty t)) = some (q15 t) :=
  eventTsMs_processed (mkEv_ts ty t) h2

/-- The quantised instant of an event on UTC day `d` lies in that day. -/
theorem day_bounds {x d : Int} (hd : x.fdiv DAY_MS = d) :
    d * DAY_MS ≤ x ∧ x ≤ d * DAY_MS + 86399999 := by
  rw [DAY_MS] at *
  have h := fdiv_decomp x 86400000 (by norm_num)
  omega

theorem fdiv_day_eq {x d : Int} (hlo : d * DAY_MS ≤ x) (hhi : x ≤ d * DAY_MS + 86399999) :
    x.fdiv DAY_MS = d := by
  rw [DAY_MS] at *
  have h := fdiv_decomp x 86400000 (by norm_num)
  omega

theorem mkEv_old (ty : String) {now tz d t : Int} (h2 : t < 10000000000000)
    (hd : (q15 t).fdiv DAY_MS = d)
    (hold : localDayStart tz (d * DAY_MS + 86399999) < localDayStart tz now - DAY_MS) :
    isRecentDate now tz (eventTsMs (processEvent (mkEv ty t))) = false := by
  rw [mkEv_processed ty h2]
  obtain ⟨hlo, hhi⟩ := day_bounds hd
  exact isRecent_day_false hold hlo hhi

theorem mkEv_key (ty : String) {d t : Int} (h2 : t < 10000000000000)
    (hd : (q15 t).fdiv DAY_MS = d) :
    getDateKey (eventTsMs (processEvent (mkEv ty t))) = some d := by
  rw [mkEv_processed ty h2, getDateKey, hd]

theorem processEvent_type {fs : Fields} {t : Int}
    (hts : getField (.jobj fs) "timestamp" = .jdate (some t)) :
    getField (processEvent (.jobj fs)) "eventType" = getField (.jobj fs) "eventType" :=
  processEvent_get hts (by decide)

theorem sumsOf_one (now tz d : Int) (l : List JVal) (hne : l ≠ [])
    (h : ∀ e ∈ l, isRecentDate now tz (eventTsMs e) = false ∧
        getDateKey (eventTsMs e) = some d) :
    sumsOf now tz l =
      [⟨d, l.countP (fun e => isStrEq (getField e "eventType") "feeding"),
          l.countP (fun e => isStrEq (getField e "eventType") "peeing"),
          l.countP (fun e => isStrEq (getField e "eventType") "pooping")⟩] := by
  match l, hne with
  | e0 :: t, _ => exact sumsOf_single now tz d e0 t h

/-! ## Helper: the processed type tag of a minimal event -/

theorem mkEv_pe_type (ty : String) (t : Int) :
    getField (processEvent (mkEv ty t)) "eventType" = .jstr ty := by
  rw [mkEv, processEvent_type (show getField (JVal.jobj
      [("eventType", JVal.jstr ty), ("timestamp", JVal.jdate (some t))]) "timestamp"
      = JVal.jdate (some t) from rfl)]
  rfl

/-- C6 (amended to what the code does): one feeding, one peeing and one
pooping, all falling on the same UTC day `d` after quantisation and with
that day wholly before the recent window, encode to a token that decodes to
exactly one summary-derived event of each type, each timestamped at the UTC
noon of day `d` (not the local noon; `claim_c6_counterexample` shows a
timezone where the local-noon reading of the spec fails), with zero recent
events. -/
theorem claim_c6 (now tz d t1 t2 t3 : Int)
    (hr1 : FIFTEEN_MINUTES_MS ≤ t1) (hr2 : t1 < 10000000000000)
    (hr3 : FIFTEEN_MINUTES_MS ≤ t2) (hr4 : t2 < 10000000000000)
    (hr5 : FIFTEEN_MINUTES_MS ≤ t3) (hr6 : t3 < 10000000000000)
    (hd1 : (q15 t1).fdiv DAY_MS = d) (hd2 : (q15 t2).fdiv DAY_MS = d)
    (hd3 : (q15 t3).fdiv DAY_MS = d)
    (hold : localDayStart tz (d * DAY_MS + 86399999) < localDayStart tz now - DAY_MS) :
    encodeState now tz [mkEv "feeding" t1, mkEv "peeing" t2, mkEv "pooping" t3]
      = some (encTok now tz [mkEv "feeding" t1, mkEv "peeing" t2, mkEv "pooping" t3])
    ∧ (decodeState now (some (encTok now tz
          [mkEv "feeding" t1, mkEv "peeing" t2, mkEv "pooping" t3]))).data
      = [synthEvent "feeding" (some (d * DAY_MS + 43200000)),
         synthEvent "peeing" (some (d * DAY_MS + 43200000)),
         synthEvent "pooping" (some (d * DAY_MS + 43200000))]
    ∧ encRec now tz [mkEv "feeding" t1, mkEv "peeing" t2, mkEv "pooping" t3] = []
    ∧ ∀ x ∈ (decodeState now (some (encTok now tz
          [mkEv "feeding" t1, mkEv "peeing" t2, mkEv "pooping" t3]))).data,
        hasMarker x = true ∧ getDateKey (dateMsOf (tsOf x)) = some d := by
  have hwf : ∀ e ∈ [mkEv "feeding" t1, mkEv "peeing" t2, mkEv "pooping" t3], eventWF e := by
    intro e he
    simp only [List.mem_cons, List.not_mem_nil, or_false] at he
    rcases he with rfl | rfl | rfl
    exacts [eventWF_mkEv _ hr1 hr2, eventWF_mkEv _ hr3 hr4, eventWF_mkEv _ hr5 hr6]
  obtain ⟨henc, hdata, _⟩ := decode_encode now tz _ hwf
  have hrecnil : encRec now tz [mkEv "feeding" t1, mkEv "peeing" t2, mkEv "pooping" t3]
      = [] := by
    rw [encRec]
    simp only [List.map_cons, List.map_nil, List.filter_cons, List.filter_nil,
      mkEv_old "feeding" hr2 hd1 hold, mkEv_old "peeing" hr4 hd2 hold,
      mkEv_old "pooping" hr6 hd3 hold]
    simp
  have hsums : encSums now tz [mkEv "feeding" t1, mkEv "peeing" t2, mkEv "pooping" t3]
      = [⟨d, 1, 1, 1⟩] := by
    rw [encSums]
    simp only [List.map_cons, List.map_nil]
    rw [sumsOf_one now tz d _ (by simp) ?_]
    · simp [List.countP_cons, List.countP_nil, mkEv_pe_type, isStrEq]
    · intro e he
      simp only [List.mem_cons, List.not_mem_nil, or_false] at he
      rcases he with rfl | rfl | rfl
      · exact ⟨mkEv_old "feeding" hr2 hd1 hold, mkEv_key "feeding" hr2 hd1⟩
      · exact ⟨mkEv_old "peeing" hr4 hd2 hold, mkEv_key "peeing" hr4 hd2⟩
      · exact ⟨mkEv_old "pooping" hr6 hd3 hold, mkEv_key "pooping" hr6 hd3⟩
  have hmerged : decMerged now
      (encRec now tz [mkEv "feeding" t1, mkEv "peeing" t2, mkEv "pooping" t3])
      (encSums now tz [mkEv "feeding" t1, mkEv "peeing" t2, mkEv "pooping" t3])
      = [synthEvent "feeding" (some (d * DAY_MS + 43200000)),
         synthEvent "peeing" (some (d * DAY_MS + 43200000)),
         synthEvent "pooping" (some (d * DAY_MS + 43200000))] := by
    rw [hrecnil, hsums, decMerged]
    simp only [minifyEvents, expandEvents, List.map_nil, List.nil_append,
      List.map_cons, List.flatMap_cons, List.flatMap_nil, List.append_nil]
    rw [synthFromSummary_eq]
    simp [List.range_succ]
  have hkey : ∀ ty1 ty2 : String, tsLe (synthEvent ty1 (some (d * DAY_MS + 43200000)))
      (synthEvent ty2 (some (d * DAY_MS + 43200000))) = true := by
    intro ty1 ty2
    rw [tsLe]
    show decide (d * DAY_MS + 43200000 ≤ d * DAY_MS + 43200000) = true
    simp
  have hsort : jsSortByTs
      [synthEvent "feeding" (some (d * DAY_MS + 43200000)),
       synthEvent "peeing" (some (d * DAY_MS + 43200000)),
       synthEvent "pooping" (some (d * DAY_MS + 43200000))]
      = [synthEvent "feeding" (some (d * DAY_MS + 43200000)),
         synthEvent "peeing" (some (d * DAY_MS + 43200000)),
         synthEvent "pooping" (some (d * DAY_MS + 43200000))] := by
    rw [jsSortByTs, jsSortByTs, jsSortByTs, jsSortByTs, sortInsert,
        sortInsert, if_pos (hkey _ _), sortInsert, if_pos (hkey _ _)]
  have hdata' : (decodeState now (some (encTok now tz
        [mkEv "feeding" t1, mkEv "peeing" t2, mkEv "pooping" t3]))).data
      = [synthEvent "feeding" (some (d * DAY_MS + 43200000)),
         synthEvent "peeing" (some (d * DAY_MS + 43200000)),
         synthEvent "pooping" (some (d * DAY_MS + 43200000))] := by
    rw [hdata, hmerged, hsort]
    simp [normalizeTs_synth]
  refine ⟨henc, hdata', hrecnil, ?_⟩
  intro x hx
  rw [hdata'] at hx
  have hfd : (d * DAY_MS + 43200000).fdiv DAY_MS = d :=
    fdiv_day_eq (by rw [DAY_MS]; omega) (by rw [DAY_MS]; omega)
  have hnoon : getDateKey (some (d * DAY_MS + 43200000)) = some d := by
    rw [getDateKey, hfd]
  simp only [List.mem_cons, List.not_mem_nil, or_false] at hx
  rcases hx with rfl | rfl | rfl <;>
    exact ⟨synthEvent_marker _ _, by rw [tsOf, synthEvent_ts]; exact hnoon⟩

theorem claim_c6_witness :
    (decodeState nowX (some (encTok nowX 0 [mkEv "feeding" (19600 * DAY_MS + 3600000),
        mkEv "peeing" (19600 * DAY_MS + 7200000),
        mkEv "pooping" (19600 * DAY_MS + 10800000)]))).data
      = [synthEvent "feeding" (some (19600 * DAY_MS + 43200000)),
         synthEvent "peeing" (some (19600 * DAY_MS + 43200000)),
         synthEvent "pooping" (some (19600 * DAY_MS + 43200000))] :=
  (claim_c6 nowX 0 19600 (19600 * DAY_MS + 3600000) (19600 * DAY_MS + 7200000)
    (19600 * DAY_MS + 10800000) (by decide) (by decide) (by decide) (by decide)
    (by decide) (by decide) (by decide) (by decide) (by decide) (by decide)).2.1

set_option maxRecDepth 10000 in
/-- C6 counterexample to the local-noon reading: under a UTC-5 zone, the
single reconstructed feeding of an old event sits at the UTC noon of its
day, which is strictly before the local noon of the local day containing
the original event. -/
theorem claim_c6_counterexample :
    dateMsOf (tsOf ((decodeState nowX (some tokC6)).data.headD .jnull))
        = some (19600 * DAY_MS + 43200000)
    ∧ hasMarker ((decodeState nowX (some tokC6)).data.headD .jnull) = true
    ∧ 19600 * DAY_MS + 43200000
        < localDayStart tzW (19600 * DAY_MS + 50000000) + 43200000 := by
  have htok : tokC6 = (encodeStateF 100 nowX tzW [evC6]).getD "" := by
    rw [tokC6, encodeState_evalF 100 (by decide)]
  refine ⟨by rw [htok]; decide, by rw [htok]; decide, by decide⟩

/-! ## Synthetic events through the encoder -/

theorem synth_ts_field (ty : String) (m : Int) :
    getField (JVal.jobj [("eventType", JVal.jstr ty), ("timestamp", JVal.jdate (some m)),
      ("_fromSummary", JVal.jbool true)]) "timestamp" = JVal.jdate (some m) := rfl

theorem synth_pe_ts (ty : String) {m : Int} (hdvd : (900000 : Int) ∣ m)
    (h2 : m < 10000000000000) :
    eventTsMs (processEvent (synthEvent ty (some m))) = some m := by
  rw [synthEvent, eventTsMs_processed (synth_ts_field ty m) h2, q15_fix hdvd]

theorem synth_pe_type (ty : String) (m : Int) :
    getField (processEvent (synthEvent ty (some m))) "eventType" = .jstr ty := by
  rw [synthEvent, processEvent_type (synth_ts_field ty m)]
  rfl

/-- C7 (amended to what the code does): a day summary with at most 12
feedings, 6 peeings and 4 poopings on a day wholly before the recent
window survives the lossy round trip exactly: re-encoding the decoded
state reproduces the same token, so repeated round trips are stable.
`claim_c7_counterexample` shows the bounds are needed: 13 feedings spill
past midnight and change the per-day counts. -/
theorem claim_c7 (now tz d : Int) (f p q : Nat)
    (hf : f ≤ 12) (hp : p ≤ 6) (hq : q ≤ 4) (hpos : 0 < f + p + q)
    (hd0 : 0 ≤ d) (hd1 : d ≤ 100000)
    (hold : localDayStart tz (d * DAY_MS + 86399999) < localDayStart tz now - DAY_MS) :
    encodeState now tz
        ((decodeState now (some (String.mk (tokOf (stateJ [] [⟨d, f, p, q⟩]))))).data)
      = some (String.mk (tokOf (stateJ [] [⟨d, f, p, q⟩]))) := by
  have hser : serOk (stateJ [] [⟨d, f, p, q⟩]) = true :=
    serOk_stateJ _ _ (by intro pe hpe; simp at hpe)
  have hmem : ∀ x ∈ synthFromSummary (summaryJ (⟨d, f, p, q⟩ : DaySummary)),
      ∃ ty : String, ∃ sp : Int, ∃ i : Nat, ((ty = "feeding" ∧ sp = 3600000 ∧ i < f)
          ∨ (ty = "peeing" ∧ sp = 7200000 ∧ i < p)
          ∨ (ty = "pooping" ∧ sp = 10800000 ∧ i < q))
        ∧ x = synthEvent ty (some (d * DAY_MS + 43200000 + (i : Int) * sp)) := by
    intro x hx
    rw [synthFromSummary_eq] at hx
    rcases List.mem_append.mp hx with hx1 | hx1
    · rcases List.mem_append.mp hx1 with hx2 | hx2
      · obtain ⟨i, hir, rfl⟩ := List.mem_map.mp hx2
        exact ⟨"feeding", 3600000, i, Or.inl ⟨rfl, rfl, List.mem_range.mp hir⟩, rfl⟩
      · obtain ⟨i, hir, rfl⟩ := List.mem_map.mp hx2
        exact ⟨"peeing", 7200000, i, Or.inr (Or.inl ⟨rfl, rfl, List.mem_range.mp hir⟩), rfl⟩
    · obtain ⟨i, hir, rfl⟩ := List.mem_map.mp hx1
      exact ⟨"pooping", 10800000, i, Or.inr (Or.inr ⟨rfl, rfl, List.mem_range.mp hir⟩), rfl⟩
  have hbounds : ∀ (sp : Int) (i : Nat), ((sp = 3600000 ∧ i < f)
        ∨ (sp = 7200000 ∧ i < p) ∨ (sp = 10800000 ∧ i < q)) →
      FIFTEEN_MINUTES_MS ≤ d * DAY_MS + 43200000 + (i : Int) * sp
      ∧ d * DAY_MS + 43200000 + (i : Int) * sp < 10000000000000
      ∧ d * DAY_MS ≤ d * DAY_MS + 43200000 + (i : Int) * sp
      ∧ d * DAY_MS + 43200000 + (i : Int) * sp ≤ d * DAY_MS + 86399999
      ∧ (900000 : Int) ∣ (d * DAY_MS + 43200000 + (i : Int) * sp) := by
    intro sp i hcase
    have hi12 : (i : Int) ≥ 0 := by omega
    rcases hcase with ⟨rfl, hi⟩ | ⟨rfl, hi⟩ | ⟨rfl, hi⟩
    · have : (i : Int) ≤ 11 := by omega
      refine ⟨by rw [FIFTEEN_MINUTES_MS, DAY_MS]; nlinarith, by rw [DAY_MS] at *; nlinarith,
        by nlinarith, by rw [DAY_MS] at *; nlinarith, ⟨96 * d + 48 + (i : Int) * 4, by rw [DAY_MS]; ring⟩⟩
    · have : (i : Int) ≤ 5 := by omega
      refine ⟨by rw [FIFTEEN_MINUTES_MS, DAY_MS]; nlinarith, by rw [DAY_MS] at *; nlinarith,
        by nlinarith, by rw [DAY_MS] at *; nlinarith, ⟨96 * d + 48 + (i : Int) * 8, by rw [DAY_MS]; ring⟩⟩
    · have : (i : Int) ≤ 3 := by omega
      refine ⟨by rw [FIFTEEN_MINUTES_MS, DAY_MS]; nlinarith, by rw [DAY_MS] at *; nlinarith,
        by nlinarith, by rw [DAY_MS] at *; nlinarith, ⟨96 * d + 48 + (i : Int) * 12, by rw [DAY_MS]; ring⟩⟩
  have hcase_of : ∀ {ty : String} {sp : Int} {i : Nat},
      ((ty = "feeding" ∧ sp = 3600000 ∧ i < f) ∨ (ty = "peeing" ∧ sp = 7200000 ∧ i < p)
        ∨ (ty = "pooping" ∧ sp = 10800000 ∧ i < q)) →
      ((sp = 3600000 ∧ i < f) ∨ (sp = 7200000 ∧ i < p) ∨ (sp = 10800000 ∧ i < q)) := by
    intro ty sp i hc
    rcases hc with ⟨_, h1, h2⟩ | ⟨_, h1, h2⟩ | ⟨_, h1, h2⟩
    exacts [Or.inl ⟨h1, h2⟩, Or.inr (Or.inl ⟨h1, h2⟩), Or.inr (Or.inr ⟨h1, h2⟩)]
  have hdec := decodeState_tok now [] [⟨d, f, p, q⟩] hser
  have hsortmem : ∀ x ∈ jsSortByTs (synthFromSummary (summaryJ (⟨d, f, p, q⟩ : DaySummary))),
      x ∈ synthFromSummary (summaryJ (⟨d, f, p, q⟩ : DaySummary)) :=
    fun x hx => (jsSortByTs_perm _).mem_iff.mp hx
  have hdata : (decodeState now (some (String.mk (tokOf (stateJ [] [⟨d, f, p, q⟩]))))).data
      = jsSortByTs (synthFromSummary (summaryJ ⟨d, f, p, q⟩)) := by
    rw [hdec]
    simp only [minifyEvents, expandEvents, List.map_nil, List.nil_append,
      List.map_cons, List.flatMap_cons, List.flatMap_nil, List.append_nil]
    have hid : ∀ x ∈ jsSortByTs (synthFromSummary (summaryJ (⟨d, f, p, q⟩ : DaySummary))),
        normalizeTs x = id x := by
      intro x hx
      obtain ⟨ty, sp, i, _, rfl⟩ := hmem x (hsortmem x hx)
      exact normalizeTs_synth _ _
    rw [List.map_congr_left hid, List.map_id]
  rw [hdata]
  have hwf : ∀ e ∈ jsSortByTs (synthFromSummary (summaryJ (⟨d, f, p, q⟩ : DaySummary))),
      eventWF e := by
    intro e he
    obtain ⟨ty, sp, i, hc, rfl⟩ := hmem e (hsortmem e he)
    obtain ⟨h1, h2, _, _, _⟩ := hbounds sp i (hcase_of hc)
    exact eventWF_synth ty h1 h2
  rw [encodeState_eq now tz _ hwf]
  have hpe_facts : ∀ pe ∈ (jsSortByTs (synthFromSummary
        (summaryJ (⟨d, f, p, q⟩ : DaySummary)))).map processEvent,
      isRecentDate now tz (eventTsMs pe) = false ∧ getDateKey (eventTsMs pe) = some d := by
    intro pe hpe
    rw [List.mem_map] at hpe
    obtain ⟨x, hx, rfl⟩ := hpe
    obtain ⟨ty, sp, i, hc, rfl⟩ := hmem x (hsortmem x hx)
    obtain ⟨h1, h2, h3, h4, h5⟩ := hbounds sp i (hcase_of hc)
    rw [synth_pe_ts ty h5 h2]
    exact ⟨isRecent_day_false hold h3 h4, by rw [getDateKey, fdiv_day_eq h3 h4]⟩
  have hR : List.filter (fun pe => isRecentDate now tz (eventTsMs pe))
      (List.map processEvent (jsSortByTs (synthFromSummary
        (summaryJ (⟨d, f, p, q⟩ : DaySummary))))) = [] := by
    rw [List.filter_eq_nil_iff]
    intro pe hpe
    rw [(hpe_facts pe hpe).1]
    simp
  have hlen : ((jsSortByTs (synthFromSummary (summaryJ
        (⟨d, f, p, q⟩ : DaySummary)))).map processEvent).length = f + p + q := by
    rw [List.length_map, (jsSortByTs_perm _).length_eq, synthFromSummary_eq]
    simp
    omega
  have hcount : ∀ ty0 : String,
      ((jsSortByTs (synthFromSummary (summaryJ (⟨d, f, p, q⟩ : DaySummary)))).map
          processEvent).countP (fun e => isStrEq (getField e "eventType") ty0)
      = (synthFromSummary (summaryJ (⟨d, f, p, q⟩ : DaySummary))).countP
          (fun x => isStrEq (getField (processEvent x) "eventType") ty0) := by
    intro ty0
    rw [List.countP_map]
    exact (jsSortByTs_perm _).countP_eq _
  have hS : sumsOf now tz ((jsSortByTs (synthFromSummary (summaryJ
        (⟨d, f, p, q⟩ : DaySummary)))).map processEvent) = [⟨d, f, p, q⟩] := by
    rw [sumsOf_one now tz d _ (by
        intro hnil
        rw [hnil] at hlen
        simp at hlen
        omega) hpe_facts]
    have hcf : (synthFromSummary (summaryJ (⟨d, f, p, q⟩ : DaySummary))).countP
        (fun x => isStrEq (getField (processEvent x) "eventType") "feeding") = f := by
      rw [synthFromSummary_eq]
      simp only [List.countP_append, List.countP_map]
      rw [List.countP_eq_length.mpr (by
          intro i _
          simp only [Function.comp_apply, synth_pe_type, isStrEq]
          rfl),
        List.countP_eq_zero.mpr (by
          intro i _
          simp only [Function.comp_apply, synth_pe_type, isStrEq]
          decide),
        List.countP_eq_zero.mpr (by
          intro i _
          simp only [Function.comp_apply, synth_pe_type, isStrEq]
          decide)]
      simp
    have hcp : (synthFromSummary (summaryJ (⟨d, f, p, q⟩ : DaySummary))).countP
        (fun x => isStrEq (getField (processEvent x) "eventType") "peeing") = p := by
      rw [synthFromSummary_eq]
      simp only [List.countP_append, List.countP_map]
      rw [List.countP_eq_zero.mpr (by
          intro i _
          simp only [Function.comp_apply, synth_pe_type, isStrEq]
          decide),
        List.countP_eq_length.mpr (by
          intro i _
          simp only [Function.comp_apply, synth_pe_type, isStrEq]
          rfl),
        List.countP_eq_zero.mpr (by
          intro i _
          simp only [Function.comp_apply, synth_pe_type, isStrEq]
          decide)]
      simp
    have hcq : (synthFromSummary (summaryJ (⟨d, f, p, q⟩ : DaySummary))).countP
        (fun x => isStrEq (getField (processEvent x) "eventType") "pooping") = q := by
      rw [synthFromSummary_eq]
      simp only [List.countP_append, List.countP_map]
      rw [List.countP_eq_zero.mpr (by
          intro i _
          simp only [Function.comp_apply, synth_pe_type, isStrEq]
          decide),
        List.countP_eq_zero.mpr (by
          intro i _
          simp only [Function.comp_apply, synth_pe_type, isStrEq]
          decide),
        List.countP_eq_length.mpr (by
          intro i _
          simp only [Function.comp_apply, synth_pe_type, isStrEq]
          rfl)]
      simp
    rw [hcount "feeding", hcount "peeing", hcount "pooping", hcf, hcp, hcq]
  rw [hR, hS]

theorem claim_c7_witness :
    encodeState nowX 0
        ((decodeState nowX (some (String.mk (tokOf (stateJ [] [⟨dayW, 12, 6, 4⟩]))))).data)
      = some (String.mk (tokOf (stateJ [] [⟨dayW, 12, 6, 4⟩]))) :=
  claim_c7 nowX 0 dayW 12 6 4 (by decide) (by decide) (by decide) (by decide)
    (by decide) (by decide) (by decide)

set_option maxRecDepth 100000 in
set_option maxHeartbeats 2000000 in
/-- C7 counterexample to the unrestricted claim: with five poopings on one
day and four on the next, the fifth synthetic pooping of the first day
spills past midnight, so the decoded states of the first and second tokens
disagree on the second day's counts. -/
theorem claim_c7_counterexample :
    oldCounts nowX 0 (decodeState nowX (some tokSpill)).data (dayW + 1)
      ≠ oldCounts nowX 0 (decodeState nowX (some tokSpill2)).data (dayW + 1) := by
  have h1 : tokSpill = (encodeStateF 200 nowX 0 evSpill).getD "" := by
    rw [tokSpill, encodeState_evalF 200 (by decide)]
  have h2 : tokSpill2 = (encodeStateF 200 nowX 0
      (decodeState nowX (some ((encodeStateF 200 nowX 0 evSpill).getD ""))).data).getD "" := by
    rw [tokSpill2, h1, encodeState_evalF 200 (by decide)]
  rw [h1, h2]
  decide

/-! ## The encrypted path: framing, splitting, key injectivity -/

theorem splitDots_dot (r : List Char) : splitDots ('.' :: r) = [] :: splitDots r := rfl

theorem splitDots_cons_ne {c : Char} (r : List Char) (hc : c ≠ '.') :
    splitDots (c :: r) = match splitDots r with
      | g :: gs => (c :: g) :: gs
      | [] => [[c]] := by
  rw [splitDots]
  exact hc

theorem splitDots_noDot : ∀ {a : List Char}, (∀ c ∈ a, c ≠ '.') → splitDots a = [a] := by
  intro a
  induction a with
  | nil => intro _; rfl
  | cons c r ih =>
      intro h
      rw [splitDots_cons_ne r (h c (List.mem_cons_self _ _)),
          ih (fun x hx => h x (List.mem_cons_of_mem c hx))]

theorem splitDots_append : ∀ {a : List Char}, (∀ c ∈ a, c ≠ '.') → ∀ (r : List Char),
    splitDots (a ++ '.' :: r) = a :: splitDots r := by
  intro a
  induction a with
  | nil => intro _ r; exact splitDots_dot r
  | cons c t ih =>
      intro h r
      rw [List.cons_append, splitDots_cons_ne _ (h c (List.mem_cons_self _ _)),
          ih (fun x hx => h x (List.mem_cons_of_mem c hx)) r]

theorem splitDots_three {a b c : List Char} (ha : ∀ x ∈ a, x ≠ '.')
    (hb : ∀ x ∈ b, x ≠ '.') (hc : ∀ x ∈ c, x ≠ '.') :
    splitDots (a ++ '.' :: (b ++ '.' :: c)) = [a, b, c] := by
  rw [splitDots_append ha, splitDots_append hb, splitDots_noDot hc]

theorem toUrlSafe_noDot {bs : List Nat} (h : ∀ b ∈ bs, b < 256) :
    ∀ c ∈ toUrlSafe (btoaL bs), c ≠ '.' := by
  intro c hc
  rw [toUrlSafe] at hc
  have hc1 := List.mem_filter.mp hc
  obtain ⟨c0, hc0, rfl⟩ := List.mem_map.mp hc1.1
  obtain ⟨core, k, hdec, _, _, hcore⟩ := btoa_decomp bs h
  rw [hdec] at hc0
  rcases List.mem_append.mp hc0 with h0 | h0
  · have hv := hcore c0 h0
    rw [toUrlSafeCh]
    by_cases h1 : c0 = '+'
    · rw [if_pos h1]; decide
    · rw [if_neg h1]
      by_cases h2 : c0 = '/'
      · rw [if_pos h2]; decide
      · rw [if_neg h2]
        intro he
        subst he
        exact absurd hv (by decide)
  · rw [List.mem_replicate] at h0
    obtain ⟨_, rfl⟩ := h0
    have : toUrlSafeCh '=' = '=' := rfl
    rw [this] at hc1
    exact absurd hc1.2 (by decide)

theorem urlb_inj {s1 s2 : List Nat} (h1 : ∀ b ∈ s1, b < 256) (h2 : ∀ b ∈ s2, b < 256)
    (h : toUrlSafe (btoaL s1) = toUrlSafe (btoaL s2)) : s1 = s2 := by
  have hfu := congrArg fromUrlSafe h
  rw [urlsafe_rt s1 h1, urlsafe_rt s2 h2] at hfu
  have hat := congrArg atobL hfu
  rw [atob_btoa s1 h1, atob_btoa s2 h2] at hat
  exact Option.some.injEq _ _ ▸ hat

theorem takeWhile_frame (n : Nat) (l : List Nat) :
    ((List.replicate n 1 ++ 0 :: l).takeWhile (fun x => x = 1)) = List.replicate n 1 := by
  induction n with
  | zero => simp [List.takeWhile]
  | succ m ih =>
      rw [List.replicate_succ, List.cons_append, List.takeWhile_cons]
      simp [ih]

theorem readFrame_frame (l r : List Nat) : readFrame (frameSeg l ++ r) = some (l, r) := by
  have hdrop : List.drop l.length (List.replicate l.length (1 : Nat) ++ 0 :: (l ++ r))
      = 0 :: (l ++ r) := by
    have h := List.drop_left (List.replicate l.length (1 : Nat)) (0 :: (l ++ r))
    rwa [List.length_replicate] at h
  rw [frameSeg, List.append_assoc, List.cons_append, readFrame.eq_def]
  simp only [takeWhile_frame l.length (l ++ r), List.length_replicate, hdrop]
  show (if l.length ≤ (l ++ r).length
        then some ((l ++ r).take l.length, (l ++ r).drop l.length) else none)
      = some (l, r)
  rw [if_pos (by rw [List.length_append]; omega), List.take_left, List.drop_left]

theorem frameSeg_inj {a b : List Nat} (h : frameSeg a = frameSeg b) : a = b := by
  have h1 : readFrame (frameSeg a ++ []) = readFrame (frameSeg b ++ []) := by rw [h]
  rw [readFrame_frame, readFrame_frame] at h1
  simpa using h1

theorem frameSeg_lt {l : List Nat} (h : ∀ b ∈ l, b < 256) :
    ∀ b ∈ frameSeg l, b < 256 := by
  intro b hb
  rw [frameSeg] at hb
  rcases List.mem_append.mp hb with h0 | h0
  · rw [List.eq_of_mem_replicate h0]; omega
  · rcases List.mem_cons.mp h0 with rfl | h0
    · omega
    · exact h b h0

theorem deriveKeyBytes_lt (password : String) {salt : List Nat}
    (hs : ∀ b ∈ salt, b < 256) : ∀ b ∈ deriveKeyBytes password salt, b < 256 := by
  intro b hb
  rw [deriveKeyBytes] at hb
  rcases List.mem_append.mp hb with h0 | h0
  · exact frameSeg_lt (utf8EncodeL_lt _) b h0
  · exact hs b h0

theorem aesGcmSeal_lt {key iv data : List Nat} (hk : ∀ b ∈ key, b < 256)
    (hi : ∀ b ∈ iv, b < 256) (hd : ∀ b ∈ data, b < 256) :
    ∀ b ∈ aesGcmSeal key iv data, b < 256 := by
  intro b hb
  rw [aesGcmSeal] at hb
  rcases List.mem_append.mp hb with h0 | h0
  · rcases List.mem_append.mp h0 with h1 | h1
    · exact frameSeg_lt hk b h1
    · exact frameSeg_lt hi b h1
  · exact hd b h0

theorem aesGcmOpen_seal (key iv key2 iv2 data : List Nat) :
    aesGcmOpen key iv (aesGcmSeal key2 iv2 data)
      = if key2 = key ∧ iv2 = iv then some data else none := by
  rw [aesGcmOpen, aesGcmSeal, List.append_assoc, readFrame_frame]
  simp only [Option.bind_eq_bind, Option.some_bind]
  rw [readFrame_frame]
  simp only [Option.some_bind]

theorem string_of_data {p1 p2 : String} (h : p1.data = p2.data) : p1 = p2 := by
  cases p1
  cases p2
  exact congrArg String.mk h

theorem deriveKeyBytes_inj {p1 p2 : String} {salt : List Nat}
    (h : deriveKeyBytes p1 salt = deriveKeyBytes p2 salt) : p1 = p2 := by
  rw [deriveKeyBytes, deriveKeyBytes] at h
  have h1 : frameSeg (utf8EncodeL p1.data) = frameSeg (utf8EncodeL p2.data) :=
    List.append_cancel_right h
  have h2 := frameSeg_inj h1
  have h3 := congrArg utf8DecodeL h2
  rw [utf8_rt, utf8_rt] at h3
  exact string_of_data (by simpa using h3)

theorem decrypt_encrypt (pt : List Char) (password : String) {salt iv : List Nat}
    (hs : ∀ b ∈ salt, b < 256) (hi : ∀ b ∈ iv, b < 256) :
    decrypt (encrypt pt password salt iv) password = .ok pt := by
  have hct : ∀ b ∈ aesGcmSeal (deriveKeyBytes password salt) iv (utf8EncodeL pt), b < 256 :=
    aesGcmSeal_lt (deriveKeyBytes_lt password hs) hi (utf8EncodeL_lt pt)
  have h1 : atobL (fromUrlSafe (toUrlSafe (btoaL salt))) = some salt := by
    rw [urlsafe_rt salt hs]
    exact atob_btoa salt hs
  have h2 : atobL (fromUrlSafe (toUrlSafe (btoaL iv))) = some iv := by
    rw [urlsafe_rt iv hi]
    exact atob_btoa iv hi
  have h3 : atobL (fromUrlSafe (toUrlSafe (btoaL (aesGcmSeal (deriveKeyBytes password salt)
      iv (utf8EncodeL pt))))) = some (aesGcmSeal (deriveKeyBytes password salt) iv
      (utf8EncodeL pt)) := by
    rw [urlsafe_rt _ hct]
    exact atob_btoa _ hct
  rw [encrypt, decrypt,
    splitDots_three (toUrlSafe_noDot hs) (toUrlSafe_noDot hi) (toUrlSafe_noDot hct)]
  simp [h1, h2, h3, aesGcmOpen_seal, utf8_rt]

theorem decrypt_wrongpass (pt : List Char) {p1 p2 : String} {salt iv : List Nat}
    (hs : ∀ b ∈ salt, b < 256) (hi : ∀ b ∈ iv, b < 256) (hne : p1 ≠ p2) :
    decrypt (encrypt pt p1 salt iv) p2 = .error .authFail := by
  have hct : ∀ b ∈ aesGcmSeal (deriveKeyBytes p1 salt) iv (utf8EncodeL pt), b < 256 :=
    aesGcmSeal_lt (deriveKeyBytes_lt p1 hs) hi (utf8EncodeL_lt pt)
  have h1 : atobL (fromUrlSafe (toUrlSafe (btoaL salt))) = some salt := by
    rw [urlsafe_rt salt hs]
    exact atob_btoa salt hs
  have h2 : atobL (fromUrlSafe (toUrlSafe (btoaL iv))) = some iv := by
    rw [urlsafe_rt iv hi]
    exact atob_btoa iv hi
  have h3 : atobL (fromUrlSafe (toUrlSafe (btoaL (aesGcmSeal (deriveKeyBytes p1 salt)
      iv (utf8EncodeL pt))))) = some (aesGcmSeal (deriveKeyBytes p1 salt) iv
      (utf8EncodeL pt)) := by
    rw [urlsafe_rt _ hct]
    exact atob_btoa _ hct
  have hkne : ¬deriveKeyBytes p1 salt = deriveKeyBytes p2 salt :=
    fun hEq => hne (deriveKeyBytes_inj hEq)
  rw [encrypt, decrypt,
    splitDots_three (toUrlSafe_noDot hs) (toUrlSafe_noDot hi) (toUrlSafe_noDot hct)]
  simp [h1, h2, h3, aesGcmOpen_seal, hkne]

/-! ## Helpers for the remaining claims -/

theorem wr_evalF (fuel : Nat) {v : JVal} (h : (writeJF fuel v).isSome = true) :
    wr v = (writeJF fuel v).getD [] := by
  rw [wr, writeJ_evalF fuel h]

theorem headD_mem {α : Type} (d : α) {l : List α} (h : l ≠ []) : l.headD d ∈ l := by
  cases l with
  | nil => exact absurd rfl h
  | cons a t => exact List.mem_cons_self a t

theorem hwf_single {ty : String} {t : Int} (h1 : FIFTEEN_MINUTES_MS ≤ t)
    (h2 : t < 10000000000000) : ∀ e ∈ [mkEv ty t], eventWF e := by
  intro e he
  simp only [List.mem_cons, List.not_mem_nil, or_false] at he
  rw [he]
  exact eventWF_mkEv _ h1 h2

/-- A recent well-formed event's round-tripped image is in the decoded
list. -/
theorem rt_mem_decode (now tz : Int) (E : List JVal) (hwf : ∀ e ∈ E, eventWF e)
    {e : JVal} (he : e ∈ E) (hrec : recentAtEncode now tz e = true) :
    rtEvent now e ∈ (decodeState now (some (encTok now tz E))).data := by
  rw [(decode_encode now tz E hwf).2.1]
  apply List.mem_map.mpr
  refine ⟨setDecTs now (expandEvent (minifyEvent (processEvent e))), ?_, rfl⟩
  apply (jsSortByTs_perm _).mem_iff.mpr
  rw [decMerged]
  apply List.mem_append.mpr
  left
  apply List.mem_map.mpr
  refine ⟨expandEvent (minifyEvent (processEvent e)), ?_, rfl⟩
  rw [expandEvents]
  apply List.mem_map.mpr
  refine ⟨minifyEvent (processEvent e), ?_, rfl⟩
  rw [minifyEvents]
  apply List.mem_map.mpr
  refine ⟨processEvent e, ?_, rfl⟩
  rw [encRec]
  apply List.mem_filter.mpr
  exact ⟨List.mem_map.mpr ⟨e, he, rfl⟩, hrec⟩

/-- The pre-normalisation timestamp of a round-tripped recent event. -/
theorem setDec_em_ts {fs : Fields} {t : Int} (now : Int)
    (hts : getField (.jobj fs) "timestamp" = .jdate (some t))
    (h1 : FIFTEEN_MINUTES_MS ≤ t) (h2 : t < 10000000000000) :
    getField (setDecTs now (expandEvent (minifyEvent (processEvent (.jobj fs)))))
      "timestamp" = .jdate (some (q15 t)) := by
  have hmem : ("timestamp", "ts") ∈ FIELD_MAPPING := by rw [FIELD_MAPPING]; simp
  have hu : getField (.jobj (pickFields REVERSE_MAPPING
      (.jobj (pickFields FIELD_MAPPING (processEvent (.jobj fs)))))) "timestamp"
      = .jnum (some ((q15 t).fdiv 1000)) := by
    rw [← expandMin_eq, expandMin_get _ hmem, processEvent_ts hts]
  have hupos : (0 : Int) < (q15 t).fdiv 1000 := by
    have hg := q15_ge h1
    have hq := q15_thousand t
    rw [FIFTEEN_MINUTES_MS] at hg
    omega
  rw [expandMin_eq, setDecTs_jobj, hu]
  rw [if_pos (by simp only [truthy, decide_eq_true_eq]; omega)]
  rw [show decompressTimestamp (.jnum (some ((q15 t).fdiv 1000)))
      = .jdate (some ((q15 t).fdiv 1000 * 1000)) from rfl, q15_thousand]
  rw [getField_set_self]

/-- Everything the decoder merges from encoder output has a valid `Date`
timestamp. -/
theorem decMerged_ts (now tz : Int) (E : List JVal) (hwf : ∀ e ∈ E, eventWF e) :
    ∀ x ∈ decMerged now (encRec now tz E) (encSums now tz E),
      ∃ m : Int, getField x "timestamp" = .jdate (some m) := by
  intro x hx
  rw [decMerged] at hx
  rcases List.mem_append.mp hx with hl | hr
  · obtain ⟨em, hem, rfl⟩ := List.mem_map.mp hl
    rw [expandEvents] at hem
    obtain ⟨mv, hmv, rfl⟩ := List.mem_map.mp hem
    rw [minifyEvents] at hmv
    obtain ⟨pe, hpe, rfl⟩ := List.mem_map.mp hmv
    rw [encRec] at hpe
    obtain ⟨e, he, rfl⟩ := List.mem_map.mp (List.mem_of_mem_filter hpe)
    obtain ⟨⟨fs, rfl, _⟩, ⟨t, hts, h1, h2⟩, _⟩ := hwf e he
    exact ⟨q15 t, setDec_em_ts now hts h1 h2⟩
  · obtain ⟨sj, hsj, hx2⟩ := List.mem_flatMap.mp hr
    obtain ⟨ds, hds, rfl⟩ := List.mem_map.mp hsj
    obtain ⟨ty, i, hty, rfl⟩ := synthFromSummary_mem hx2
    rw [synthEvent_ts, summaryNoonMs_summaryJ]
    exact ⟨_, rfl⟩

theorem tsSortMs_jdate {e : JVal} {m : Int}
    (h : getField e "timestamp" = .jdate (some m)) : tsSortMs e = some m := by
  rw [tsSortMs, h]
  rfl

theorem tsSortMs_normalizeTs {e : JVal} {m : Int}
    (h : getField e "timestamp" = .jdate (some m)) :
    tsSortMs (normalizeTs e) = some m := by
  rw [tsSortMs]
  rw [show normalizeTs e = .jobj (setField (spreadFields e) "timestamp"
      (match getField e "timestamp" with
       | .jdate t => .jdate t
       | .jnum n => decompressTimestamp (.jnum n)
       | v => newDate v)) from rfl]
  rw [getField_set_self, h]
  rfl

/-! ### The encrypted entry points, unfolded -/

theorem removeOnce_marker (r : List Char) :
    removeOnce encMarker (encMarker ++ r) = r := rfl

theorem decSE_some (s password : String) (hne : ¬s = "") :
    decodeStateEncrypted (some s) password
      = decrypt (removeOnce encMarker s.data) password >>= fun jsonString =>
          match readTop jsonString with
          | some state =>
              Except.ok ⟨orJ (getField state "data") (.jarr []),
                         orJ (getField state "config") .jnull⟩
          | none => Except.error .badParse := by
  show (if s = "" then Except.ok (⟨.jarr [], .jnull⟩ : EncDecoded)
        else decrypt (removeOnce encMarker s.data) password >>= fun jsonString =>
          match readTop jsonString with
          | some state =>
              Except.ok (⟨orJ (getField state "data") (.jarr []),
                          orJ (getField state "config") .jnull⟩ : EncDecoded)
          | none => Except.error .badParse)
      = decrypt (removeOnce encMarker s.data) password >>= fun jsonString =>
          match readTop jsonString with
          | some state =>
              Except.ok (⟨orJ (getField state "data") (.jarr []),
                          orJ (getField state "config") .jnull⟩ : EncDecoded)
          | none => Except.error .badParse
  rw [if_neg hne]

theorem decrypt_badFormat (password : String) {cs : List Char}
    (h : (splitDots cs).length ≠ 3) : decrypt cs password = .error .badFormat := by
  rcases hsd : splitDots cs with _ | ⟨a, _ | ⟨b, _ | ⟨c, _ | ⟨d, r⟩⟩⟩⟩
  · rw [decrypt, hsd]
  · rw [decrypt, hsd]
  · rw [decrypt, hsd]
  · rw [hsd] at h
    simp at h
  · rw [decrypt, hsd]

theorem decSE_badFormat (password : String) {s : String} (hne : ¬s = "")
    (h : (splitDots (removeOnce encMarker s.data)).length ≠ 3) :
    decodeStateEncrypted (some s) password = .error .badFormat := by
  rw [decSE_some s password hne, decrypt_badFormat password h]
  rfl

theorem decSE_wrongpass (pt : List Char) {p1 p2 : String} {salt iv : List Nat}
    (hs : ∀ b ∈ salt, b < 256) (hi : ∀ b ∈ iv, b < 256) (hne : p1 ≠ p2) :
    decodeStateEncrypted (some (String.mk (encMarker ++ encrypt pt p1 salt iv))) p2
      = .error .authFail := by
  have hne2 : ¬String.mk (encMarker ++ encrypt pt p1 salt iv) = "" :=
    strMk_ne_empty (by simp [encMarker])
  rw [decSE_some _ p2 hne2]
  rw [show (String.mk (encMarker ++ encrypt pt p1 salt iv)).data
      = encMarker ++ encrypt pt p1 salt iv from rfl]
  rw [removeOnce_marker, decrypt_wrongpass pt hs hi hne]
  rfl

theorem orJ_orJ (c : JVal) : orJ (orJ c .jnull) .jnull = orJ c .jnull := by
  by_cases h : truthy c = true
  · rw [orJ, orJ, if_pos h, if_pos h]
  · rw [orJ, orJ, if_neg h, if_neg (show ¬truthy JVal.jnull = true from by decide)]

theorem serOk_empty :
    serOk (.jobj [("data", .jarr []), ("config", orJ .jnull .jnull)]) = true := by
  show serOk (.jobj [("data", .jarr []), ("config", .jnull)]) = true
  simp [serOk, serOkList, serOkFields, nodupKeysB]

theorem encSE_eq (data : List JVal) (config : JVal) (password : String)
    (salt iv : List Nat)
    (hser : serOk (.jobj [("data", .jarr data), ("config", orJ config .jnull)]) = true) :
    encodeStateEncrypted data config password salt iv
      = some (String.mk (encMarker ++ encrypt
          (wr (.jobj [("data", .jarr data), ("config", orJ config .jnull)]))
          password salt iv)) := by
  show (writeJ (.jobj [("data", .jarr data), ("config", orJ config .jnull)])
      >>= fun jsonString =>
        some (String.mk (encMarker ++ encrypt jsonString password salt iv)))
      = some (String.mk (encMarker ++ encrypt
          (wr (.jobj [("data", .jarr data), ("config", orJ config .jnull)]))
          password salt iv))
  rw [wr_eq hser]
  rfl

theorem decSE_enc (data : List JVal) (config : JVal) (password : String)
    {salt iv : List Nat} (hs : ∀ b ∈ salt, b < 256) (hi : ∀ b ∈ iv, b < 256)
    (hser : serOk (.jobj [("data", .jarr data), ("config", orJ config .jnull)]) = true) :
    decodeStateEncrypted (some (String.mk (encMarker ++ encrypt
        (wr (.jobj [("data", .jarr data), ("config", orJ config .jnull)]))
        password salt iv))) password
      = .ok ⟨.jarr data, orJ config .jnull⟩ := by
  have hne2 : ¬String.mk (encMarker ++ encrypt
      (wr (.jobj [("data", .jarr data), ("config", orJ config .jnull)]))
      password salt iv) = "" := strMk_ne_empty (by simp [encMarker])
  rw [decSE_some _ password hne2]
  rw [show (String.mk (encMarker ++ encrypt
      (wr (.jobj [("data", .jarr data), ("config", orJ config .jnull)]))
      password salt iv)).data
      = encMarker ++ encrypt
          (wr (.jobj [("data", .jarr data), ("config", orJ config .jnull)]))
          password salt iv from rfl]
  rw [removeOnce_marker, decrypt_encrypt _ password hs hi]
  show (match readTop (wr (.jobj [("data", .jarr data), ("config", orJ config .jnull)])) with
        | some state =>
            Except.ok (⟨orJ (getField state "data") (.jarr []),
                        orJ (getField state "config") .jnull⟩ : EncDecoded)
        | none => Except.error DecErr.badParse)
      = Except.ok ⟨.jarr data, orJ config .jnull⟩
  rw [readTop_wr hser]
  show Except.ok
      (⟨orJ (getField (JVal.jobj [("data", .jarr data), ("config", orJ config .jnull)])
          "data") (.jarr []),
        orJ (getField (JVal.jobj [("data", .jarr data), ("config", orJ config .jnull)])
          "config") .jnull⟩ : EncDecoded)
      = Except.ok ⟨.jarr data, orJ config .jnull⟩
  rw [getField_two, if_pos rfl]
  rw [getField_two, if_neg (show ¬("data" = "config") from by decide), if_pos rfl]
  rw [show orJ (.jarr data) (.jarr []) = .jarr data from by
        rw [orJ, if_pos (show truthy (JVal.jarr data) = true from rfl)],
      orJ_orJ]

theorem decodeState_some (now : Int) (s : String) :
    decodeState now (some s)
      = if s = "" then ⟨[], .jnull⟩
        else match decodeTry now s.data with
             | some st => st
             | none => ⟨[], .jnull⟩ := rfl

/-! ## Claims C1, C2, C3 -/

/-- C1: for every well-formed event array encoded without a password, every
event classified recent at encode time appears in the decoded data, with a
timestamp that is exactly the original floored to the 15-minute boundary:
at most the original, and less than 15 minutes below it. -/
theorem claim_c1 (now tz : Int) (E : List JVal) (hwf : ∀ e ∈ E, eventWF e)
    {e : JVal} (he : e ∈ E) (hrec : recentAtEncode now tz e = true) :
    encodeState now tz E = some (encTok now tz E) ∧
    rtEvent now e ∈ (decodeState now (some (encTok now tz E))).data ∧
    tsOf (rtEvent now e) = .jdate (some (q15 (wfTs e))) ∧
    q15 (wfTs e) ≤ wfTs e ∧ wfTs e - q15 (wfTs e) < FIFTEEN_MINUTES_MS := by
  obtain ⟨⟨fs, hfs, _⟩, ⟨t, hts, h1, h2⟩, _⟩ := hwf e he
  have hwfts : wfTs e = t := by rw [wfTs, hts]
  refine ⟨(decode_encode now tz E hwf).1, rt_mem_decode now tz E hwf he hrec, ?_, ?_, ?_⟩
  · rw [tsOf, hwfts]
    rw [hfs] at hts ⊢
    exact rtEvent_ts now hts h1 h2
  · rw [hwfts]
    exact q15_le t
  · rw [hwfts]
    have h3 := q15_gt t
    omega

theorem claim_c1_witness :
    (∀ e ∈ [mkEv "feeding" 1699999200000], eventWF e) ∧
    recentAtEncode nowX 0 (mkEv "feeding" 1699999200000) = true ∧
    rtEvent nowX (mkEv "feeding" 1699999200000)
      ∈ (decodeState nowX (some (encTok nowX 0 [mkEv "feeding" 1699999200000]))).data ∧
    tsOf (rtEvent nowX (mkEv "feeding" 1699999200000))
      = .jdate (some (q15 (wfTs (mkEv "feeding" 1699999200000)))) ∧
    q15 (wfTs (mkEv "feeding" 1699999200000)) ≤ wfTs (mkEv "feeding" 1699999200000) ∧
    wfTs (mkEv "feeding" 1699999200000) - q15 (wfTs (mkEv "feeding" 1699999200000))
      < FIFTEEN_MINUTES_MS := by
  have h := claim_c1 nowX 0 [mkEv "feeding" 1699999200000]
    (hwf_single (by decide) (by decide)) (List.mem_cons_self _ _) (by decide)
  exact ⟨hwf_single (by decide) (by decide), by decide, h.2.1, h.2.2.1, h.2.2.2.1, h.2.2.2.2⟩

/-- C2 (amended to what the code does): for a recent well-formed event the
round trip preserves every field in the fixed short-name table (except the
timestamp, which is floored), but a field whose name is not in the table is
dropped: the decoded event reads `undefined` for it, not the original
value. -/
theorem claim_c2 (now tz : Int) (E : List JVal) (hwf : ∀ e ∈ E, eventWF e)
    {e : JVal} (he : e ∈ E) (hrec : recentAtEncode now tz e = true) :
    rtEvent now e ∈ (decodeState now (some (encTok now tz E))).data ∧
    (∀ full sh, (full, sh) ∈ FIELD_MAPPING → full ≠ "timestamp" →
        getField (rtEvent now e) full = getField e full) ∧
    (∀ k, (∀ kv ∈ REVERSE_MAPPING, kv.2 ≠ k) → k ≠ "timestamp" →
        getField (rtEvent now e) k = .undef) := by
  obtain ⟨⟨fs, hfs, _⟩, ⟨t, hts, h1, h2⟩, _⟩ := hwf e he
  refine ⟨rt_mem_decode now tz E hwf he hrec, ?_, ?_⟩
  · intro full sh hmem hk
    rw [hfs] at hts ⊢
    exact rtEvent_mapped now hts hmem hk
  · intro k hnone hk
    exact rtEvent_unmapped now e k hnone hk

theorem claim_c2_witness :
    rtEvent nowX (mkEv "peeing" 1699999200000)
      ∈ (decodeState nowX (some (encTok nowX 0 [mkEv "peeing" 1699999200000]))).data ∧
    getField (rtEvent nowX (mkEv "peeing" 1699999200000)) "eventType"
      = getField (mkEv "peeing" 1699999200000) "eventType" := by
  have h := claim_c2 nowX 0 [mkEv "peeing" 1699999200000]
    (hwf_single (by decide) (by decide)) (List.mem_cons_self _ _) (by decide)
  exact ⟨h.1, h.2.1 "eventType" "t" (by rw [FIELD_MAPPING]; simp) (by decide)⟩

set_option maxRecDepth 10000 in
/-- C2 counterexample to the pass-through reading: `evNote` carries an
unmapped field `note`; its decoded image exists (one recent event) but
reads `undefined` for `note`. -/
theorem claim_c2_counterexample :
    getField evNote "note" = .jstr "x" ∧
    (decodeState nowX (some tokNote)).data.length = 1 ∧
    isUndef (getField ((decodeState nowX (some tokNote)).data.headD .jnull) "note")
      = true ∧
    isStrEq (getField ((decodeState nowX (some tokNote)).data.headD .jnull) "eventType")
      "feeding" = true := by
  have htok : tokNote = (encodeStateF 100 nowX 0 [evNote]).getD "" := by
    rw [tokNote, encodeState_evalF 100 (by decide)]
  refine ⟨rfl, by rw [htok]; decide, by rw [htok]; decide, by rw [htok]; decide⟩

/-- C3: the plain decoder is total — missing and empty input give the empty
state, and any token on which the parse pipeline fails anywhere gives the
empty state too, never an error. -/
theorem claim_c3 (now : Int) :
    decodeState now none = ⟨[], .jnull⟩ ∧
    decodeState now (some "") = ⟨[], .jnull⟩ ∧
    ∀ s : String, decodeTry now s.data = none →
      decodeState now (some s) = ⟨[], .jnull⟩ := by
  refine ⟨rfl, rfl, ?_⟩
  intro s h
  rw [decodeState_some]
  by_cases hs : s = ""
  · rw [if_pos hs]
  · rw [if_neg hs, h]

theorem claim_c3_witness :
    decodeTry nowX tokBadJson.data = none ∧
    decodeState nowX (some tokBadJson) = ⟨[], .jnull⟩ :=
  ⟨rfl, (claim_c3 nowX).2.2 tokBadJson rfl⟩

/-! ## Claims C4 and C5 (crypto modelled from the spec) -/

/-- C4 (spec-modelled: the WebCrypto primitives are platform code, modelled
as an ideal injective AEAD under an injective PBKDF2): the encrypted decode
path is strict.  A non-empty token whose body does not split on `.` into
exactly three parts is a hard format error, and decoding a token encrypted
under `p1` with a different password `p2` surfaces the authentication
failure — never the silent empty state. -/
theorem claim_c4 (data : List JVal) (config : JVal) (p1 p2 : String)
    (salt iv : List Nat) (hs : ∀ b ∈ salt, b < 256) (hi : ∀ b ∈ iv, b < 256)
    (hne : p1 ≠ p2)
    (hser : serOk (.jobj [("data", .jarr data), ("config", orJ config .jnull)]) = true)
    {tok : String} (henc : encodeStateEncrypted data config p1 salt iv = some tok) :
    decodeStateEncrypted (some tok) p2 = .error .authFail ∧
    ∀ s : String, ¬s = "" → (splitDots (removeOnce encMarker s.data)).length ≠ 3 →
      decodeStateEncrypted (some s) p2 = .error .badFormat := by
  constructor
  · rw [encSE_eq data config p1 salt iv hser] at henc
    injection henc with henc
    rw [← henc]
    exact decSE_wrongpass _ hs hi hne
  · intro s hse hsplit
    exact decSE_badFormat p2 hse hsplit

theorem claim_c4_witness :
    ("a" : String) ≠ "b" ∧
    decodeStateEncrypted (some tokEnc) "b" = .error .authFail ∧
    ∀ s : String, ¬s = "" → (splitDots (removeOnce encMarker s.data)).length ≠ 3 →
      decodeStateEncrypted (some s) "b" = .error .badFormat := by
  have h1 : encodeStateEncrypted [] .jnull "a" [0] [1] = some tokEnc := by
    rw [tokEnc, encSE_eq [] .jnull "a" [0] [1] serOk_empty]
    rfl
  have h := claim_c4 [] .jnull "a" "b" [0] [1] (by decide) (by decide) (by decide)
    serOk_empty h1
  exact ⟨by decide, h.1, h.2⟩

/-- C5 (spec-modelled: fresh salt and IV are explicit parameters standing
for `crypto.getRandomValues`): with the same state and password but a fresh
salt, the two encrypted tokens differ, and both decrypt under the password
to the same state (the original data, untouched). -/
theorem claim_c5 (data : List JVal) (config : JVal) (p : String)
    (salt1 iv1 salt2 iv2 : List Nat)
    (hs1 : ∀ b ∈ salt1, b < 256) (hi1 : ∀ b ∈ iv1, b < 256)
    (hs2 : ∀ b ∈ salt2, b < 256) (hi2 : ∀ b ∈ iv2, b < 256)
    (hfresh : salt1 ≠ salt2)
    (hser : serOk (.jobj [("data", .jarr data), ("config", orJ config .jnull)]) = true)
    {tok1 tok2 : String}
    (h1 : encodeStateEncrypted data config p salt1 iv1 = some tok1)
    (h2 : encodeStateEncrypted data config p salt2 iv2 = some tok2) :
    tok1 ≠ tok2 ∧
    decodeStateEncrypted (some tok1) p = .ok ⟨.jarr data, orJ config .jnull⟩ ∧
    decodeStateEncrypted (some tok2) p = .ok ⟨.jarr data, orJ config .jnull⟩ := by
  rw [encSE_eq data config p salt1 iv1 hser] at h1
  rw [encSE_eq data config p salt2 iv2 hser] at h2
  injection h1 with h1
  injection h2 with h2
  rw [← h1, ← h2]
  refine ⟨?_, decSE_enc data config p hs1 hi1 hser, decSE_enc data config p hs2 hi2 hser⟩
  intro heq
  have hl : encMarker ++ encrypt
        (wr (.jobj [("data", .jarr data), ("config", orJ config .jnull)])) p salt1 iv1
      = encMarker ++ encrypt
        (wr (.jobj [("data", .jarr data), ("config", orJ config .jnull)])) p salt2 iv2 :=
    congrArg String.data heq
  have hl2 := List.append_cancel_left hl
  simp only [encrypt] at hl2
  have hsp := congrArg splitDots hl2
  rw [splitDots_append (toUrlSafe_noDot hs1), splitDots_append (toUrlSafe_noDot hs2)]
    at hsp
  injection hsp with hhead _
  exact hfresh (urlb_inj hs1 hs2 hhead)

theorem claim_c5_witness :
    ([0] : List Nat) ≠ [1] ∧ tokEnc1 ≠ tokEnc2 ∧
    decodeStateEncrypted (some tokEnc1) "a" = .ok ⟨.jarr [], orJ .jnull .jnull⟩ ∧
    decodeStateEncrypted (some tokEnc2) "a" = .ok ⟨.jarr [], orJ .jnull .jnull⟩ := by
  have h1 : encodeStateEncrypted [] .jnull "a" [0] [2] = some tokEnc1 := by
    rw [tokEnc1, encSE_eq [] .jnull "a" [0] [2] serOk_empty]
    rfl
  have h2 : encodeStateEncrypted [] .jnull "a" [1] [2] = some tokEnc2 := by
    rw [tokEnc2, encSE_eq [] .jnull "a" [1] [2] serOk_empty]
    rfl
  have h := claim_c5 [] .jnull "a" [0] [2] [1] [2] (by decide) (by decide) (by decide)
    (by decide) (by decide) serOk_empty h1 h2
  exact ⟨by decide, h.1, h.2.1, h.2.2⟩

/-! ## Claims C8, C9, C10 -/

/-- C8 (amended to what the code does): on decode, every numeric stored
timestamp is read as Unix seconds unconditionally — multiplied by 1000 into
a `Date` with no plausibility check, no seconds/milliseconds detection and
no fallback to the current time. -/
theorem claim_c8 (u : Int) (e : JVal)
    (hts : getField e "timestamp" = .jnum (some u)) :
    getField (normalizeTs e) "timestamp" = .jdate (some (u * 1000)) := by
  show getField (.jobj (setField (spreadFields e) "timestamp"
      (match getField e "timestamp" with
       | .jdate t => .jdate t
       | .jnum n => decompressTimestamp (.jnum n)
       | v => newDate v))) "timestamp" = .jdate (some (u * 1000))
  rw [getField_set_self, hts]
  rfl

theorem claim_c8_witness :
    getField (.jobj [("timestamp", .jnum (some 99999999999))]) "timestamp"
      = .jnum (some 99999999999) ∧
    getField (normalizeTs (.jobj [("timestamp", .jnum (some 99999999999))])) "timestamp"
      = .jdate (some (99999999999 * 1000)) :=
  ⟨rfl, claim_c8 99999999999 _ rfl⟩

set_option maxRecDepth 10000 in
/-- C8 counterexample to the plausibility check and to seconds/milliseconds
detection: a stored `99999999999` (beyond the 32-bit seconds ceiling)
decodes to that many seconds, not to the current time; a stored
milliseconds value `1700000000000` is still read as seconds, giving an
instant a thousandfold too late. -/
theorem claim_c8_counterexample :
    dateMsOf (tsOf ((decodeState nowX (some tokBigTs)).data.headD .jnull))
      = some 99999999999000 ∧
    dateMsOf (tsOf ((decodeState nowX (some tokLegacyMs)).data.headD .jnull))
      = some 1700000000000000 := by
  have h1 : tokBigTs = String.mk (toUrlSafe (btoaL (utf8EncodeL ((writeJF 100
      (.jobj [("r", .jarr [.jobj [("t", .jstr "feeding"),
                                  ("ts", .jnum (some 99999999999))]]),
              ("s", .jarr [])])).getD [])))) := by
    rw [tokBigTs, wr_evalF 100 (by decide)]
  have h2 : tokLegacyMs = String.mk (toUrlSafe (btoaL (utf8EncodeL ((writeJF 100
      (.jobj [("data", .jarr [.jobj [("eventType", .jstr "feeding"),
                                     ("timestamp", .jnum (some 1700000000000))]]),
              ("config", .jnull)])).getD [])))) := by
    rw [tokLegacyMs, wr_evalF 100 (by decide)]
  refine ⟨by rw [h1]; decide, by rw [h2]; decide⟩

/-- C9 (amended to what the code does): the decoded events of an encoded
well-formed array come out sorted ascending by timestamp — the decoder
merges recent and summary-derived events and sorts, so the input order is
not preserved (`claim_c9_counterexample`). -/
theorem claim_c9 (now tz : Int) (E : List JVal) (hwf : ∀ e ∈ E, eventWF e) :
    List.Pairwise (fun a b => tsLe a b = true)
      ((decodeState now (some (encTok now tz E))).data) := by
  rw [(decode_encode now tz E hwf).2.1]
  have hmerged := decMerged_ts now tz E hwf
  have hval : ∀ e ∈ decMerged now (encRec now tz E) (encSums now tz E),
      (tsSortMs e).isSome = true := by
    intro e he
    obtain ⟨m, hm⟩ := hmerged e he
    rw [tsSortMs_jdate hm]
    rfl
  rw [List.pairwise_map]
  apply (jsSortByTs_sorted hval).imp_of_mem
  intro a b ha hb hab
  obtain ⟨ma, hma⟩ := hmerged a ((jsSortByTs_perm _).mem_iff.mp ha)
  obtain ⟨mb, hmb⟩ := hmerged b ((jsSortByTs_perm _).mem_iff.mp hb)
  rw [tsLe, tsSortMs_jdate hma, tsSortMs_jdate hmb] at hab
  rw [tsLe, tsSortMs_normalizeTs hma, tsSortMs_normalizeTs hmb]
  exact hab

theorem claim_c9_witness :
    (∀ e ∈ [mkEv "feeding" 1699999200000, mkEv "peeing" 1699920000000], eventWF e) ∧
    List.Pairwise (fun a b => tsLe a b = true)
      ((decodeState nowX (some (encTok nowX 0
          [mkEv "feeding" 1699999200000, mkEv "peeing" 1699920000000]))).data) := by
  have hwf : ∀ e ∈ [mkEv "feeding" 1699999200000, mkEv "peeing" 1699920000000],
      eventWF e := by
    intro e he
    simp only [List.mem_cons, List.not_mem_nil, or_false] at he
    rcases he with rfl | rfl
    · exact eventWF_mkEv _ (by decide) (by decide)
    · exact eventWF_mkEv _ (by decide) (by decide)
  exact ⟨hwf, claim_c9 nowX 0 _ hwf⟩

set_option maxRecDepth 10000 in
/-- C9 counterexample to order preservation: the pair `[evLate, evEarly]`
(late first) decodes with the earlier event first. -/
theorem claim_c9_counterexample :
    dateMsOf (tsOf evLate) = some 1699999200000 ∧
    dateMsOf (tsOf evEarly) = some 1699920000000 ∧
    (decodeState nowX (some tokPair)).data.map (fun e => dateMsOf (tsOf e))
      = [some 1699920000000, some 1699999200000] := by
  have htok : tokPair = (encodeStateF 100 nowX 0 [evLate, evEarly]).getD "" := by
    rw [tokPair, encodeState_evalF 100 (by decide)]
  refine ⟨rfl, rfl, by rw [htok]; decide⟩

/-- C10 (implicit): whatever the input, every event the plain decoder
returns carries a `Date` timestamp (possibly invalid) — numbers went
through the seconds conversion and everything else through the `Date`
constructor. -/
theorem claim_c10 (now : Int) (input : Option String) :
    ∀ e ∈ (decodeState now input).data, ∃ d, tsOf e = .jdate d := by
  intro e he
  cases input with
  | none => exact absurd he (List.not_mem_nil e)
  | some s =>
      rw [decodeState_some] at he
      by_cases hs : s = ""
      · rw [if_pos hs] at he
        exact absurd he (List.not_mem_nil e)
      · rw [if_neg hs] at he
        cases hdt : decodeTry now s.data with
        | none =>
            rw [hdt] at he
            exact absurd he (List.not_mem_nil e)
        | some st =>
            rw [hdt] at he
            have he2 : e ∈ st.data := he
            obtain ⟨evs, hdata⟩ := decodeTry_shape hdt
            rw [hdata] at he2
            obtain ⟨ev, _, rfl⟩ := List.mem_map.mp he2
            exact normalizeTs_shape ev

set_option maxRecDepth 10000 in
theorem claim_c10_witness :
    ∃ d, tsOf ((decodeState nowX (some tokLegacyMs)).data.headD .jnull) = .jdate d := by
  apply claim_c10 nowX (some tokLegacyMs)
  apply headD_mem
  intro hnil
  have hlen : (decodeState nowX (some tokLegacyMs)).data.length = 1 := by
    have h2 : tokLegacyMs = String.mk (toUrlSafe (btoaL (utf8EncodeL ((writeJF 100
        (.jobj [("data", .jarr [.jobj [("eventType", .jstr "feeding"),
                                       ("timestamp", .jnum (some 1700000000000))]]),
                ("config", .jnull)])).getD [])))) := by
      rw [tokLegacyMs, wr_evalF 100 (by decide)]
    rw [h2]
    decide
  rw [hnil] at hlen
  exact absurd hlen (by decide)

end BabyCodec
